import Mathlib

/-!
Verification of the DOI-Validator extraction and matching pipeline.

Strings are modelled as `List Char` (Python `str` as a sequence of code points).
Python's `re` substitutions and searches are embedded as deterministic scanners
specialised to the concrete patterns appearing in the source; every scanner is
annotated with the regex it implements.  Unicode-library behaviour
(`unicodedata.normalize`, case mapping) is modelled on the fragment of code
points this development manipulates, as documented at each definition.
Fractional scores are modelled with `ℚ`.
-/

namespace DOIV

/-- Soft hyphen U+00AD. -/
def cSHY : Char := Char.ofNat 0xAD

/-- Combining acute accent U+0301. -/
def cAcute : Char := Char.ofNat 0x301

/-- Precomposed letter a with acute U+00E1. -/
def cAacute : Char := Char.ofNat 0xE1

/-- Form feed U+000C. -/
def cFF : Char := Char.ofNat 0xC

/-- Double quote. -/
def cDQ : Char := Char.ofNat 34

/-- Single quote. -/
def cSQ : Char := Char.ofNat 39

/-- Opening curly brace. -/
def cLB : Char := Char.ofNat 123

/-- Closing curly brace. -/
def cRB : Char := Char.ofNat 125

/-- Backslash. -/
def cBS : Char := Char.ofNat 92

/-- Backtick. -/
def cBT : Char := Char.ofNat 96

/-- Left curly double quote U+201C. -/
def cLQ : Char := Char.ofNat 0x201C

/-- Right curly double quote U+201D. -/
def cRQ : Char := Char.ofNat 0x201D

/-- En dash U+2013. -/
def cEnDash : Char := Char.ofNat 0x2013

/-- Em dash U+2014. -/
def cEmDash : Char := Char.ofNat 0x2014

/-- Python regex `\s` (equivalently `str.isspace` on the characters used here):
ASCII whitespace plus the Unicode whitespace code points Python treats as `\s`. -/
def isPySpace (c : Char) : Bool :=
  let n := c.toNat
  n == 32 || n == 9 || n == 10 || n == 13 || n == 11 || n == 12 ||
  n == 0x1C || n == 0x1D || n == 0x1E || n == 0x1F || n == 0x85 || n == 0xA0 ||
  n == 0x1680 || (Nat.ble 0x2000 n && Nat.ble n 0x200A) ||
  n == 0x2028 || n == 0x2029 || n == 0x202F || n == 0x205F || n == 0x3000

/-- ASCII decimal digit. -/
def isDigit (c : Char) : Bool :=
  Nat.ble 48 c.toNat && Nat.ble c.toNat 57

/-- ASCII uppercase letter. -/
def isAsciiUpper (c : Char) : Bool :=
  Nat.ble 65 c.toNat && Nat.ble c.toNat 90

/-- ASCII lowercase letter. -/
def isAsciiLower (c : Char) : Bool :=
  Nat.ble 97 c.toNat && Nat.ble c.toNat 122

/-- ASCII letter. -/
def isAsciiLetter (c : Char) : Bool :=
  isAsciiUpper c || isAsciiLower c

/-- Python regex `\w` on the modelled character set: ASCII alphanumerics,
underscore, and the Latin letter blocks containing the accented letters of this
development (multiplication and division signs excluded, as are combining
marks, the soft hyphen and punctuation). -/
def isWordChar (c : Char) : Bool :=
  let n := c.toNat
  isAsciiLetter c || isDigit c || c == '_' ||
  (Nat.ble 0xC0 n && Nat.ble n 0x24F && n != 0xD7 && n != 0xF7) ||
  (Nat.ble 0x1E00 n && Nat.ble n 0x1EFF)

/-- Python `str.lower` on the modelled character set: ASCII case mapping plus
the accented uppercase letters used in the heading keywords. -/
def toLowerC (c : Char) : Char :=
  if isAsciiUpper c then Char.ofNat (c.toNat + 32)
  else if [0xC1, 0xC9, 0xCD, 0xD3, 0xDA, 0xD1].contains c.toNat then Char.ofNat (c.toNat + 32)
  else c

/-- Python `str.lower` over a string. -/
def lowerStr (s : List Char) : List Char := s.map toLowerC

/-- Python `str.strip()` (strips the whitespace class on both ends). -/
def stripWs (s : List Char) : List Char :=
  ((s.dropWhile isPySpace).reverse.dropWhile isPySpace).reverse

/-- Python `re.sub(r"\s+", "", s)`: removing every whitespace run is removing
every whitespace character. -/
def compactWs (s : List Char) : List Char := s.filter (fun c => !isPySpace c)

/-- Length of the maximal whitespace run at the head (greedy `\s*`). -/
def wsRunLen : List Char → Nat
  | [] => 0
  | c :: rest => if isPySpace c then wsRunLen rest + 1 else 0

/-- Scanner for `collapseWs`; the flag records whether the current position is
inside a whitespace run whose single replacement space was already emitted. -/
def collapseWsAux : Bool → List Char → List Char
  | _, [] => []
  | pw, c :: rest =>
    if isPySpace c then
      if pw then collapseWsAux true rest else ' ' :: collapseWsAux true rest
    else c :: collapseWsAux false rest

/-- Python `re.sub(r"\s+", " ", s)`: each maximal whitespace run becomes one space. -/
def collapseWs (s : List Char) : List Char := collapseWsAux false s

/-- `leadsWith p s` holds when `p` is an initial segment of `s`. -/
def leadsWith : List Char → List Char → Bool
  | [], _ => true
  | _ :: _, [] => false
  | p :: ps, c :: cs => p == c && leadsWith ps cs

/-- Whether `pat` occurs as a contiguous substring of `s`. -/
def containsSub (pat : List Char) : List Char → Bool
  | [] => leadsWith pat []
  | c :: rest => leadsWith pat (c :: rest) || containsSub pat rest

/-- Python `str.replace(pat, rep)` for a non-empty literal `pat`: scan left to
right, replace non-overlapping occurrences. -/
def replaceAllLitAux (pat rep : List Char) : Nat → List Char → List Char
  | 0, s => s
  | _ + 1, [] => []
  | fuel + 1, c :: rest =>
    if pat.length != 0 && leadsWith pat (c :: rest) then
      rep ++ replaceAllLitAux pat rep fuel (rest.drop (pat.length - 1))
    else c :: replaceAllLitAux pat rep fuel rest

/-- The scan with the fuel it actually needs (one unit per consumed character). -/
def replaceAllLit (pat rep : List Char) (s : List Char) : List Char :=
  replaceAllLitAux pat rep s.length s

/-- Combining tilde U+0303. -/
def cTilde : Char := Char.ofNat 0x303

/-- Canonical composition table on the modelled Unicode fragment: Latin letters
composing with the combining acute accent or combining tilde
(`unicodedata.normalize("NFKC", ...)` composes exactly these pairs; the
remaining modelled code points are NFKC fixed points). -/
def composeAcuteTable : List (Char × Nat) :=
  [('a', 0xE1), ('e', 0xE9), ('i', 0xED), ('o', 0xF3), ('u', 0xFA), ('y', 0xFD),
   ('A', 0xC1), ('E', 0xC9), ('I', 0xCD), ('O', 0xD3), ('U', 0xDA), ('Y', 0xDD),
   ('p', 0x1E55), ('P', 0x1E54), ('s', 0x15B), ('S', 0x15A), ('z', 0x17A), ('Z', 0x179),
   ('c', 0x107), ('C', 0x106), ('l', 0x13A), ('L', 0x139), ('n', 0x144), ('N', 0x143),
   ('r', 0x155), ('R', 0x154), ('m', 0x1E3F), ('M', 0x1E3E), ('w', 0x1E83), ('W', 0x1E82),
   ('k', 0x1E31), ('K', 0x1E30), ('g', 0x1F5), ('G', 0x1F4)]

/-- Canonical composition on the modelled fragment. -/
def composeChar (x y : Char) : Option Char :=
  if y == cAcute then
    match composeAcuteTable.find? (fun p => p.1 == x) with
    | some p => some (Char.ofNat p.2)
    | none => none
  else if y == cTilde then
    if x == 'n' then some (Char.ofNat 0xF1)
    else if x == 'N' then some (Char.ofNat 0xD1)
    else if x == 'a' then some (Char.ofNat 0xE3)
    else if x == 'A' then some (Char.ofNat 0xC3)
    else if x == 'o' then some (Char.ofNat 0xF5)
    else if x == 'O' then some (Char.ofNat 0xD5)
    else none
  else none

/-- Composition scan of NFKC restricted to the modelled fragment (the fuel,
at least the input length at every reachable call, makes the recursion
structural). -/
def nfkcScan : Nat → List Char → List Char
  | 0, s => s
  | _ + 1, [] => []
  | _ + 1, [c] => [c]
  | fuel + 1, x :: y :: rest =>
    match composeChar x y with
    | some z => nfkcScan fuel (z :: rest)
    | none => x :: nfkcScan fuel (y :: rest)

/-- Composition scan of NFKC restricted to the modelled fragment. -/
def nfkcAux (s : List Char) : List Char := nfkcScan s.length s

/-- `src/pdf_extract.py::normalize_text`: NFKC normalization, soft-hyphen
removal, then `\r\n` and `\r` unified to `\n`. -/
def normalize_text (t : List Char) : List Char :=
  (replaceAllLit ['\r', '\n'] ['\n'] ((nfkcAux t).filter (fun c => c != cSHY))).map
    (fun c => if c == '\r' then '\n' else c)

/-- Generic left-to-right `re.sub` scanner for a deterministic pattern:
`f s` is the length of the (unique, greedy) match at the head of `s` (0 when
there is no match there); a match of length `n` is replaced by `rep` applied to
the matched chunk and scanning resumes after the match. -/
def subScanFAux (f : List Char → Nat) (rep : List Char → List Char) :
    Nat → List Char → List Char
  | 0, s => s
  | _ + 1, [] => []
  | fuel + 1, c :: rest =>
    let n := f (c :: rest)
    if n == 0 then c :: subScanFAux f rep fuel rest
    else rep ((c :: rest).take n) ++ subScanFAux f rep fuel (rest.drop (n - 1))

/-- The scan with the fuel it actually needs (one unit per consumed character). -/
def subScanF (f : List Char → Nat) (rep : List Char → List Char) (s : List Char) : List Char :=
  subScanFAux f rep s.length s

/-- `re.sub` with a constant replacement. -/
def subScan (f : List Char → Nat) (rep : List Char) : List Char → List Char :=
  subScanF f (fun _ => rep)

/-- Match length at the head for `-\s*\n\s*` (the whole whitespace run after
the hyphen is consumed exactly when it contains a newline). -/
def dashBreakLen : List Char → Nat
  | [] => 0
  | c :: rest =>
    if c == '-' then
      let w := wsRunLen rest
      if (rest.take w).contains '\n' then 1 + w else 0
    else 0

/-- Match length at the head for `/\s*\n\s*`. -/
def slashAfterLen : List Char → Nat
  | [] => 0
  | c :: rest =>
    if c == '/' then
      let w := wsRunLen rest
      if (rest.take w).contains '\n' then 1 + w else 0
    else 0

/-- Match length at the head for `\s*\n\s*/` (the whole maximal whitespace run,
containing a newline, immediately followed by a slash). -/
def slashBeforeLen (s : List Char) : Nat :=
  let w := wsRunLen s
  if (s.take w).contains '\n' && ((s.drop w).head? == some '/') then w + 1 else 0

/-- `src/doi_extract.py::normalize_text_for_doi_extraction`: repair of PDF
artefacts before DOI extraction (form feeds, hyphen line breaks, breaks
around a slash). -/
def normalize_text_for_doi_extraction (text : List Char) : List Char :=
  let t1 := text.map (fun c => if c == cFF then '\n' else c)
  let t2 := subScan dashBreakLen [] t1
  let t3 := subScan slashAfterLen ['/'] t2
  subScan slashBeforeLen ['/'] t3

/-- Match length at the head for `(\w)-\s*\n\s*(\w)`. -/
def hr1len : List Char → Nat
  | c :: d :: rest =>
    if isWordChar c && d == '-' then
      let w := wsRunLen rest
      if (rest.take w).contains '\n' then
        match (rest.drop w).head? with
        | some e => if isWordChar e then 2 + w + 1 else 0
        | none => 0
      else 0
    else 0
  | _ => 0

/-- Replacement `\1\2` for `hr1len`: first and last character of the chunk. -/
def hr1rep (chunk : List Char) : List Char :=
  chunk.take 1 ++ chunk.drop (chunk.length - 1)

/-- Match length at the head for `(\S)\s*\n\s*(\S)`. -/
def hr2len : List Char → Nat
  | c :: rest =>
    if !isPySpace c then
      let w := wsRunLen rest
      if (rest.take w).contains '\n' then
        match (rest.drop w).head? with
        | some d => if !isPySpace d then 1 + w + 1 else 0
        | none => 0
      else 0
    else 0
  | [] => 0

/-- Replacement `\1 \2` for `hr2len`. -/
def hr2rep (chunk : List Char) : List Char :=
  chunk.take 1 ++ [' '] ++ chunk.drop (chunk.length - 1)

/-- Match length at the head for `\s*/\s*`. -/
def hr3len (s : List Char) : Nat :=
  let w := wsRunLen s
  if (s.drop w).head? == some '/' then w + 1 + wsRunLen (s.drop (w + 1)) else 0

/-- `documento.py::_normalize_for_doi_harvest`: soft-hyphen removal, hyphen
line-break joins, plain line-break joins, slash whitespace normalization. -/
def _normalize_for_doi_harvest (t : List Char) : List Char :=
  let t1 := t.filter (fun c => c != cSHY)
  let t2 := subScanF hr1len hr1rep t1
  let t3 := subScanF hr2len hr2rep t2
  subScan hr3len ['/'] t3

/-- Strip a set of characters from the right end (Python `str.rstrip(chars)`,
also the effect of `re.sub(r"[...]+$", "", s)` for a character class). -/
def rstripSet (set : List Char) (s : List Char) : List Char :=
  (s.reverse.dropWhile (fun c => set.contains c)).reverse

/-- Character class of `re.sub(r"[.,;:)\]}\'\"]+$", "", doi)` in `clean_doi`. -/
def cleanTrailSet : List Char := ['.', ',', ';', ':', ')', ']', cRB, cSQ, cDQ]

/-- `documento.py::_TRAILING_PUNCT`. -/
def _TRAILING_PUNCT : List Char := ['.', ',', ';', ':', ')', ']', cRB, '>', cDQ, cSQ]

/-- `src/doi_extract.py::clean_doi`: general normalization, whitespace removal,
HTML entity decoding, trailing punctuation stripping. -/
def clean_doi (doi : List Char) : List Char :=
  let d1 := compactWs (normalize_text doi)
  let d2 := replaceAllLit "&quot;".data [] d1
  let d3 := replaceAllLit "&#34;".data [] d2
  let d4 := replaceAllLit "&nbsp;".data [] d3
  let d5 := replaceAllLit "&amp;".data ['&'] d4
  let d6 := replaceAllLit "&lt;".data ['<'] d5
  let d7 := replaceAllLit "&gt;".data ['>'] d6
  let d8 := rstripSet cleanTrailSet d7
  let d9 := if (d8.reverse.takeWhile (fun c => c == '.')).length ≥ 2 then
              (d8.reverse.dropWhile (fun c => c == '.')).reverse
            else d8
  stripWs d9

/-- Length of the maximal digit run at the head. -/
def digitRunLen (s : List Char) : Nat := (s.takeWhile isDigit).length

/-- Greedy consumption of `(?:\.\d+)*`: repeatedly take a dot followed by a
non-empty digit run.  This is deterministic: shorter choices would leave the
following mandatory `/` facing a dot or a digit. -/
def doiDotRunsAux : Nat → List Char → List Char
  | 0, s => s
  | fuel + 1, s =>
    match s with
    | c :: rest =>
      if c == '.' then
        let d := digitRunLen rest
        if d ≥ 1 then doiDotRunsAux fuel (rest.drop d) else s
      else s
    | [] => s

/-- The consumption with the fuel it actually needs. -/
def doiDotRuns (s : List Char) : List Char := doiDotRunsAux s.length s

/-- Remainder after `10\.\d{4,9}(?:\.\d+)*` at the head, or `none` if the
prefix does not match (`\d{4,9}` is a maximal digit run of length 4 to 9:
a longer run leaves a digit in front of the mandatory `/`, which fails for
every backtracking choice). -/
def doiNumTail : List Char → Option (List Char)
  | a :: b :: c :: rest =>
    if a == '1' && b == '0' && c == '.' then
      let d := digitRunLen rest
      if 4 ≤ d ∧ d ≤ 9 then some (doiDotRuns (rest.drop d)) else none
    else none
  | _ => none

/-- Forbidden characters of `is_valid_doi_format`. -/
def invalidDoiChars : List Char := ['<', '>', cDQ, cLB, cRB, '|', cBS, '^', cBT, ' ']

/-- `.+$` applied to the text after the slash: at least one character, `.` does
not cross a newline, and `$` matches at the end or just before a final newline. -/
def dotPlusToEnd (tail : List Char) : Bool :=
  if tail.getLast? == some '\n' then
    !tail.dropLast.isEmpty && !(tail.dropLast.contains '\n')
  else !tail.isEmpty && !(tail.contains '\n')

/-- `src/doi_extract.py::is_valid_doi_format`: shape check against
`^10\.\d{4,9}(?:\.\d+)*\/.+$`, suffix length, and forbidden characters. -/
def is_valid_doi_format (doi : List Char) : Bool :=
  let shape :=
    match doiNumTail doi with
    | some rest =>
      match rest with
      | '/' :: tail => dotPlusToEnd tail
      | _ => false
    | none => false
  if !shape then false
  else
    let beforeSlash := doi.takeWhile (fun c => c != '/')
    let suffix := stripWs (doi.drop (beforeSlash.length + 1))
    decide (suffix.length ≥ 2) && invalidDoiChars.all (fun c => !(doi.contains c))

/-- Character admissible in the DOI suffix group
`(?:(?![\"&\'<>])\S)+` of the multi-pattern extractor. -/
def isDoiSuffChar (c : Char) : Bool :=
  !isPySpace c && !([cDQ, '&', cSQ, '<', '>'].contains c)

/-- Length of the capture group `10\.\d{4,9}(?:\.\d+)*\/(?:(?![\"&\'<>])\S)+`
matched at the head of `s`, or `none`. -/
def doiGroupLen (s : List Char) : Option Nat :=
  match doiNumTail s with
  | some rest =>
    match rest with
    | '/' :: tail =>
      let k := (tail.takeWhile isDoiSuffChar).length
      if k ≥ 1 then some (s.length - (tail.length - k)) else none
    | _ => none
  | none => none

/-- Group and match length for the bracketed pattern 4: the greedy suffix run
backtracks so that the character right after the group is a closing bracket.
Returns `(groupLen, groupLen + 1)` including the consumed closer. -/
def doiGroupLenBr (s : List Char) : Option (Nat × Nat) :=
  match doiNumTail s with
  | some rest =>
    match rest with
    | '/' :: tail =>
      let k := (tail.takeWhile isDoiSuffChar).length
      let stem := s.length - (tail.length - k)
      match (List.range k).reverse.find?
          (fun j => 1 ≤ j && [']', ')', cRB].contains ((tail.drop j).headD ' ')) with
      | some j => some (stem - (k - j), stem - (k - j) + 1)
      | none =>
        if k ≥ 1 && [']', ')', cRB].contains ((tail.drop k).headD ' ') then
          some (stem, stem + 1)
        else none
    | _ => none
  | none => none

/-- A match descriptor: start position, match length, group offset inside the
match, group length. -/
structure MatchInfo where
  pos : Nat
  mlen : Nat
  goff : Nat
  glen : Nat
deriving DecidableEq, Repr

/-- `re.finditer` driver: at each position try a match (the matcher receives
the position and the text suffix starting there); on a match of length `n ≥ 1`
resume after it, otherwise advance one character. -/
def finditerAux (matchAt : Nat → List Char → Option (Nat × Nat × Nat)) (t : List Char) :
    Nat → Nat → List MatchInfo
  | 0, _ => []
  | fuel + 1, pos =>
    if pos > t.length then []
    else
      match matchAt pos (t.drop pos) with
      | some (ml, go, gl) =>
        if ml == 0 then finditerAux matchAt t fuel (pos + 1)
        else ⟨pos, ml, go, gl⟩ :: finditerAux matchAt t fuel (pos + ml)
      | none => finditerAux matchAt t fuel (pos + 1)

/-- All matches of a pattern over `t`. -/
def finditer (matchAt : Nat → List Char → Option (Nat × Nat × Nat)) (t : List Char) :
    List MatchInfo :=
  finditerAux matchAt t (t.length + 1) 0

/-- Pattern 1, `doi:\s*(10\....)` with `re.IGNORECASE`. -/
def p1MatchAt (_ : Nat) (s : List Char) : Option (Nat × Nat × Nat) :=
  if lowerStr (s.take 4) == "doi:".data then
    let w := wsRunLen (s.drop 4)
    match doiGroupLen (s.drop (4 + w)) with
    | some g => some (4 + w + g, 4 + w, g)
    | none => none
  else none

/-- Pattern 2, `https?://(?:dx\.)?doi\.org/(10\....)` with `re.IGNORECASE`. -/
def p2MatchAt (_ : Nat) (s : List Char) : Option (Nat × Nat × Nat) :=
  let afterScheme : Option Nat :=
    if lowerStr (s.take 8) == "https://".data then some 8
    else if lowerStr (s.take 7) == "http://".data then some 7
    else none
  match afterScheme with
  | none => none
  | some a =>
    let b := if lowerStr ((s.drop a).take 3) == "dx.".data then a + 3 else a
    if lowerStr ((s.drop b).take 8) == "doi.org/".data then
      match doiGroupLen (s.drop (b + 8)) with
      | some g => some (b + 8 + g, b + 8, g)
      | none => none
    else none

/-- Delimiter class `[\s\(\[{,;:]` of pattern 3. -/
def isP3Delim (c : Char) : Bool :=
  isPySpace c || ['(', '[', cLB, ',', ';', ':'].contains c

/-- Pattern 3, `(?:^|[\s\(\[{,;:])(10\....)`: the `^` branch applies only at
absolute position 0 (no `re.MULTILINE`), otherwise a delimiter is consumed. -/
def p3MatchAt (pos : Nat) (s : List Char) : Option (Nat × Nat × Nat) :=
  if pos == 0 then
    match doiGroupLen s with
    | some g => some (g, 0, g)
    | none =>
      match s with
      | c :: rest =>
        if isP3Delim c then
          match doiGroupLen rest with
          | some g => some (1 + g, 1, g)
          | none => none
        else none
      | [] => none
  else
    match s with
    | c :: rest =>
      if isP3Delim c then
        match doiGroupLen rest with
        | some g => some (1 + g, 1, g)
        | none => none
      else none
    | [] => none

/-- Pattern 4, `[\[\(\{](10\....)[\]\)\}]`. -/
def p4MatchAt (_ : Nat) (s : List Char) : Option (Nat × Nat × Nat) :=
  match s with
  | c :: rest =>
    if ['[', '(', cLB].contains c then
      match doiGroupLenBr rest with
      | some (g, m) => some (1 + m, 1, g)
      | none => none
    else none
  | [] => none

/-- Pattern 5, `(?:DOI|doi|Doi)[\s:]+(10\....)` with `re.IGNORECASE` (the
alternation is any casing of `doi` under the flag). -/
def p5MatchAt (_ : Nat) (s : List Char) : Option (Nat × Nat × Nat) :=
  if lowerStr (s.take 3) == "doi".data then
    let w := ((s.drop 3).takeWhile (fun c => isPySpace c || c == ':')).length
    if w ≥ 1 then
      match doiGroupLen (s.drop (3 + w)) with
      | some g => some (3 + w + g, 3 + w, g)
      | none => none
    else none
  else none

/-- One extracted DOI record (`doi_extract.py` / `documento.py` record dicts,
restricted to the fields populated at extraction time). -/
structure DoiRecord where
  doi : List Char
  raw : List Char
  pattern : List Char
  position : Nat
  context : List Char
deriving DecidableEq, Repr

/-- Context window around a match: `max_context` characters each side,
newlines replaced by spaces, stripped. -/
def mkContext (t : List Char) (mstart mend mc : Nat) : List Char :=
  let start := mstart - mc
  let stop := min t.length (mend + mc)
  stripWs (((t.drop start).take (stop - start)).map (fun c => if c == '\n' then ' ' else c))

/-- The captured group text of a match. -/
def rawOfMatch (t : List Char) (m : MatchInfo) : List Char :=
  ((t.drop m.pos).drop m.goff).take m.glen

/-- One record of `extract_dois_from_text`: a match whose cleaned DOI is empty
or fails validation is silently discarded. -/
def recordOfMatch (t label : List Char) (mc : Nat) (m : MatchInfo) : Option DoiRecord :=
  if (clean_doi (rawOfMatch t m)).isEmpty ||
      !is_valid_doi_format (clean_doi (rawOfMatch t m)) then none
  else some ⟨clean_doi (rawOfMatch t m), rawOfMatch t m, label, m.pos,
             mkContext t m.pos (m.pos + m.mlen) mc⟩

/-- Records produced by one pattern of `extract_dois_from_text`. -/
def recordsOfPattern (t : List Char) (label : List Char) (mc : Nat)
    (matchAt : Nat → List Char → Option (Nat × Nat × Nat)) : List DoiRecord :=
  (finditer matchAt t).filterMap (recordOfMatch t label mc)

/-- Stable insertion by ascending `position` (a record is placed before the
first strictly larger position, hence after earlier equal positions). -/
def insertByPos (d : DoiRecord) : List DoiRecord → List DoiRecord
  | [] => [d]
  | e :: rest => if e.position < d.position then e :: insertByPos d rest else d :: e :: rest

/-- Stable sort by ascending `position` (Python's stable `list.sort(key=position)`). -/
def sortByPos : List DoiRecord → List DoiRecord
  | [] => []
  | d :: rest => insertByPos d (sortByPos rest)

/-- `src/doi_extract.py::extract_dois_from_text`: repair, normalize, scan with
the five patterns in order, validate, sort by position.  No deduplication. -/
def extract_dois_from_text (text : List Char) (max_context : Nat := 60) : List DoiRecord :=
  let repaired := normalize_text_for_doi_extraction text
  let t := normalize_text repaired
  sortByPos
    (recordsOfPattern t ("Patrón 1".data) max_context p1MatchAt ++
     recordsOfPattern t ("Patrón 2".data) max_context p2MatchAt ++
     recordsOfPattern t ("Patrón 3".data) max_context p3MatchAt ++
     recordsOfPattern t ("Patrón 4".data) max_context p4MatchAt ++
     recordsOfPattern t ("Patrón 5".data) max_context p5MatchAt)

/-- Suffix class `[-._;()/:A-Z0-9]` with `re.IGNORECASE`. -/
def isRobustSuffChar (c : Char) : Bool :=
  isDigit c || isAsciiLetter c || ['-', '.', '_', ';', '(', ')', '/', ':'].contains c

/-- `documento.py::_DOI_REGEX_ROBUST`
`(10\.\d{4,9}(?:\.\d+)*\s*/\s*[-._;()/:A-Z0-9]+)` with `re.IGNORECASE`;
the group is the whole match. -/
def robustMatchAt (_ : Nat) (s : List Char) : Option (Nat × Nat × Nat) :=
  match s with
  | '1' :: '0' :: '.' :: rest =>
    let d := digitRunLen rest
    if 4 ≤ d ∧ d ≤ 9 then
      let r2 := doiDotRuns (rest.drop d)
      let w := wsRunLen r2
      match r2.drop w with
      | '/' :: tail =>
        let w2 := wsRunLen tail
        let k := ((tail.drop w2).takeWhile isRobustSuffChar).length
        if k ≥ 1 then
          let g := s.length - (tail.length - w2 - k)
          some (g, 0, g)
        else none
      | _ => none
    else none
  | _ => none

/-- The stripped raw group of one robust match. -/
def robustRaw (t : List Char) (m : MatchInfo) : List Char :=
  rstripSet _TRAILING_PUNCT (stripWs ((t.drop m.pos).take m.glen))

/-- One record of `extract_dois_robust` (clean, strip trailing punctuation,
validate; failures are discarded). -/
def robustRecordOfMatch (t : List Char) (mc : Nat) (m : MatchInfo) : Option DoiRecord :=
  if (rstripSet _TRAILING_PUNCT (clean_doi (robustRaw t m))).isEmpty ||
      !is_valid_doi_format (rstripSet _TRAILING_PUNCT (clean_doi (robustRaw t m))) then none
  else some ⟨rstripSet _TRAILING_PUNCT (clean_doi (robustRaw t m)), robustRaw t m,
             "Robusto".data, m.pos, mkContext t m.pos (m.pos + m.mlen) mc⟩

/-- Pre-deduplication record list of `extract_dois_robust` (harvest-normalize,
scan, clean, validate, sort by position). -/
def extract_dois_robust_records (text : List Char) (max_context : Nat := 60) : List DoiRecord :=
  let t := _normalize_for_doi_harvest (normalize_text text)
  sortByPos ((finditer robustMatchAt t).filterMap (robustRecordOfMatch t max_context))

/-- Deduplication loop of `extract_dois_robust`: keep the first record (in
sorted order) of each lowercased DOI. -/
def dedupByLowerDoi : List DoiRecord → List (List Char) → List DoiRecord
  | [], _ => []
  | d :: rest, seen =>
    if seen.contains (lowerStr d.doi) then dedupByLowerDoi rest seen
    else d :: dedupByLowerDoi rest (lowerStr d.doi :: seen)

/-- `documento.py::extract_dois_robust`. -/
def extract_dois_robust (text : List Char) (max_context : Nat := 60) : List DoiRecord :=
  dedupByLowerDoi (extract_dois_robust_records text max_context) []

/-- Python `str.splitlines` line-terminator characters (besides `\r\n`). -/
def isLineBreakChar (c : Char) : Bool :=
  let n := c.toNat
  n == 10 || n == 13 || n == 11 || n == 12 || n == 0x1C || n == 0x1D || n == 0x1E ||
  n == 0x85 || n == 0x2028 || n == 0x2029

/-- Python `str.splitlines` (accumulator holds the current line reversed);
`\r\n` counts as a single line break. -/
def pySplitlinesAux (acc : List Char) : List Char → List (List Char)
  | [] => if acc.isEmpty then [] else [acc.reverse]
  | [c] =>
    if isLineBreakChar c then [acc.reverse]
    else [(c :: acc).reverse]
  | c :: d :: rest =>
    if isLineBreakChar c then
      if c == '\r' && d == '\n' then acc.reverse :: pySplitlinesAux [] rest
      else acc.reverse :: pySplitlinesAux [] (d :: rest)
    else pySplitlinesAux (c :: acc) (d :: rest)

/-- Python `str.splitlines`. -/
def pySplitlines (s : List Char) : List (List Char) := pySplitlinesAux [] s

/-- Consume a literal keyword case-insensitively; `none` if it is not a prefix. -/
def matchWordIC (w : List Char) (s : List Char) : Option (List Char) :=
  if lowerStr (s.take w.length) == w then some (s.drop w.length) else none

/-- Consume a heading alternative given as words that must be separated by at
least one whitespace character (the `\s+` of the verbose pattern). -/
def matchWords : List (List Char) → List Char → Option (List Char)
  | [], s => some s
  | w :: ws, s =>
    match matchWordIC w s with
    | none => none
    | some r =>
      match ws with
      | [] => some r
      | _ :: _ =>
        let k := wsRunLen r
        if k ≥ 1 then matchWords ws (r.drop k) else none

/-- Trailing `\s*[:\-]?\s*$` of the heading patterns. -/
def headingTailOk (s : List Char) : Bool :=
  let r := s.dropWhile isPySpace
  match r with
  | [] => true
  | c :: r2 => if c == ':' || c == '-' then (r2.dropWhile isPySpace).isEmpty else false

/-- Alternatives of `src/references.py::REF_START` (spelling variants of the
bracketed character classes expanded). -/
def refStartAlts : List (List (List Char)) :=
  [["references".data], ["bibliography".data], ["works".data, "cited".data],
   ["literature".data, "cited".data], ["referencias".data],
   ["bibliografia".data], ["bibliografía".data],
   ["referencias".data, "bibliograficas".data], ["referencias".data, "bibliográficas".data],
   ["obras".data, "citadas".data], ["literatura".data, "citada".data]]

/-- Alternatives of `src/references.py::REF_END`. -/
def refEndAlts : List (List (List Char)) :=
  [["appendix".data], ["apendice".data], ["apéndice".data], ["annex".data], ["anexo".data],
   ["acknowledgments".data], ["acknowledgements".data], ["agradecimientos".data],
   ["supplementary".data], ["material".data, "suplementario".data],
   ["funding".data], ["financiamiento".data],
   ["author".data, "contributions".data],
   ["contribucion".data, "de".data, "autores".data], ["contribución".data, "de".data, "autores".data],
   ["conflict".data, "of".data, "interest".data],
   ["conflicto".data, "de".data, "interes".data], ["conflicto".data, "de".data, "interés".data]]

/-- Whole-line heading match
`^\s*(?:\d+[\.\)]\s*)?(?:...alternatives...)\s*[:\-]?\s*$` (case-insensitive):
the optional numbering token is tried both taken and skipped. -/
def headingMatch (alts : List (List (List Char))) (line : List Char) : Bool :=
  let s := line.dropWhile isPySpace
  let core := fun (t : List Char) =>
    alts.any (fun alt =>
      match matchWords alt t with
      | some r => headingTailOk r
      | none => false)
  core s ||
    (let d := digitRunLen s
     if d ≥ 1 then
       match s.drop d with
       | c :: r2 => if c == '.' || c == ')' then core (r2.dropWhile isPySpace) else false
       | [] => false
     else false)

/-- `re.match` of `src/references.py::REF_START` on a line. -/
def refStartMatch (line : List Char) : Bool := headingMatch refStartAlts line

/-- `re.match` of `src/references.py::REF_END` on a line. -/
def refEndMatch (line : List Char) : Bool := headingMatch refEndAlts line

/-- Index of the first line whose stripped form matches `REF_START`. -/
def sliceStartIdx (t : List Char) : Option Nat :=
  (pySplitlines t).findIdx? (fun l => refStartMatch (stripWs l))

/-- First terminator index: the first `j > st` whose stripped line matches
`REF_END` and is at least `min_lines_after` past the start; the text length
otherwise. -/
def sliceEndFrom (lines : List (List Char)) (st min_lines_after : Nat) : Nat :=
  match ((List.range (lines.length - (st + 1))).map (fun k => st + 1 + k)).find?
      (fun j => refEndMatch (stripWs (lines.getD j [])) && decide (min_lines_after ≤ j - st)) with
  | some j => j
  | none => lines.length

/-- Candidate section text (joined lines from start to terminator, stripped);
empty when no start heading exists. -/
def sliceRefText (t : List Char) (min_lines_after : Nat) : List Char :=
  match sliceStartIdx t with
  | none => []
  | some st =>
    let lines := pySplitlines t
    stripWs (List.intercalate ['\n'] ((lines.drop st).take (sliceEndFrom lines st min_lines_after - st)))

/-- `src/references.py::slice_references_section`. -/
def slice_references_section (full_text : List Char) (min_lines_after : Nat := 12) :
    List Char × Option Nat × Option Nat :=
  match sliceStartIdx full_text with
  | none => (full_text, none, none)
  | some st =>
    if (sliceRefText full_text min_lines_after).length < 250 then (full_text, none, none)
    else (sliceRefText full_text min_lines_after, some st,
          some (sliceEndFrom (pySplitlines full_text) st min_lines_after))

/-- Match length at the head for `https?://\S+` with `re.IGNORECASE`
(used in `extract_bibliographic_title`). -/
def urlLenIC (s : List Char) : Nat :=
  if lowerStr (s.take 8) == "https://".data then
    let k := ((s.drop 8).takeWhile (fun c => !isPySpace c)).length
    if k ≥ 1 then 8 + k else 0
  else if lowerStr (s.take 7) == "http://".data then
    let k := ((s.drop 7).takeWhile (fun c => !isPySpace c)).length
    if k ≥ 1 then 7 + k else 0
  else 0

/-- Match length at the head for `https?://\S+` case-sensitively
(used in `app.py::extract_title_by_style`, which passes no flags). -/
def urlLenCS (s : List Char) : Nat :=
  if leadsWith "https://".data s then
    let k := ((s.drop 8).takeWhile (fun c => !isPySpace c)).length
    if k ≥ 1 then 8 + k else 0
  else if leadsWith "http://".data s then
    let k := ((s.drop 7).takeWhile (fun c => !isPySpace c)).length
    if k ≥ 1 then 7 + k else 0
  else 0

/-- Match length at the head for `doi:\s*\S+` with `re.IGNORECASE`. -/
def doiColonLen (s : List Char) : Nat :=
  if lowerStr (s.take 4) == "doi:".data then
    let w := wsRunLen (s.drop 4)
    let k := ((s.drop (4 + w)).takeWhile (fun c => !isPySpace c)).length
    if k ≥ 1 then 4 + w + k else 0
  else 0

/-- Match length at the head for the bare-DOI removal pattern
`10\.\d{4,9}(?:\.\d+)*\/\S+` (`\b` handled by the scanner). -/
def bareDoiLen (s : List Char) : Nat :=
  match doiNumTail s with
  | some rest =>
    match rest with
    | '/' :: tail =>
      let k := (tail.takeWhile (fun c => !isPySpace c)).length
      if k ≥ 1 then s.length - (tail.length - k) else 0
    | _ => 0
  | none => 0

/-- `re.sub` scanner for patterns guarded by a leading `\b`: the pattern starts
with a word character, so the boundary holds exactly when the previous kept or
consumed character was not a word character (or at the string start). -/
def subScanWBAux (f : List Char → Nat) : Nat → Bool → List Char → List Char
  | 0, _, s => s
  | _ + 1, _, [] => []
  | fuel + 1, pw, c :: rest =>
    let n := if pw then 0 else f (c :: rest)
    if n == 0 then c :: subScanWBAux f fuel (isWordChar c) rest
    else
      subScanWBAux f fuel
        (match ((c :: rest).take n).getLast? with
         | some lc => isWordChar lc
         | none => false) (rest.drop (n - 1))

/-- The boundary-guarded scan with the fuel it actually needs. -/
def subScanWB (f : List Char → Nat) (pw : Bool) (s : List Char) : List Char :=
  subScanWBAux f s.length pw s

/-- Whether `\(\s*n\.d\.\s*\)` (case-insensitive) matches at the head. -/
def ndAt (s : List Char) : Bool :=
  match s with
  | '(' :: r =>
    let w := wsRunLen r
    let r2 := r.drop w
    if lowerStr (r2.take 4) == "n.d.".data then
      let r3 := r2.drop 4
      ((r3.drop (wsRunLen r3)).head? == some ')')
    else false
  | _ => false

/-- `re.search` for `\(\s*n\.d\.\s*\)` (case-insensitive). -/
def hasNd : List Char → Bool
  | [] => false
  | c :: rest => ndAt (c :: rest) || hasNd rest

/-- `\s*\)` check after the year/n.d. core. -/
def closeParenAfterWs (r : List Char) : Bool :=
  (r.drop (wsRunLen r)).head? == some ')'

/-- Length of the alternation `((?:19|20)\d{2}[a-z]?|n\.d\.)` at the head
(case-insensitive), provided the following `\s*\)` succeeds (the optional
letter is kept only when the close then succeeds, mirroring backtracking);
`none` when no alternative matches. -/
def yearCoreLen (r1 : List Char) : Option Nat :=
  match r1 with
  | a :: b :: c2 :: d2 :: rest2 =>
    if ((a == '1' && b == '9') || (a == '2' && b == '0')) && isDigit c2 && isDigit d2 then
      match rest2 with
      | e :: rest3 =>
        if isAsciiLetter e && closeParenAfterWs rest3 then some 5
        else if closeParenAfterWs rest2 then some 4
        else none
      | [] => if closeParenAfterWs rest2 then some 4 else none
    else if lowerStr (r1.take 4) == "n.d.".data && closeParenAfterWs (r1.drop 4) then some 4
    else none
  | _ =>
    if lowerStr (r1.take 4) == "n.d.".data && closeParenAfterWs (r1.drop 4) then some 4
    else none

/-- Total length of `\(\s*((?:19|20)\d{2}[a-z]?|n\.d\.)\s*\)\s*` at the head
(i.e. `m.end() - m.start()` including the trailing whitespace), or `none`. -/
def yearParenAt (s : List Char) : Option Nat :=
  match s with
  | '(' :: r =>
    let w1 := wsRunLen r
    let r1 := r.drop w1
    match yearCoreLen r1 with
    | some n =>
      let after := r1.drop n
      let w2 := wsRunLen after
      let afterClose := after.drop (w2 + 1)
      some (1 + w1 + n + w2 + 1 + wsRunLen afterClose)
    | none => none
  | _ => none

/-- `re.search` for the year-paren pattern: position and total length of the
leftmost match. -/
def yearParenSearch : Nat → List Char → Option (Nat × Nat)
  | _, [] => none
  | i, c :: rest =>
    match yearParenAt (c :: rest) with
    | some n => some (i, n)
    | none => yearParenSearch (i + 1) rest

/-- Match length at the head for `\bRetrieved\s+from\b` (case-insensitive,
trailing boundary checked on the following character). -/
def retrievedFromLen (s : List Char) : Nat :=
  if lowerStr (s.take 9) == "retrieved".data then
    let w := wsRunLen (s.drop 9)
    if w ≥ 1 && lowerStr ((s.drop (9 + w)).take 4) == "from".data then
      match (s.drop (9 + w + 4)).head? with
      | some d => if isWordChar d then 0 else 9 + w + 4
      | none => 9 + w + 4
    else 0
  else 0

/-- `re.split(r"\bRetrieved\s+from\b", s, maxsplit=1)[0]`: the text before the
first boundary-guarded occurrence. -/
def beforeRetrievedFrom : Bool → List Char → List Char
  | _, [] => []
  | pw, c :: rest =>
    if !pw && retrievedFromLen (c :: rest) != 0 then []
    else c :: beforeRetrievedFrom (isWordChar c) rest

/-- Quote characters of the fallback pattern `["“”](.+?)["“”]`. -/
def isBibQuote (c : Char) : Bool := c == cDQ || c == cLQ || c == cRQ

/-- Scan for the lazy quoted group starting after an opening quote: content
characters may not be newlines; the first quote character after at least one
content character closes the group. -/
def quoteGroupFrom (acc : List Char) : List Char → Option (List Char)
  | [] => none
  | c :: rest =>
    if c == '\n' then none
    else if isBibQuote c && !acc.isEmpty then some acc.reverse
    else quoteGroupFrom (c :: acc) rest

/-- `re.search(r"["“”](.+?)["“”]", s)`: group of the leftmost match. -/
def bibQuoteSearch : List Char → Option (List Char)
  | [] => none
  | c :: rest =>
    if isBibQuote c then
      match quoteGroupFrom [] rest with
      | some g => some g
      | none => bibQuoteSearch rest
    else bibQuoteSearch rest

/-- Python `s.split(sep)` for a single separator character (keeps empties). -/
def splitOnChar (sep : Char) : List Char → List (List Char)
  | [] => [[]]
  | c :: rest =>
    if c == sep then [] :: splitOnChar sep rest
    else
      match splitOnChar sep rest with
      | h :: t => (c :: h) :: t
      | [] => [[c]]

/-- `[p.strip() for p in s.split(".") if p.strip()]`. -/
def dotSegments (s : List Char) : List (List Char) :=
  ((splitOnChar '.' s).map stripWs).filter (fun p => !p.isEmpty)

/-- Leading-punctuation class of `re.sub(r"^[\.\:\;\-–—\s]+", "", rest)`. -/
def isLeadPunct (c : Char) : Bool :=
  c == '.' || c == ':' || c == ';' || c == '-' || c == cEnDash || c == cEmDash || isPySpace c

/-- Main branch of `extract_bibliographic_title` once a year marker was found:
take the text after the marker, trim leading punctuation, cut at
"Retrieved from", and return the first strong-period segment (or the whole
remainder) when its length is in `[8, 300]`. -/
def bibAfterYear (ln : List Char) (pos len : Nat) : Option (List Char) :=
  let rest0 := (ln.drop (pos + len)).dropWhile isPySpace
  let rest1 := stripWs (rest0.dropWhile isLeadPunct)
  let rest := stripWs (beforeRetrievedFrom false rest1)
  let parts := dotSegments rest
  match parts with
  | cand :: _ =>
    if 8 ≤ cand.length ∧ cand.length ≤ 300 then some cand
    else if 8 ≤ rest.length ∧ rest.length ≤ 300 then some rest
    else none
  | [] =>
    if 8 ≤ rest.length ∧ rest.length ≤ 300 then some rest
    else none

/-- Segment fallback of `extract_bibliographic_title`: the second
period-delimited segment when at least three exist. -/
def bibSegFallback (ln : List Char) : Option (List Char) :=
  let parts := dotSegments ln
  if parts.length ≥ 3 then
    let cand := parts.getD 1 []
    if 8 ≤ cand.length ∧ cand.length ≤ 300 then some cand else none
  else none

/-- Final fallbacks of `extract_bibliographic_title`: quoted text, then the
second period-delimited segment. -/
def bibFallbacks (ln : List Char) : Option (List Char) :=
  match bibQuoteSearch ln with
  | some g =>
    let cand := stripWs g
    if cand.length ≥ 8 then some cand
    else bibSegFallback ln
  | none => bibSegFallback ln

/-- `src/doi_extract.py::extract_bibliographic_title`. -/
def extract_bibliographic_title (reference_line : List Char) : Option (List Char) :=
  if reference_line.isEmpty then none
  else
    let ln0 := normalize_text (normalize_text_for_doi_extraction reference_line)
    let ln1 := subScan urlLenIC [] ln0
    let ln2 := subScanWB doiColonLen false ln1
    let ln3 := subScanWB bareDoiLen false ln2
    let ln := stripWs (collapseWs ln3)
    let webFallback : Option (List Char) :=
      if hasNd ln && ln.contains '[' && ln.contains ']' then
        let beforeBracket := stripWs (ln.takeWhile (fun c => c != '['))
        if 8 ≤ beforeBracket.length ∧ beforeBracket.length ≤ 300 then some beforeBracket
        else none
      else none
    match webFallback with
    | some t => some t
    | none =>
      match yearParenSearch 0 ln with
      | some (pos, len) =>
        match bibAfterYear ln pos len with
        | some t => some t
        | none => bibFallbacks ln
      | none => bibFallbacks ln

/-- Lowercased, whitespace-compacted DOI
(`re.sub(r"\s+", "", (doi or "").lower())`). -/
def doiNormKey (doi : List Char) : List Char := compactWs (lowerStr doi)

/-- Repaired line as used during candidate search. -/
def lineRepaired (ln : List Char) : List Char :=
  normalize_text (normalize_text_for_doi_extraction ln)

/-- Lowercased, whitespace-compacted, repaired line. -/
def lineNormKey (ln : List Char) : List Char := compactWs (lowerStr (lineRepaired ln))

/-- `src/doi_extract.py::find_reference_candidates_for_doi`: every index/line
whose compacted form contains the compacted DOI. -/
def find_reference_candidates_for_doi (doi : List Char) (reference_lines : List (List Char)) :
    List (Nat × List Char) :=
  let dn := doiNormKey doi
  if dn.isEmpty then []
  else
    reference_lines.enum.filterMap (fun p =>
      if containsSub dn (lineNormKey p.2) then some (p.1, lineRepaired p.2) else none)

/-- `src/doi_extract.py::build_reference_block_around_index`. -/
def build_reference_block_around_index (reference_lines : List (List Char)) (idx : Nat)
    (before : Nat := 5) (after : Nat := 1) : List Char :=
  let start := idx - before
  let stop := min reference_lines.length (idx + after + 1)
  let block := List.intercalate [' '] ((reference_lines.drop start).take (stop - start))
  stripWs (collapseWs (normalize_text (normalize_text_for_doi_extraction block)))

/-- `\b`-isolated occurrence of a literal word (both boundaries checked). -/
def hasIsolatedWord (w : List Char) : Bool → List Char → Bool
  | _, [] => false
  | pw, c :: rest =>
    (!pw && leadsWith w (c :: rest) &&
      (match ((c :: rest).drop w.length).head? with
       | some d => !isWordChar d
       | none => true)) ||
    hasIsolatedWord w (isWordChar c) rest

/-- `re.search(r"\bpp\b|\bvol\b|\bno\b|\bissue\b|\bpages?\b", low)`. -/
def fragSearch (low : List Char) : Bool :=
  hasIsolatedWord "pp".data false low || hasIsolatedWord "vol".data false low ||
  hasIsolatedWord "no".data false low || hasIsolatedWord "issue".data false low ||
  hasIsolatedWord "page".data false low || hasIsolatedWord "pages".data false low

/-- `re.fullmatch(r"(19|20)\d{2}([,;]\s*)?(pp\.?)?", low)`. -/
def yearFullmatch (s : List Char) : Bool :=
  match s with
  | a :: b :: c :: d :: rest =>
    if ((a == '1' && b == '9') || (a == '2' && b == '0')) && isDigit c && isDigit d then
      let rest2 :=
        match rest with
        | x :: r => if x == ',' || x == ';' then r.dropWhile isPySpace else rest
        | [] => rest
      let rest3 :=
        if leadsWith "pp".data rest2 then
          match rest2.drop 2 with
          | '.' :: r => r
          | r => r
        else rest2
      rest3.isEmpty
    else false
  | _ => false

/-- Python `str.split()` with no argument: whitespace-run tokenization (the
fuel, at least the input length at every reachable call, makes the recursion
structural). -/
def splitPyWsAux : Nat → List Char → List (List Char)
  | 0, _ => []
  | fuel + 1, s =>
    match s with
    | [] => []
    | c :: rest =>
      if isPySpace c then splitPyWsAux fuel rest
      else (c :: rest.takeWhile (fun x => !isPySpace x)) ::
           splitPyWsAux fuel (rest.dropWhile (fun x => !isPySpace x))

/-- Python `str.split()` with no argument. -/
def splitPyWs (s : List Char) : List (List Char) := splitPyWsAux s.length s

/-- `src/doi_extract.py::_is_plausible_title_for_selection`. -/
def _is_plausible_title_for_selection (t : Option (List Char)) : Bool :=
  match t with
  | none => false
  | some t0 =>
    if t0.isEmpty then false
    else
      let s := stripWs (collapseWs t0)
      let low := lowerStr s
      if (splitPyWs s).length < 5 then false
      else if fragSearch low && (splitPyWs s).length < 8 then false
      else if yearFullmatch low then false
      else true

/-- NFKD decomposition on the modelled fragment: the accented Latin letters of
this development decompose into base letter plus combining mark
(`unicodedata.normalize("NFKD", ...)`); everything else is a fixed point. -/
def nfkdChar (c : Char) : List Char :=
  match composeAcuteTable.find? (fun p => p.2 == c.toNat) with
  | some p => [p.1, cAcute]
  | none =>
    let n := c.toNat
    if n == 0xF1 then ['n', cTilde] else if n == 0xD1 then ['N', cTilde]
    else if n == 0xE3 then ['a', cTilde] else if n == 0xC3 then ['A', cTilde]
    else if n == 0xF5 then ['o', cTilde] else if n == 0xD5 then ['O', cTilde]
    else [c]

/-- `unicodedata.combining(ch)` nonzero on the modelled marks. -/
def isCombiningMark (c : Char) : Bool := c == cAcute || c == cTilde

/-- `src/metadata.py::_strip_accents`: NFKD then drop combining marks. -/
def _strip_accents (s : List Char) : List Char :=
  ((s.map nfkdChar).flatten).filter (fun c => !isCombiningMark c)

/-- Unicode dash variants folded by `normalize_title`
(`[‐‑‒–—−]`). -/
def isDashFold (c : Char) : Bool :=
  [0x2010, 0x2011, 0x2012, 0x2013, 0x2014, 0x2212].contains c.toNat

/-- `src/metadata.py::normalize_title`. -/
def normalize_title (t : List Char) : List Char :=
  let t1 := stripWs t
  let t2 := lowerStr (_strip_accents t1)
  let t3 := t2.map (fun c => if isDashFold c then '-' else c)
  let t4 := t3.map (fun c =>
    if isAsciiLower c || isDigit c || isPySpace c || c == '-' then c else ' ')
  stripWs (collapseWs t4)

/-- Length of the common run of `a`/`b` ending at indices `(i, j)`, staying
inside the window starting at `(alo, blo)` — the quantity accumulated row by
row by `difflib.SequenceMatcher.find_longest_match`'s `j2len` map. -/
def chMatch (a b : List Char) (i j : Nat) : Bool :=
  match a.get? i, b.get? j with
  | some x, some y => x == y
  | _, _ => false

def runLen (a b : List Char) (alo blo : Nat) : Nat → Nat → Nat
  | 0, j => if 0 < alo ∨ j < blo then 0 else if chMatch a b 0 j then 1 else 0
  | i + 1, 0 =>
    if i + 1 < alo ∨ 0 < blo then 0 else if chMatch a b (i + 1) 0 then 1 else 0
  | i + 1, j + 1 =>
    if i + 1 < alo ∨ j + 1 < blo then 0
    else if chMatch a b (i + 1) (j + 1) then
      if i + 1 == alo || j + 1 == blo then 1
      else runLen a b alo blo i j + 1
    else 0

/-- `difflib.SequenceMatcher.find_longest_match` on the window
`a[alo:ahi] × b[blo:bhi]`, modelled without the junk/autojunk heuristics
(no junk is ever declared here; autojunk only affects second strings of
length ≥ 200).  Scans `i` then `j` ascending keeping the first strictly
longer run, exactly as the `j2len` loop does. -/
def findLongestMatch (a b : List Char) (alo ahi blo bhi : Nat) : Nat × Nat × Nat :=
  (List.range (ahi - alo)).foldl (fun best0 di =>
    (List.range (bhi - blo)).foldl (fun best dj =>
      let i := alo + di
      let j := blo + dj
      let k := runLen a b alo blo i j
      if k > best.2.2 then (i + 1 - k, j + 1 - k, k) else best) best0) (alo, blo, 0)

/-- Total size of all matching blocks (`difflib.SequenceMatcher
.get_matching_blocks` recursion); `fuel` bounds the recursion depth and is
sufficient at every top-level call. -/
def matchingTotal (a b : List Char) : Nat → Nat → Nat → Nat → Nat → Nat
  | 0, _, _, _, _ => 0
  | fuel + 1, alo, ahi, blo, bhi =>
    let r := findLongestMatch a b alo ahi blo bhi
    if r.2.2 == 0 then 0
    else
      matchingTotal a b fuel alo r.1 blo r.2.1 + r.2.2 +
      matchingTotal a b fuel (r.1 + r.2.2) ahi (r.2.1 + r.2.2) bhi

/-- `difflib.SequenceMatcher(None, a, b).ratio()`:
`2 * M / (len(a) + len(b))` with `M` the total matching-block size
(`1.0` for two empty sequences). -/
def seqRatio (a b : List Char) : ℚ :=
  if a.length + b.length == 0 then 1
  else 2 * (matchingTotal a b (a.length + b.length + 1) 0 a.length 0 b.length : ℚ) /
       ((a.length : ℚ) + (b.length : ℚ))

/-- Round-half-even to an integer (Python `round` on the modelled rationals). -/
def roundHalfEven (q : ℚ) : ℤ :=
  let f := ⌊q⌋
  let r := q - (f : ℚ)
  if r < 1/2 then f else if r > 1/2 then f + 1 else if f % 2 == 0 then f else f + 1

/-- Python `round(x, 4)` modelled on `ℚ`. -/
def round4 (q : ℚ) : ℚ := (roundHalfEven (q * 10000) : ℚ) / 10000

/-- Jaccard index over whitespace-token sets
(`len(ta & tb) / max(1, len(ta | tb))`, `0.0` when both are empty). -/
def jaccardTokens (a b : List Char) : ℚ :=
  let ta := (splitPyWs a).toFinset
  let tb := (splitPyWs b).toFinset
  if ta ∪ tb = ∅ then 0
  else ((ta ∩ tb).card : ℚ) / ((max 1 (ta ∪ tb).card : Nat) : ℚ)

/-- The lenient blend `max(seq, jacc, (seq + jacc) / 2.0)`. -/
def scoreBlend (seq jacc : ℚ) : ℚ := max seq (max jacc ((seq + jacc) / 2))

/-- `src/metadata.py::title_match_score`. -/
def title_match_score (bibliographic_title crossref_title : Option (List Char)) : Option ℚ :=
  match bibliographic_title, crossref_title with
  | some bt, some ct =>
    if bt.isEmpty || ct.isEmpty then none
    else
      let a := normalize_title bt
      let b := normalize_title ct
      if a.isEmpty || b.isEmpty then none
      else some (round4 (scoreBlend (seqRatio a b) (jaccardTokens a b)))
  | _, _ => none

/-- A title argument that `title_match_score` treats as absent: missing, empty,
or normalizing to the empty string. -/
def titleAbsent (t : Option (List Char)) : Bool :=
  match t with
  | none => true
  | some x => x.isEmpty || (normalize_title x).isEmpty

/-- One selection step of `pick_best_reference_block_for_doi`'s loop. -/
def pickStep (reference_lines : List (List Char)) (cr : List Char) (before after : Nat)
    (best : List Char × Option (List Char) × ℚ) (p : Nat × List Char) :
    List Char × Option (List Char) × ℚ :=
  let block := build_reference_block_around_index reference_lines p.1 before after
  let bib := extract_bibliographic_title block
  if !(_is_plausible_title_for_selection bib) then best
  else
    let s : ℚ :=
      if !cr.isEmpty then (title_match_score bib (some cr)).getD 0
      else min 1 (((bib.getD []).length : ℚ) / 200)
    if s > best.2.2 then (block, bib, s) else best

/-- `src/doi_extract.py::pick_best_reference_block_for_doi`. -/
def pick_best_reference_block_for_doi (doi : List Char) (reference_lines : List (List Char))
    (crossref_title : List Char := []) (before : Nat := 5) (after : Nat := 1) :
    List Char × Option (List Char) × ℚ :=
  let cands := find_reference_candidates_for_doi doi reference_lines
  match cands with
  | [] => ([], none, 0)
  | c0 :: _ =>
    let cr := normalize_text crossref_title
    let r := cands.foldl (pickStep reference_lines cr before after) ([], none, 0)
    if r.1.isEmpty then
      (build_reference_block_around_index reference_lines c0.1 before after,
       extract_bibliographic_title (build_reference_block_around_index reference_lines c0.1 before after),
       0)
    else r

/-- `$` with no `re.MULTILINE`: end of string or just before a final newline. -/
def endAnchor (rem : List Char) : Bool :=
  rem.isEmpty || rem == ['\n']

/-- Terminator `\.(?:\s+[A-Z]|\s+http|$)` of the first APA pattern
(`[A-Z]` matches any ASCII letter under `re.IGNORECASE`). -/
def apa1Term (rem : List Char) : Bool :=
  match rem with
  | '.' :: r2 =>
    let w := wsRunLen r2
    (w ≥ 1 && (match (r2.drop w).head? with
               | some d => isAsciiLetter d
               | none => false)) ||
    (w ≥ 1 && lowerStr ((r2.drop w).take 4) == "http".data) ||
    endAnchor r2
  | _ => false

/-- Terminator `(?:\s+Vol\.|\s+pp\.|\s+\d+\(|\.|http)` of the second APA
pattern (case-insensitive). -/
def apa2Term (rem : List Char) : Bool :=
  let w := wsRunLen rem
  let afterWs := rem.drop w
  (w ≥ 1 && lowerStr (afterWs.take 4) == "vol.".data) ||
  (w ≥ 1 && lowerStr (afterWs.take 3) == "pp.".data) ||
  (w ≥ 1 && decide (digitRunLen afterWs ≥ 1) &&
    ((afterWs.drop (digitRunLen afterWs)).head? == some '(')) ||
  (rem.head? == some '.') ||
  (lowerStr (rem.take 4) == "http".data)

/-- Consume `\((\d{4}[a-z]?)\)\.` at the head (case-insensitive), returning the
remainder after the period.  The optional letter is taken greedily; giving it
back cannot help since a letter never equals `)`. -/
def apaYearHead (s : List Char) : Option (List Char) :=
  match s with
  | '(' :: t =>
    if (t.take 4).length == 4 && (t.take 4).all isDigit then
      let u := t.drop 4
      let rest? : Option (List Char) :=
        match u with
        | e :: u2 =>
          if isAsciiLetter e && (u2.head? == some ')') then some u2.tail
          else if e == ')' then some u2
          else none
        | [] => none
      match rest? with
      | some ('.' :: v) => some v
      | _ => none
    else none
  | _ => none

/-- Generic `\s*(.+?)<terminator>` tail: `\s*` is greedy (longest whitespace
prefix first), the group is lazy (shortest first), `.` does not cross `\n`. -/
def lazyGroupTail (term : List Char → Bool) (v : List Char) : Option (List Char) :=
  let W := wsRunLen v
  ((List.range (W + 1)).map (fun k => W - k)).findSome? (fun w =>
    let v2 := v.drop w
    (List.range v2.length).findSome? (fun l0 =>
      let content := v2.take (l0 + 1)
      if content.length == l0 + 1 && !content.contains '\n' && term (v2.drop (l0 + 1)) then
        some content
      else none))

/-- Leftmost match of `\((\d{4}[a-z]?)\)\.\s*(.+?)\.(?:\s+[A-Z]|\s+http|$)`
(`re.IGNORECASE`): the captured title group. -/
def apa1Search : List Char → Option (List Char)
  | [] => none
  | c :: rest =>
    match (match apaYearHead (c :: rest) with
           | some v => lazyGroupTail apa1Term v
           | none => none) with
    | some g => some g
    | none => apa1Search rest

/-- Leftmost match of
`\((\d{4}[a-z]?)\)\.\s*(.+?)(?:\s+Vol\.|\s+pp\.|\s+\d+\(|\.|http)`
(`re.IGNORECASE`): the captured title group. -/
def apa2Search : List Char → Option (List Char)
  | [] => none
  | c :: rest =>
    match (match apaYearHead (c :: rest) with
           | some v => lazyGroupTail apa2Term v
           | none => none) with
    | some g => some g
    | none => apa2Search rest

/-- Terminator `\.(?:\s+[A-Z]|$)` of the Chicago pattern (no flags, so `[A-Z]`
is strict uppercase). -/
def chicagoTerm (rem : List Char) : Bool :=
  match rem with
  | '.' :: r2 =>
    let w := wsRunLen r2
    (w ≥ 1 && (match (r2.drop w).head? with
               | some d => isAsciiUpper d
               | none => false)) ||
    endAnchor r2
  | _ => false

/-- Head of the Chicago pattern `(\d{4})\.`. -/
def chicagoHead (s : List Char) : Option (List Char) :=
  if (s.take 4).length == 4 && (s.take 4).all isDigit then
    match s.drop 4 with
    | '.' :: v => some v
    | _ => none
  else none

/-- Leftmost match of `(\d{4})\.\s*(.+?)\.(?:\s+[A-Z]|$)` (no flags):
the captured title group. -/
def chicagoSearch : List Char → Option (List Char)
  | [] => none
  | c :: rest =>
    match (match chicagoHead (c :: rest) with
           | some v => lazyGroupTail chicagoTerm v
           | none => none) with
    | some g => some g
    | none => chicagoSearch rest

/-- Leftmost match of `"([^"]+)"` (ASCII double quotes only): the quoted
group — a non-empty run of non-quote characters followed by a closing quote. -/
def quoteSearchAscii : List Char → Option (List Char)
  | [] => none
  | c :: rest =>
    if c == cDQ then
      let content := rest.takeWhile (fun x => x != cDQ)
      if decide (content.length ≥ 1) && ((rest.drop content.length).head? == some cDQ) then
        some content
      else quoteSearchAscii rest
    else quoteSearchAscii rest

/-- Tail `,\s+(?:vol\.|in\s+)` of the IEEE comma pattern (case-insensitive). -/
def ieeeTail (rem : List Char) : Bool :=
  match rem with
  | ',' :: r2 =>
    let w := wsRunLen r2
    if w ≥ 1 then
      let r3 := r2.drop w
      lowerStr (r3.take 4) == "vol.".data ||
      (lowerStr (r3.take 2) == "in".data && decide (wsRunLen (r3.drop 2) ≥ 1))
    else false
  | _ => false

/-- Lazy group `([^,]+?)` of the IEEE comma pattern followed by its tail. -/
def ieeeGroupTail (v : List Char) : Option (List Char) :=
  let W := wsRunLen v
  ((List.range W).map (fun k => W - k)).findSome? (fun w =>
    let v2 := v.drop w
    (List.range v2.length).findSome? (fun l0 =>
      let content := v2.take (l0 + 1)
      if content.length == l0 + 1 && !content.contains ',' && ieeeTail (v2.drop (l0 + 1)) then
        some content
      else none))

/-- Leftmost match of `,\s+([^,]+?),\s+(?:vol\.|in\s+)` (`re.IGNORECASE`):
the captured group (the `\s+` before the group needs at least one character). -/
def ieeeCommaSearch : List Char → Option (List Char)
  | [] => none
  | c :: rest =>
    match (if c == ',' then ieeeGroupTail rest else none) with
    | some g => some g
    | none => ieeeCommaSearch rest

/-- Tail `\.\s+[A-Z]` of the MLA fallback pattern. -/
def mlaTail (rem : List Char) : Bool :=
  match rem with
  | '.' :: r2 =>
    let w := wsRunLen r2
    w ≥ 1 && (match (r2.drop w).head? with
              | some d => isAsciiUpper d
              | none => false)
  | _ => false

/-- Group `([A-Z][^.]+?)` of the MLA fallback, anchored at the head. -/
def mlaGroupAt (s : List Char) : Option (List Char) :=
  match s with
  | c :: rest =>
    if isAsciiUpper c then
      (List.range rest.length).findSome? (fun l0 =>
        let content := rest.take (l0 + 1)
        if content.length == l0 + 1 && !content.contains '.' && mlaTail (rest.drop (l0 + 1)) then
          some (c :: content)
        else none)
    else none
  | [] => none

/-- Scan for the `\.\s+` branch of `(?:^|\.\s+)([A-Z][^.]+?)\.\s+[A-Z]`. -/
def mlaSearchAux : List Char → Option (List Char)
  | [] => none
  | '.' :: rest =>
    (match (if wsRunLen rest ≥ 1 then mlaGroupAt (rest.drop (wsRunLen rest)) else none) with
     | some g => some g
     | none => mlaSearchAux rest)
  | _ :: rest => mlaSearchAux rest

/-- Leftmost match of `(?:^|\.\s+)([A-Z][^.]+?)\.\s+[A-Z]` (no flags). -/
def mlaSearch (s : List Char) : Option (List Char) :=
  match mlaGroupAt s with
  | some g => some g
  | none => mlaSearchAux s

/-- Title cleanup shared by the stripping branches of
`app.py::extract_title_by_style`: `title.strip()`, remove `https?://\S+`
(case-sensitive — no flags in `app.py`), remove `doi:\s*\S+`
(`re.IGNORECASE`), final `strip()`. -/
def appCleanTitle (t : List Char) : List Char :=
  stripWs (subScan doiColonLen [] (subScan urlLenCS [] (stripWs t)))

/-- `app.py::extract_title_by_style` restricted to the five concrete styles
(the `Auto` cascade is layered on top, matching the recursive calls in the
source). -/
def extractTitleStyled (ref : List Char) (style : String) : List Char :=
  if style == "APA 7" then
    match apa1Search ref with
    | some g => appCleanTitle g
    | none =>
      match apa2Search ref with
      | some g => appCleanTitle g
      | none => []
  else if style == "IEEE" then
    match quoteSearchAscii ref with
    | some g => stripWs g
    | none =>
      match ieeeCommaSearch ref with
      | some g => stripWs g
      | none => []
  else if style == "MLA" then
    match quoteSearchAscii ref with
    | some g => stripWs g
    | none =>
      match mlaSearch ref with
      | some g => stripWs g
      | none => []
  else if style == "Chicago" then
    match chicagoSearch ref with
    | some g => appCleanTitle g
    | none => []
  else if style == "Vancouver" then
    let parts := splitOnChar '.' ref
    if parts.length ≥ 3 then
      let t := stripWs (parts.getD 1 [])
      if !t.isEmpty && decide (digitRunLen t < 4) then appCleanTitle t else []
    else []
  else []

/-- The `Auto` cascade: try styles in order, accept the first title longer
than 10 characters. -/
def autoLoop (ref : List Char) : List String → List Char
  | [] => []
  | s :: rest =>
    let t := extractTitleStyled ref s
    if !t.isEmpty && decide (t.length > 10) then t else autoLoop ref rest

/-- `app.py::extract_title_by_style`. -/
def extract_title_by_style (reference : List Char) (style : String) : List Char :=
  if reference.isEmpty || (stripWs reference).isEmpty then []
  else
    let ref := stripWs reference
    if style == "APA 7" || style == "IEEE" || style == "MLA" || style == "Chicago" ||
       style == "Vancouver" then
      extractTitleStyled ref style
    else autoLoop ref ["APA 7", "IEEE", "MLA", "Vancouver", "Chicago"]

/-- Occurrence checker: some position of `t` matches `https?://\S+`
(case-sensitively).  The spec's "contains no http/https URL substring" is
formalized as this checker returning `false`. -/
def hasUrlOcc : List Char → Bool
  | [] => false
  | c :: rest => urlLenCS (c :: rest) != 0 || hasUrlOcc rest

/-- Occurrence checker: some position of `t` matches `doi:\s*\S+`
(case-insensitively). -/
def hasDoiOcc : List Char → Bool
  | [] => false
  | c :: rest => doiColonLen (c :: rest) != 0 || hasDoiOcc rest

/-- No adjacent pair of the list composes under the modelled NFKC
(characterizes the fixed points of `nfkcAux`). -/
def noCompAdj : List Char → Bool
  | a :: b :: rest => (composeChar a b).isNone && noCompAdj (b :: rest)
  | _ => true

/-- Some whitespace character is directly adjacent to a slash. -/
def slashWsAdjacent : List Char → Bool
  | a :: b :: rest =>
    (isPySpace a && b == '/') || (a == '/' && isPySpace b) || slashWsAdjacent (b :: rest)
  | _ => false

/-- Code points produced by the modelled canonical composition. -/
def composedOutNats : List Nat :=
  composeAcuteTable.map (fun p => p.2) ++ [0xF1, 0xD1, 0xE3, 0xC3, 0xF5, 0xD5]

/-- A character that survives the block-building pipeline: not whitespace, not
a hyphen (deletable by the hyphen line-break repair), not a soft hyphen
(deleted by `normalize_text`). -/
def goodChar (c : Char) : Bool := !isPySpace c && c != '-' && c != cSHY

/-- Generic occurrence checker: some suffix of the string matches the
deterministic head matcher `g`. -/
def hasOcc (g : List Char → Nat) : List Char → Bool
  | [] => false
  | c :: rest => g (c :: rest) != 0 || hasOcc g rest

/-- A scan remainder: empty, or beginning with a whitespace character (every
deleted chunk of the modelled `re.sub` patterns ends right before whitespace
or at the end of the string). -/
def headWsNil (T : List Char) : Prop :=
  T = [] ∨ ∃ d t, T = d :: t ∧ isPySpace d = true

/-!  ## Lemmas  -/

theorem char_toNat_ofNat (n : Nat) (h : n < 55296) : (Char.ofNat n).toNat = n := by
  unfold Char.ofNat Char.ofNatAux Char.toNat
  split
  · simp [UInt32.toNat, BitVec.toNat_ofNatLt]
  · exact absurd (Or.inl (by omega)) (by assumption)

theorem toLowerC_eq_self_of_nonletter (c : Char)
    (h1 : isAsciiUpper c = false)
    (h2 : [0xC1, 0xC9, 0xCD, 0xD3, 0xDA, 0xD1].contains c.toNat = false) :
    toLowerC c = c := by
  unfold toLowerC
  rw [if_neg (by rw [h1]; simp), if_neg (by rw [h2]; simp)]

theorem isAsciiUpper_bounds (c : Char) (h : isAsciiUpper c = true) :
    65 ≤ c.toNat ∧ c.toNat ≤ 90 := by
  unfold isAsciiUpper at h
  simp [Nat.ble_eq] at h
  exact h

theorem toLowerC_zero_inv (c : Char) (h : toLowerC c = '0') : c = '0' := by
  unfold toLowerC at h
  by_cases h1 : isAsciiUpper c = true
  · exfalso
    rw [if_pos h1] at h
    have hb := isAsciiUpper_bounds c h1
    have ht : (Char.ofNat (c.toNat + 32)).toNat = Char.toNat '0' := congrArg Char.toNat h
    rw [char_toNat_ofNat _ (by omega)] at ht
    have h48 : Char.toNat '0' = 48 := rfl
    omega
  · rw [if_neg h1] at h
    by_cases h2 : [0xC1, 0xC9, 0xCD, 0xD3, 0xDA, 0xD1].contains c.toNat = true
    · exfalso
      rw [if_pos h2] at h
      have hm : c.toNat = 0xC1 ∨ c.toNat = 0xC9 ∨ c.toNat = 0xCD ∨ c.toNat = 0xD3 ∨
          c.toNat = 0xDA ∨ c.toNat = 0xD1 := by
        simpa using h2
      have ht : (Char.ofNat (c.toNat + 32)).toNat = Char.toNat '0' := congrArg Char.toNat h
      rw [char_toNat_ofNat _ (by omega)] at ht
      have h48 : Char.toNat '0' = 48 := rfl
      omega
    · rw [if_neg h2] at h
      exact h

theorem leadsWith_take (p s : List Char) (h : leadsWith p s = true) : s.take p.length = p := by
  induction p generalizing s with
  | nil => simp
  | cons a p ih =>
    cases s with
    | nil => simp [leadsWith] at h
    | cons c cs =>
      simp [leadsWith] at h
      simp [List.take, ih cs h.2, h.1]

theorem leadsWith_mem (p s : List Char) (h : leadsWith p s = true) (c : Char) (hc : c ∈ p) :
    c ∈ s := by
  rw [← leadsWith_take p s h] at hc
  exact List.mem_of_mem_take hc

theorem containsSub_mem (p s : List Char) (h : containsSub p s = true) (c : Char) (hc : c ∈ p) :
    c ∈ s := by
  induction s with
  | nil => exact leadsWith_mem p [] h c hc
  | cons a rest ih =>
    unfold containsSub at h
    rcases Bool.or_eq_true _ _ ▸ h with h1 | h2
    · exact leadsWith_mem p (a :: rest) h1 c hc
    · exact List.mem_cons_of_mem a (ih h2)

theorem mem_replaceAllLitAux (pat rep : List Char) (c : Char) :
    ∀ fuel s, c ∈ replaceAllLitAux pat rep fuel s → c ∈ s ∨ c ∈ rep := by
  intro fuel
  induction fuel with
  | zero => intro s h; simp only [replaceAllLitAux] at h; exact Or.inl h
  | succ fuel ih =>
    intro s h
    cases s with
    | nil => simp [replaceAllLitAux] at h
    | cons c0 rest =>
      by_cases hm : (pat.length != 0 && leadsWith pat (c0 :: rest)) = true
      · simp only [replaceAllLitAux] at h
        rw [if_pos hm] at h
        rcases List.mem_append.mp h with h1 | h2
        · exact Or.inr h1
        · rcases ih _ h2 with h3 | h3
          · exact Or.inl (List.mem_cons_of_mem c0 (List.mem_of_mem_drop h3))
          · exact Or.inr h3
      · simp only [replaceAllLitAux] at h
        rw [if_neg hm] at h
        rcases List.mem_cons.mp h with h1 | h2
        · exact Or.inl (h1 ▸ List.mem_cons_self c0 rest)
        · rcases ih _ h2 with h3 | h3
          · exact Or.inl (List.mem_cons_of_mem c0 h3)
          · exact Or.inr h3

theorem mem_replaceAllLit (pat rep s : List Char) (c : Char)
    (h : c ∈ replaceAllLit pat rep s) : c ∈ s ∨ c ∈ rep :=
  mem_replaceAllLitAux pat rep c s.length s h

theorem replaceAllLit_keepAux (pat rep : List Char) (c : Char) (hc : c ∉ pat) :
    ∀ fuel s, c ∈ s → c ∈ replaceAllLitAux pat rep fuel s := by
  intro fuel
  induction fuel with
  | zero => intro s h; simp only [replaceAllLitAux]; exact h
  | succ fuel ih =>
    intro s h
    cases s with
    | nil => simp at h
    | cons c0 rest =>
      by_cases hm : (pat.length != 0 && leadsWith pat (c0 :: rest)) = true
      · simp only [replaceAllLitAux]
        rw [if_pos hm]
        refine List.mem_append.mpr (Or.inr (ih _ ?_))
        have hlw := Bool.and_eq_true_iff.mp hm
        have htake := leadsWith_take pat (c0 :: rest) hlw.2
        have hdecomp : c0 :: rest = pat ++ (c0 :: rest).drop pat.length := by
          conv_lhs => rw [← List.take_append_drop pat.length (c0 :: rest)]
          rw [htake]
        have hp : pat.length ≥ 1 := by
          cases pat with
          | nil => simp at hm
          | cons _ _ => simp
        have hsplit : c ∈ pat ++ (c0 :: rest).drop pat.length := hdecomp ▸ h
        rcases List.mem_append.mp hsplit with h1 | h1
        · exact absurd h1 hc
        · have heq : (c0 :: rest).drop pat.length = rest.drop (pat.length - 1) := by
            cases pat with
            | nil => simp at hm
            | cons _ t => simp
          exact heq ▸ h1
      · simp only [replaceAllLitAux]
        rw [if_neg hm]
        rcases List.mem_cons.mp h with h1 | h1
        · exact h1 ▸ List.mem_cons_self c0 _
        · exact List.mem_cons_of_mem c0 (ih _ h1)

theorem replaceAllLit_keep (pat rep s : List Char) (c : Char)
    (hc : c ∉ pat) (h : c ∈ s) : c ∈ replaceAllLit pat rep s :=
  replaceAllLit_keepAux pat rep c hc s.length s h

theorem mem_subScanFAux (f : List Char → Nat) (rep : List Char → List Char) (c : Char) :
    ∀ fuel s, c ∈ subScanFAux f rep fuel s → c ∈ s ∨ ∃ ch, c ∈ rep ch := by
  intro fuel
  induction fuel with
  | zero => intro s h; simp only [subScanFAux] at h; exact Or.inl h
  | succ fuel ih =>
    intro s h
    cases s with
    | nil => simp [subScanFAux] at h
    | cons c0 rest =>
      by_cases hm : (f (c0 :: rest) == 0) = true
      · simp only [subScanFAux] at h
        rw [if_pos hm] at h
        exact (List.mem_cons.mp h).elim (fun h1 => Or.inl (h1 ▸ List.mem_cons_self c0 rest))
          (fun h2 => (ih _ h2).elim (fun h3 => Or.inl (List.mem_cons_of_mem c0 h3)) Or.inr)
      · simp only [subScanFAux] at h
        rw [if_neg hm] at h
        rcases List.mem_append.mp h with h1 | h1
        · exact Or.inr ⟨_, h1⟩
        · rcases ih _ h1 with h2 | h2
          · exact Or.inl (List.mem_cons_of_mem c0 (List.mem_of_mem_drop h2))
          · exact Or.inr h2

theorem mem_subScanF (f : List Char → Nat) (rep : List Char → List Char) (s : List Char)
    (c : Char) (h : c ∈ subScanF f rep s) : c ∈ s ∨ ∃ ch, c ∈ rep ch :=
  mem_subScanFAux f rep c s.length s h

theorem subScanF_keepAux (f : List Char → Nat) (rep : List Char → List Char) (c : Char)
    (H : ∀ u, f u ≠ 0 → c ∈ u.take (f u) → c ∈ rep (u.take (f u))) :
    ∀ fuel s, c ∈ s → c ∈ subScanFAux f rep fuel s := by
  intro fuel
  induction fuel with
  | zero => intro s h; simp only [subScanFAux]; exact h
  | succ fuel ih =>
    intro s h
    cases s with
    | nil => simp at h
    | cons c0 rest =>
      by_cases hm : (f (c0 :: rest) == 0) = true
      · simp only [subScanFAux]
        rw [if_pos hm]
        rcases List.mem_cons.mp h with h1 | h1
        · exact h1 ▸ List.mem_cons_self c0 _
        · exact List.mem_cons_of_mem c0 (ih _ h1)
      · simp only [subScanFAux]
        rw [if_neg hm]
        have hn : f (c0 :: rest) ≠ 0 := by
          intro h0
          apply hm
          show (f (c0 :: rest) == 0) = true
          rw [h0]
          rfl
        have hdecomp : c0 :: rest =
            (c0 :: rest).take (f (c0 :: rest)) ++ (c0 :: rest).drop (f (c0 :: rest)) := by
          rw [List.take_append_drop]
        have hdrop : (c0 :: rest).drop (f (c0 :: rest)) = rest.drop (f (c0 :: rest) - 1) := by
          cases hf : f (c0 :: rest) with
          | zero => exact absurd hf hn
          | succ k => simp
        rcases List.mem_append.mp (hdecomp ▸ h) with h1 | h1
        · exact List.mem_append.mpr (Or.inl (H (c0 :: rest) hn h1))
        · exact List.mem_append.mpr (Or.inr (ih _ (hdrop ▸ h1)))

theorem subScanF_keep (f : List Char → Nat) (rep : List Char → List Char) (c : Char)
    (H : ∀ u, f u ≠ 0 → c ∈ u.take (f u) → c ∈ rep (u.take (f u)))
    (s : List Char) (h : c ∈ s) : c ∈ subScanF f rep s :=
  subScanF_keepAux f rep c H s.length s h

theorem suffix_of_cons_suffix (c0 : Char) (u rest : List Char) (h : u <:+ rest) :
    u <:+ c0 :: rest := by
  rcases h with ⟨w, hw⟩
  exact ⟨c0 :: w, by simp [← hw]⟩

theorem subScanF_eq_selfAux (f : List Char → Nat) (rep : List Char → List Char) :
    ∀ fuel s, (∀ u, u <:+ s → f u = 0 ∨ (f u = 1 ∧ rep (u.take 1) = u.take 1)) →
    subScanFAux f rep fuel s = s := by
  intro fuel
  induction fuel with
  | zero => intro s _; simp only [subScanFAux]
  | succ fuel ih =>
    intro s H
    cases s with
    | nil => simp only [subScanFAux]
    | cons c0 rest =>
      have ih2 := ih rest (fun u hu => H u (suffix_of_cons_suffix c0 u rest hu))
      rcases H (c0 :: rest) ⟨[], rfl⟩ with h0 | ⟨h1, h2⟩
      · simp only [subScanFAux]
        rw [if_pos (by rw [h0]; rfl), ih2]
      · simp only [subScanFAux]
        rw [if_neg (by rw [h1]; simp)]
        rw [h1]
        simp only [Nat.sub_self, List.drop_zero]
        have ht : List.take 1 (c0 :: rest) = [c0] := by simp
        rw [ht] at h2
        rw [ht, h2, ih2]
        rfl

theorem subScanF_eq_self (f : List Char → Nat) (rep : List Char → List Char) (s : List Char)
    (H : ∀ u, u <:+ s → f u = 0 ∨ (f u = 1 ∧ rep (u.take 1) = u.take 1)) :
    subScanF f rep s = s :=
  subScanF_eq_selfAux f rep s.length s H

theorem map_id_of_mem (g : Char → Char) (s : List Char) (H : ∀ c ∈ s, g c = c) :
    s.map g = s := by
  induction s with
  | nil => rfl
  | cons c rest ih =>
    simp only [List.map]
    rw [H c (List.mem_cons_self c rest), ih (fun d hd => H d (List.mem_cons_of_mem c hd))]

theorem replaceAllLit_crlf_eq_selfAux (rep : List Char) :
    ∀ fuel s, '\r' ∉ s → replaceAllLitAux ['\r', '\n'] rep fuel s = s := by
  intro fuel
  induction fuel with
  | zero => intro s _; simp only [replaceAllLitAux]
  | succ fuel ih =>
    intro s H
    cases s with
    | nil => simp only [replaceAllLitAux]
    | cons c0 rest =>
      have hc0 : c0 ≠ '\r' := fun h => H (h ▸ List.mem_cons_self c0 rest)
      have hlw : leadsWith ['\r', '\n'] (c0 :: rest) = false := by
        have hb : ('\r' == c0) = false := beq_eq_false_iff_ne.mpr (Ne.symm hc0)
        simp [leadsWith, hb]
      simp only [replaceAllLitAux]
      rw [if_neg (by simp [hlw])]
      rw [ih rest (fun h => H (List.mem_cons_of_mem c0 h))]

theorem replaceAllLit_crlf_eq_self (rep s : List Char) (H : '\r' ∉ s) :
    replaceAllLit ['\r', '\n'] rep s = s :=
  replaceAllLit_crlf_eq_selfAux rep s.length s H

theorem wsRunLen_take_all_ws (s : List Char) (c : Char) (h : c ∈ s.take (wsRunLen s)) :
    isPySpace c = true := by
  induction s with
  | nil => simp [wsRunLen] at h
  | cons c0 rest ih =>
    by_cases h0 : isPySpace c0 = true
    · rw [wsRunLen, if_pos h0] at h
      simp only [List.take] at h
      rcases List.mem_cons.mp h with h1 | h1
      · exact h1 ▸ h0
      · exact ih h1
    · rw [wsRunLen, if_neg h0] at h
      simp at h

theorem wsRunLen_drop_head (s : List Char) :
    (s.drop (wsRunLen s)).head? = none ∨
    ∃ c rest, s.drop (wsRunLen s) = c :: rest ∧ isPySpace c = false := by
  induction s with
  | nil => simp [wsRunLen]
  | cons c0 rest ih =>
    by_cases h0 : isPySpace c0 = true
    · rw [wsRunLen, if_pos h0]
      simpa using ih
    · rw [wsRunLen, if_neg h0]
      exact Or.inr ⟨c0, rest, rfl, by simpa using h0⟩

theorem take_contains_nl_false (u : List Char) (w : Nat) (H : '\n' ∉ u) :
    (u.take w).contains '\n' = false := by
  cases hb : (u.take w).contains '\n'
  · rfl
  · exfalso
    rcases List.contains_iff_exists_mem_beq.mp hb with ⟨a, ha1, ha2⟩
    exact H ((eq_of_beq ha2) ▸ List.mem_of_mem_take ha1)

theorem dashBreakLen_zero (u : List Char) (H : '\n' ∉ u) : dashBreakLen u = 0 := by
  cases u with
  | nil => rfl
  | cons c rest =>
    simp only [dashBreakLen,
      take_contains_nl_false rest _ (fun h => H (List.mem_cons_of_mem _ h))]
    simp

theorem slashAfterLen_zero (u : List Char) (H : '\n' ∉ u) : slashAfterLen u = 0 := by
  cases u with
  | nil => rfl
  | cons c rest =>
    simp only [slashAfterLen,
      take_contains_nl_false rest _ (fun h => H (List.mem_cons_of_mem _ h))]
    simp

theorem slashBeforeLen_zero (u : List Char) (H : '\n' ∉ u) : slashBeforeLen u = 0 := by
  rw [slashBeforeLen]
  rw [take_contains_nl_false u _ H]
  simp

theorem hr1len_zero (u : List Char) (H : '\n' ∉ u) : hr1len u = 0 := by
  cases u with
  | nil => rfl
  | cons c rest =>
    cases rest with
    | nil => rfl
    | cons d rest2 =>
      simp only [hr1len,
        take_contains_nl_false rest2 _
          (fun h => H (List.mem_cons_of_mem _ (List.mem_cons_of_mem _ h)))]
      simp

theorem hr2len_zero (u : List Char) (H : '\n' ∉ u) : hr2len u = 0 := by
  cases u with
  | nil => rfl
  | cons c rest =>
    simp only [hr2len,
      take_contains_nl_false rest _ (fun h => H (List.mem_cons_of_mem _ h))]
    simp

theorem slashWsAdjacent_tail (a : Char) (l : List Char)
    (h : slashWsAdjacent (a :: l) = false) : slashWsAdjacent l = false := by
  cases l with
  | nil => rfl
  | cons b rest =>
    rw [slashWsAdjacent] at h
    simp only [Bool.or_eq_false_iff] at h
    exact h.2

theorem slashWsAdjacent_suffix (u s : List Char) (hu : u <:+ s)
    (h : slashWsAdjacent s = false) : slashWsAdjacent u = false := by
  rcases hu with ⟨t, ht⟩
  induction t generalizing s with
  | nil => simpa [← ht] using h
  | cons a t ih =>
    cases s with
    | nil => simp at ht
    | cons b rest =>
      have h1 : t ++ u = rest := by
        injection ht with _ h2
      exact ih rest (slashWsAdjacent_tail b rest h) h1

theorem wsRunLen_cons_pos (c : Char) (rest : List Char) (h : isPySpace c = true) :
    wsRunLen (c :: rest) = wsRunLen rest + 1 := by
  rw [wsRunLen, if_pos h]

theorem wsRunLen_cons_zero (c : Char) (rest : List Char) (h : isPySpace c = false) :
    wsRunLen (c :: rest) = 0 := by
  rw [wsRunLen, if_neg (by simp [h])]

theorem ws_then_slash_adj (u : List Char) (hw : 1 ≤ wsRunLen u)
    (hd : (u.drop (wsRunLen u)).head? = some '/') : slashWsAdjacent u = true := by
  induction u with
  | nil => simp [wsRunLen] at hw
  | cons c rest ih =>
    by_cases hc : isPySpace c = true
    · rw [wsRunLen_cons_pos c rest hc] at hd
      simp only [List.drop_succ_cons] at hd
      by_cases hr : 1 ≤ wsRunLen rest
      · have := ih hr hd
        cases rest with
        | nil => simp [wsRunLen] at hr
        | cons b rest2 =>
          rw [slashWsAdjacent]
          simp [this]
      · have h0 : wsRunLen rest = 0 := by omega
        rw [h0] at hd
        simp only [List.drop_zero] at hd
        cases rest with
        | nil => simp at hd
        | cons b rest2 =>
          simp only [List.head?] at hd
          have hb : b = '/' := by injection hd
          rw [slashWsAdjacent]
          simp [hc, hb]
    · rw [wsRunLen_cons_zero c rest (by simpa using hc)] at hw
      omega

theorem hr3len_cases (u : List Char) (hs : slashWsAdjacent u = false) :
    hr3len u = 0 ∨ (hr3len u = 1 ∧ u.take 1 = ['/']) := by
  cases u with
  | nil => left; rfl
  | cons c rest =>
    by_cases hc : isPySpace c = true
    · left
      rw [hr3len]
      have hw := wsRunLen_cons_pos c rest hc
      by_cases hd : ((c :: rest).drop (wsRunLen (c :: rest))).head? = some '/'
      · exact absurd (ws_then_slash_adj (c :: rest) (by omega) hd) (by simp [hs])
      · rw [if_neg (by simpa using hd)]
    · have hw : wsRunLen (c :: rest) = 0 := wsRunLen_cons_zero c rest (by simpa using hc)
      by_cases hcs : c = '/'
      · right
        subst hcs
        have hrest : wsRunLen rest = 0 := by
          cases rest with
          | nil => rfl
          | cons b rest2 =>
            by_cases hb : isPySpace b = true
            · exfalso
              rw [slashWsAdjacent] at hs
              simp [hb] at hs
            · exact wsRunLen_cons_zero b rest2 (by simpa using hb)
        constructor
        · simp [hr3len, hw, hrest]
        · simp
      · left
        rw [hr3len, hw]
        simp only [List.drop_zero, List.head?]
        rw [if_neg (by simp [hcs])]

theorem c7_extraction_id (s : List Char)
    (hclean : ∀ c ∈ s, c ≠ '\n' ∧ c ≠ cFF ∧ c ≠ cSHY) :
    normalize_text_for_doi_extraction s = s := by
  unfold normalize_text_for_doi_extraction
  have hnl : ∀ u, u <:+ s → '\n' ∉ u :=
    fun u hu h => (hclean '\n' (hu.sublist.mem h)).1 rfl
  have h1 : s.map (fun c => if c == cFF then '\n' else c) = s :=
    map_id_of_mem _ s (fun c hc => by
      rw [if_neg (by simp [(hclean c hc).2.1])])
  rw [h1]
  show subScanF slashBeforeLen (fun _ => ['/'])
      (subScanF slashAfterLen (fun _ => ['/'])
        (subScanF dashBreakLen (fun _ => []) s)) = s
  rw [subScanF_eq_self dashBreakLen _ s (fun u hu => Or.inl (dashBreakLen_zero u (hnl u hu)))]
  rw [subScanF_eq_self slashAfterLen _ s (fun u hu => Or.inl (slashAfterLen_zero u (hnl u hu)))]
  exact subScanF_eq_self slashBeforeLen _ s
    (fun u hu => Or.inl (slashBeforeLen_zero u (hnl u hu)))

theorem c7_harvest_id (s : List Char)
    (hclean : ∀ c ∈ s, c ≠ '\n' ∧ c ≠ cFF ∧ c ≠ cSHY)
    (hslash : slashWsAdjacent s = false) :
    _normalize_for_doi_harvest s = s := by
  unfold _normalize_for_doi_harvest
  have hnl : ∀ u, u <:+ s → '\n' ∉ u :=
    fun u hu h => (hclean '\n' (hu.sublist.mem h)).1 rfl
  have h1 : s.filter (fun c => c != cSHY) = s :=
    List.filter_eq_self.mpr (fun c hc => by simp [(hclean c hc).2.2])
  rw [h1]
  show subScanF hr3len (fun _ => ['/'])
      (subScanF hr2len hr2rep (subScanF hr1len hr1rep s)) = s
  rw [subScanF_eq_self hr1len hr1rep s (fun u hu => Or.inl (hr1len_zero u (hnl u hu)))]
  rw [subScanF_eq_self hr2len hr2rep s (fun u hu => Or.inl (hr2len_zero u (hnl u hu)))]
  refine subScanF_eq_self hr3len _ s (fun u hu => ?_)
  rcases hr3len_cases u (slashWsAdjacent_suffix u s hu hslash) with h0 | ⟨h0, ht⟩
  · exact Or.inl h0
  · exact Or.inr ⟨h0, by rw [ht]⟩

/-- Claim C7 (counterexample): on the well-formed input `"a / b"` the two
repair variants disagree — `normalize_text_for_doi_extraction` leaves it
unchanged while `_normalize_for_doi_harvest` rewrites it to `"a/b"`, so the
claimed equivalence fails as stated. -/
theorem c7_counterexample :
    normalize_text_for_doi_extraction ("a / b".data) ≠ _normalize_for_doi_harvest ("a / b".data)
    := by decide

/-- Claim C7 (amended): the two DOI-harvest repair variants agree on every
string that contains no newline, no form feed and no soft hyphen, and in which
no whitespace character is adjacent to a slash (both variants are the identity
there); on such input they produce the same result. -/
theorem c7_repair_variants_agree (s : List Char)
    (hclean : ∀ c ∈ s, c ≠ '\n' ∧ c ≠ cFF ∧ c ≠ cSHY)
    (hslash : slashWsAdjacent s = false) :
    normalize_text_for_doi_extraction s = _normalize_for_doi_harvest s := by
  rw [c7_extraction_id s hclean, c7_harvest_id s hclean hslash]

/-- Witness for C7: the hypotheses hold for the concrete string
`"see 10.1234/abcd ok"`, and the two repair variants agree on it. -/
theorem c7_witness :
    (∀ c ∈ ("see 10.1234/abcd ok".data), c ≠ '\n' ∧ c ≠ cFF ∧ c ≠ cSHY) ∧
    slashWsAdjacent ("see 10.1234/abcd ok".data) = false ∧
    normalize_text_for_doi_extraction ("see 10.1234/abcd ok".data) =
      _normalize_for_doi_harvest ("see 10.1234/abcd ok".data) :=
  ⟨by decide, by decide, c7_repair_variants_agree _ (by decide) (by decide)⟩

theorem composeChar_none_right (x v : Char) (h1 : v ≠ cAcute) (h2 : v ≠ cTilde) :
    composeChar x v = none := by
  unfold composeChar
  rw [if_neg (by simp [h1]), if_neg (by simp [h2])]

theorem composeChar_nl_left (v : Char) : composeChar '\n' v = none := by
  unfold composeChar
  by_cases h1 : (v == cAcute) = true
  · rw [if_pos h1]
    rfl
  · rw [if_neg h1]
    by_cases h2 : (v == cTilde) = true
    · rw [if_pos h2]
      rfl
    · rw [if_neg h2]

theorem noCompAdj_tail (c : Char) (l : List Char) (h : noCompAdj (c :: l) = true) :
    noCompAdj l = true := by
  cases l with
  | nil => rfl
  | cons b rest =>
    rw [noCompAdj] at h
    exact (Bool.and_eq_true_iff.mp h).2

theorem noCompAdj_cons (c : Char) (w : List Char)
    (hh : ∀ v, w.head? = some v → composeChar c v = none)
    (hw : noCompAdj w = true) : noCompAdj (c :: w) = true := by
  cases w with
  | nil => rfl
  | cons b rest =>
    rw [noCompAdj, hh b rfl]
    simpa using hw

theorem composeChar_out (x y z : Char) (h : composeChar x y = some z) :
    ∃ n ∈ composedOutNats, z = Char.ofNat n := by
  unfold composeChar at h
  by_cases h1 : (y == cAcute) = true
  · rw [if_pos h1] at h
    cases hf : composeAcuteTable.find? (fun p => p.1 == x) with
    | none => rw [hf] at h; exact absurd h (by simp)
    | some p =>
      rw [hf] at h
      have hz : z = Char.ofNat p.2 := by
        injection h with h2
        exact h2.symm
      have hp : p ∈ composeAcuteTable := List.mem_of_find?_eq_some hf
      exact ⟨p.2, List.mem_append.mpr (Or.inl (List.mem_map_of_mem _ hp)), hz⟩
  · rw [if_neg h1] at h
    by_cases h2 : (y == cTilde) = true
    · rw [if_pos h2] at h
      by_cases hx1 : (x == 'n') = true
      · rw [if_pos hx1] at h
        exact ⟨0xF1, by decide, by injection h with h3; exact h3.symm⟩
      · rw [if_neg hx1] at h
        by_cases hx2 : (x == 'N') = true
        · rw [if_pos hx2] at h
          exact ⟨0xD1, by decide, by injection h with h3; exact h3.symm⟩
        · rw [if_neg hx2] at h
          by_cases hx3 : (x == 'a') = true
          · rw [if_pos hx3] at h
            exact ⟨0xE3, by decide, by injection h with h3; exact h3.symm⟩
          · rw [if_neg hx3] at h
            by_cases hx4 : (x == 'A') = true
            · rw [if_pos hx4] at h
              exact ⟨0xC3, by decide, by injection h with h3; exact h3.symm⟩
            · rw [if_neg hx4] at h
              by_cases hx5 : (x == 'o') = true
              · rw [if_pos hx5] at h
                exact ⟨0xF5, by decide, by injection h with h3; exact h3.symm⟩
              · rw [if_neg hx5] at h
                by_cases hx6 : (x == 'O') = true
                · rw [if_pos hx6] at h
                  exact ⟨0xD5, by decide, by injection h with h3; exact h3.symm⟩
                · rw [if_neg hx6] at h
                  exact absurd h (by simp)
    · rw [if_neg h2] at h
      exact absurd h (by simp)

theorem comp_out_not_mark (n : Nat) (hn : n ∈ composedOutNats) :
    Char.ofNat n ≠ cAcute ∧ Char.ofNat n ≠ cTilde := by
  revert n hn
  decide

theorem comp_out_not_shy (n : Nat) (hn : n ∈ composedOutNats) : Char.ofNat n ≠ cSHY := by
  revert n hn
  decide

theorem nfkcScan_head : ∀ fuel y rest, (y :: rest).length ≤ fuel →
    (nfkcScan fuel (y :: rest)).head? = some y ∨
      ∃ n ∈ composedOutNats, (nfkcScan fuel (y :: rest)).head? = some (Char.ofNat n) := by
  intro fuel
  induction fuel with
  | zero => intro y rest h; simp at h
  | succ fuel ih =>
    intro y rest h
    cases rest with
    | nil => left; rfl
    | cons r rest2 =>
      cases hc : composeChar y r with
      | none =>
        left
        simp only [nfkcScan, hc]
        rfl
      | some z =>
        have hlen : (z :: rest2).length ≤ fuel := by
          simp at h ⊢
          omega
        rcases ih z rest2 hlen with h1 | ⟨n, hn, h1⟩
        · right
          rcases composeChar_out y r z hc with ⟨n, hn, hz⟩
          refine ⟨n, hn, ?_⟩
          simp only [nfkcScan, hc]
          rw [h1, hz]
        · right
          refine ⟨n, hn, ?_⟩
          simp only [nfkcScan, hc]
          exact h1

theorem nfkcScan_noCompAdj : ∀ fuel s, s.length ≤ fuel →
    noCompAdj (nfkcScan fuel s) = true := by
  intro fuel
  induction fuel with
  | zero =>
    intro s h
    have hs : s = [] := List.length_eq_zero.mp (Nat.le_zero.mp h)
    subst hs
    rfl
  | succ fuel ih =>
    intro s h
    cases s with
    | nil => rfl
    | cons x s2 =>
      cases s2 with
      | nil => rfl
      | cons y rest =>
        cases hc : composeChar x y with
        | some z =>
          have hlen : (z :: rest).length ≤ fuel := by
            simp at h ⊢
            omega
          simp only [nfkcScan, hc]
          exact ih _ hlen
        | none =>
          simp only [nfkcScan, hc]
          have hlen : (y :: rest).length ≤ fuel := by
            simp at h ⊢
            omega
          refine noCompAdj_cons x _ ?_ (ih _ hlen)
          intro v hv
          rcases nfkcScan_head fuel y rest hlen with h1 | ⟨n, hn, h1⟩
          · rw [h1] at hv
            injection hv with hv2
            subst hv2
            exact hc
          · rw [h1] at hv
            injection hv with hv2
            subst hv2
            have hm := comp_out_not_mark n hn
            exact composeChar_none_right x _ hm.1 hm.2

theorem mem_nfkcScan (c : Char) : ∀ fuel s, c ∈ nfkcScan fuel s →
    c ∈ s ∨ ∃ n ∈ composedOutNats, c = Char.ofNat n := by
  intro fuel
  induction fuel with
  | zero => intro s h; exact Or.inl (by simpa [nfkcScan] using h)
  | succ fuel ih =>
    intro s h
    cases s with
    | nil => simp [nfkcScan] at h
    | cons x s2 =>
      cases s2 with
      | nil => exact Or.inl (by simpa [nfkcScan] using h)
      | cons y rest =>
        cases hc : composeChar x y with
        | some z =>
          simp only [nfkcScan, hc] at h
          rcases ih _ h with h1 | h1
          · rcases List.mem_cons.mp h1 with h2 | h2
            · right
              rcases composeChar_out x y z hc with ⟨n, hn, hz⟩
              exact ⟨n, hn, h2.trans hz⟩
            · exact Or.inl (List.mem_cons_of_mem x (List.mem_cons_of_mem y h2))
          · exact Or.inr h1
        | none =>
          simp only [nfkcScan, hc] at h
          rcases List.mem_cons.mp h with h1 | h1
          · exact Or.inl (h1 ▸ List.mem_cons_self x _)
          · rcases ih _ h1 with h2 | h2
            · exact Or.inl (List.mem_cons_of_mem x h2)
            · exact Or.inr h2

theorem nfkcScan_fix : ∀ fuel s, noCompAdj s = true → nfkcScan fuel s = s := by
  intro fuel
  induction fuel with
  | zero => intro s _; rfl
  | succ fuel ih =>
    intro s hs
    cases s with
    | nil => rfl
    | cons x s2 =>
      cases s2 with
      | nil => rfl
      | cons y rest =>
        rw [noCompAdj] at hs
        have h1 := Bool.and_eq_true_iff.mp hs
        have hc : composeChar x y = none := Option.isNone_iff_eq_none.mp h1.1
        simp only [nfkcScan, hc]
        rw [ih (y :: rest) h1.2]

theorem nfkcAux_fix (s : List Char) (hs : noCompAdj s = true) : nfkcAux s = s :=
  nfkcScan_fix s.length s hs

theorem nfkcAux_noCompAdj (s : List Char) : noCompAdj (nfkcAux s) = true :=
  nfkcScan_noCompAdj s.length s (le_refl _)

theorem nfkcAux_no_shy (s : List Char) (hs : cSHY ∉ s) : cSHY ∉ nfkcAux s := by
  intro h
  rcases mem_nfkcScan cSHY s.length s h with h1 | ⟨n, hn, h1⟩
  · exact hs h1
  · exact comp_out_not_shy n hn h1.symm

theorem replaceCrlfAux_head : ∀ fuel (s : List Char),
    (replaceAllLitAux ['\r', '\n'] ['\n'] fuel s).head? = s.head? ∨
      (replaceAllLitAux ['\r', '\n'] ['\n'] fuel s).head? = some '\n' := by
  intro fuel s
  cases fuel with
  | zero => left; simp only [replaceAllLitAux]
  | succ fuel =>
    cases s with
    | nil => left; simp only [replaceAllLitAux]
    | cons c rest =>
      by_cases hm : ((['\r', '\n'] : List Char).length != 0 &&
          leadsWith ['\r', '\n'] (c :: rest)) = true
      · right
        simp only [replaceAllLitAux]
        rw [if_pos hm]
        rfl
      · left
        simp only [replaceAllLitAux]
        rw [if_neg hm]
        rfl

theorem replaceCrlf_noCompAdjAux : ∀ fuel s, noCompAdj s = true →
    noCompAdj (replaceAllLitAux ['\r', '\n'] ['\n'] fuel s) = true := by
  intro fuel
  induction fuel with
  | zero => intro s hs; simpa only [replaceAllLitAux] using hs
  | succ fuel ih =>
    intro s hs
    cases s with
    | nil => simp only [replaceAllLitAux]; rfl
    | cons c rest =>
      by_cases hm : ((['\r', '\n'] : List Char).length != 0 &&
          leadsWith ['\r', '\n'] (c :: rest)) = true
      · simp only [replaceAllLitAux]
        rw [if_pos hm]
        have hlw : leadsWith ['\r', '\n'] (c :: rest) = true := (Bool.and_eq_true_iff.mp hm).2
        cases rest with
        | nil => simp [leadsWith] at hlw
        | cons d rest2 =>
          simp [leadsWith] at hlw
          obtain ⟨hc1, hd1⟩ := hlw
          show noCompAdj ('\n' :: replaceAllLitAux ['\r', '\n'] ['\n'] fuel rest2) = true
          refine noCompAdj_cons '\n' _ (fun v _ => composeChar_nl_left v) ?_
          exact ih rest2 (noCompAdj_tail d rest2 (noCompAdj_tail c (d :: rest2) hs))
      · simp only [replaceAllLitAux]
        rw [if_neg hm]
        refine noCompAdj_cons c _ ?_ (ih rest (noCompAdj_tail c rest hs))
        intro v hv
        rcases replaceCrlfAux_head fuel rest with h1 | h1
        · rw [h1] at hv
          cases rest with
          | nil => simp at hv
          | cons d rest2 =>
            simp only [List.head?] at hv
            injection hv with hv2
            subst hv2
            rw [noCompAdj] at hs
            exact Option.isNone_iff_eq_none.mp (Bool.and_eq_true_iff.mp hs).1
        · rw [h1] at hv
          injection hv with hv2
          subst hv2
          exact composeChar_none_right c _ (by decide) (by decide)

theorem replaceCrlf_noCompAdj (s : List Char) (hs : noCompAdj s = true) :
    noCompAdj (replaceAllLit ['\r', '\n'] ['\n'] s) = true :=
  replaceCrlf_noCompAdjAux s.length s hs

theorem map_cr_noCompAdj (s : List Char) (hs : noCompAdj s = true) :
    noCompAdj (s.map (fun c => if c == '\r' then '\n' else c)) = true := by
  induction s with
  | nil => rfl
  | cons a s2 ih =>
    cases s2 with
    | nil => rfl
    | cons b rest =>
      rw [noCompAdj] at hs
      have h1 := Bool.and_eq_true_iff.mp hs
      have hab : composeChar a b = none := Option.isNone_iff_eq_none.mp h1.1
      have ih2 := ih h1.2
      simp only [List.map] at ih2 ⊢
      rw [noCompAdj]
      refine Bool.and_eq_true_iff.mpr ⟨?_, ih2⟩
      by_cases hb : (b == '\r') = true
      · rw [if_pos hb, composeChar_none_right _ '\n' (by decide) (by decide)]
        rfl
      · rw [if_neg hb]
        by_cases ha : (a == '\r') = true
        · rw [if_pos ha, composeChar_nl_left b]
          rfl
        · rw [if_neg ha, hab]
          rfl

theorem normalize_text_noCompAdj (x : List Char) (hx : cSHY ∉ x) :
    noCompAdj (normalize_text x) = true := by
  unfold normalize_text
  have h1 : (nfkcAux x).filter (fun c => c != cSHY) = nfkcAux x :=
    List.filter_eq_self.mpr (fun c hc => by
      simp only [bne_iff_ne, ne_eq, decide_eq_true_eq]
      intro hce
      exact nfkcAux_no_shy x hx (hce ▸ hc))
  rw [h1]
  exact map_cr_noCompAdj _ (replaceCrlf_noCompAdj _ (nfkcAux_noCompAdj x))

theorem normalize_text_no_shy (x : List Char) : cSHY ∉ normalize_text x := by
  intro h
  unfold normalize_text at h
  rcases List.mem_map.mp h with ⟨c, hc, hgc⟩
  have hcs : c = cSHY := by
    by_cases hr : (c == '\r') = true
    · rw [if_pos hr] at hgc
      exact absurd hgc (by decide)
    · rw [if_neg hr] at hgc
      exact hgc
  subst hcs
  rcases mem_replaceAllLit _ _ _ _ hc with h1 | h1
  · have h2 := List.mem_filter.mp h1
    simp at h2
  · exact absurd h1 (by decide)

theorem normalize_text_no_cr (x : List Char) : '\r' ∉ normalize_text x := by
  intro h
  unfold normalize_text at h
  rcases List.mem_map.mp h with ⟨c, hc, hgc⟩
  by_cases hr : (c == '\r') = true
  · rw [if_pos hr] at hgc
    exact absurd hgc (by decide)
  · rw [if_neg hr] at hgc
    rw [hgc] at hr
    simp at hr

/-- Claim C9 (counterexample): `normalize_text` is not idempotent. On the
three-character input `a`, soft hyphen, combining acute accent, the first
application only deletes the soft hyphen (NFKC leaves the string unchanged
because the soft hyphen separates the base letter from the accent), and the
second application then composes `a` with the accent into `á`, so applying the
normalizer twice differs from applying it once. -/
theorem c9_counterexample :
    normalize_text (normalize_text ['a', cSHY, cAcute]) ≠
      normalize_text ['a', cSHY, cAcute] := by
  decide

/-- Claim C9 (amended): on every input containing no soft hyphen,
`normalize_text` is idempotent (`normalize_text (normalize_text x) =
normalize_text x`); moreover it maps empty input to empty output. Idempotence
fails in general because deleting a soft hyphen can bring a base letter and a
combining accent together, which NFKC composes only on the second pass. -/
theorem c9_idempotent_no_soft_hyphen (x : List Char) (hx : cSHY ∉ x) :
    normalize_text (normalize_text x) = normalize_text x ∧ normalize_text [] = [] := by
  refine ⟨?_, rfl⟩
  have hadj := normalize_text_noCompAdj x hx
  have hshy := normalize_text_no_shy x
  have hcr := normalize_text_no_cr x
  set z := normalize_text x with hz
  show normalize_text z = z
  unfold normalize_text
  rw [nfkcAux_fix z hadj]
  rw [List.filter_eq_self.mpr (fun c hc => by
    simp only [bne_iff_ne, ne_eq, decide_eq_true_eq]
    intro hce
    exact hshy (hce ▸ hc))]
  rw [replaceAllLit_crlf_eq_self _ z hcr]
  refine map_id_of_mem _ z (fun c hc => ?_)
  have hcne : ¬((c == '\r') = true) := by
    intro hb
    have hce : c = '\r' := by simpa using hb
    exact hcr (hce ▸ hc)
  rw [if_neg hcne]

/-- Witness for C9: the accented input `['a', U+0301]` contains no soft hyphen
and the amended idempotence theorem applies to it. -/
theorem c9_witness :
    cSHY ∉ ['a', cAcute] ∧
      (normalize_text (normalize_text ['a', cAcute]) = normalize_text ['a', cAcute] ∧
        normalize_text [] = []) :=
  ⟨by decide, c9_idempotent_no_soft_hyphen ['a', cAcute] (by decide)⟩

/-- Claim C4: if no line of the document matches the reference-section
start-heading pattern, or the candidate section text is shorter than 250
characters, then `slice_references_section` returns the full original text with
both line bounds absent (the embedding is a total function, so no exception is
possible). -/
theorem c4_slice_fallback (full_text : List Char) (m : Nat)
    (h : sliceStartIdx full_text = none ∨ (sliceRefText full_text m).length < 250) :
    slice_references_section full_text m = (full_text, none, none) := by
  unfold slice_references_section
  rcases h with h1 | h1
  · rw [h1]
  · cases hs : sliceStartIdx full_text with
    | none => rfl
    | some st =>
      show (if (sliceRefText full_text m).length < 250 then (full_text, none, none)
            else (sliceRefText full_text m, some st,
                  some (sliceEndFrom (pySplitlines full_text) st m))) =
          (full_text, none, none)
      rw [if_pos h1]

/-- Witness for C4: the five-character document `"hello"` has no start heading,
and the fallback triple is returned. -/
theorem c4_witness :
    (sliceStartIdx ("hello".data) = none ∨ (sliceRefText ("hello".data) 12).length < 250) ∧
      slice_references_section ("hello".data) 12 = ("hello".data, none, none) :=
  ⟨Or.inl (by decide), c4_slice_fallback ("hello".data) 12 (Or.inl (by decide))⟩

theorem enumFrom_snd_mem {α : Type} (l : List α) :
    ∀ n (p : Nat × α), p ∈ List.enumFrom n l → p.2 ∈ l := by
  induction l with
  | nil => intro n p h; simp at h
  | cons a l ih =>
    intro n p h
    rw [List.enumFrom] at h
    rcases List.mem_cons.mp h with h1 | h1
    · subst h1
      exact List.mem_cons_self a l
    · exact List.mem_cons_of_mem a (ih (n + 1) p h1)

/-- Claim C10: when the DOI key is empty, or no reference line contains the
whitespace-compacted lowercased DOI as a substring of its compacted repaired
form, `pick_best_reference_block_for_doi` returns exactly `("", none, 0.0)`
(the embedding is total, so no exception is possible). -/
theorem c10_no_candidates (doi : List Char) (rl : List (List Char))
    (cr : List Char) (b a : Nat)
    (H : doiNormKey doi = [] ∨
      ∀ ln ∈ rl, containsSub (doiNormKey doi) (lineNormKey ln) = false) :
    pick_best_reference_block_for_doi doi rl cr b a = ([], none, 0) := by
  have hcand : find_reference_candidates_for_doi doi rl = [] := by
    unfold find_reference_candidates_for_doi
    show (if (doiNormKey doi).isEmpty then ([] : List (Nat × List Char))
          else rl.enum.filterMap (fun p =>
            if containsSub (doiNormKey doi) (lineNormKey p.2) then
              some (p.1, lineRepaired p.2)
            else none)) = []
    rcases H with h1 | h1
    · rw [if_pos (by rw [h1]; rfl)]
    · by_cases he : (doiNormKey doi).isEmpty = true
      · rw [if_pos he]
      · rw [if_neg he]
        refine List.filterMap_eq_nil_iff.mpr (fun p hp => ?_)
        have h2 := h1 p.2 (enumFrom_snd_mem rl 0 p hp)
        rw [if_neg (by simp [h2])]
  unfold pick_best_reference_block_for_doi
  rw [hcand]

/-- Witness for C10: the DOI `10.1/x` occurs in no line of the one-line list
`["irrelevant line"]`, and the returned triple is `("", none, 0)`. -/
theorem c10_witness :
    (doiNormKey ("10.1/x".data) = [] ∨
      ∀ ln ∈ [("irrelevant line".data)],
        containsSub (doiNormKey ("10.1/x".data)) (lineNormKey ln) = false) ∧
      pick_best_reference_block_for_doi ("10.1/x".data) [("irrelevant line".data)] [] 5 1 =
        ([], none, 0) :=
  ⟨Or.inr (by decide),
    c10_no_candidates ("10.1/x".data) [("irrelevant line".data)] [] 5 1 (Or.inr (by decide))⟩

/-- Claim C6 (counterexample): a dot-adjacent line break inside a DOI is not
repaired into a contiguous DOI. On `"10.1109/MIC.2022\n.3141559"` the
line-break join inserts a space (`(\S)\s*\n\s*(\S)` replaces by `\1 \2`), the
slash rule does not apply, and the robust extractor returns only the truncated
DOI `10.1109/MIC.2022` — the full DOI `10.1109/MIC.2022.3141559` is not
recoverable as one extracted match, refuting the second half of the claim. -/
theorem c6_counterexample :
    (extract_dois_robust ("10.1109/MIC.2022\n.3141559".data) 60).map (fun r => r.doi) =
      [("10.1109/MIC.2022".data)] := by
  decide

/-- Claim C6 (amended): the repair pass does turn `"climate-\nchange"` into
exactly `"climatechange"` (no residual hyphen or newline) under both repair
variants, and a slash-adjacent break as in `"10.1109/\nMIC.2022.3141559"` is
repaired so that the full DOI `10.1109/MIC.2022.3141559` is extracted as the
single match; a dot-adjacent break (`"10.1109/MIC.2022\n.3141559"`), however,
is joined with a space and only the truncated DOI is extracted. -/
theorem c6_hyphen_and_slash_repair :
    _normalize_for_doi_harvest (normalize_text ("climate-\nchange".data)) =
      ("climatechange".data) ∧
    normalize_text_for_doi_extraction ("climate-\nchange".data) = ("climatechange".data) ∧
    (extract_dois_robust ("10.1109/\nMIC.2022.3141559".data) 60).map (fun r => r.doi) =
      [("10.1109/MIC.2022.3141559".data)] := by
  decide

theorem mem_revDropRev (p : Char → Bool) (s : List Char) (c : Char)
    (h : c ∈ (s.reverse.dropWhile p).reverse) : c ∈ s := by
  rw [List.mem_reverse] at h
  have h2 := (List.dropWhile_suffix p).sublist.mem h
  exact List.mem_reverse.mp h2

theorem mem_stripWs (s : List Char) (c : Char) (h : c ∈ stripWs s) : c ∈ s :=
  (List.dropWhile_suffix _).sublist.mem (mem_revDropRev isPySpace _ c h)

theorem mem_rstripSet (set s : List Char) (c : Char) (h : c ∈ rstripSet set s) : c ∈ s :=
  mem_revDropRev _ s c h

theorem mem_dotStrip (s : List Char) (c : Char)
    (h : c ∈ (if (s.reverse.takeWhile (fun c => c == '.')).length ≥ 2 then
              (s.reverse.dropWhile (fun c => c == '.')).reverse else s)) : c ∈ s := by
  by_cases hc : (s.reverse.takeWhile (fun c => c == '.')).length ≥ 2
  · rw [if_pos hc] at h
    exact mem_revDropRev _ s c h
  · rwa [if_neg hc] at h

theorem clean_doi_no_ws (x : List Char) (c : Char) (h : c ∈ clean_doi x) :
    isPySpace c = false := by
  simp only [clean_doi] at h
  have h9 := mem_stripWs _ c h
  have h8 := mem_dotStrip _ c h9
  have h7 := mem_rstripSet cleanTrailSet _ c h8
  rcases mem_replaceAllLit _ _ _ c h7 with h6 | hr
  · rcases mem_replaceAllLit _ _ _ c h6 with h5 | hr
    · rcases mem_replaceAllLit _ _ _ c h5 with h4 | hr
      · rcases mem_replaceAllLit _ _ _ c h4 with h3 | hr
        · rcases mem_replaceAllLit _ _ _ c h3 with h2 | hr
          · rcases mem_replaceAllLit _ _ _ c h2 with h1 | hr
            · have hm := List.mem_filter.mp h1
              simpa using hm.2
            · simp at hr
          · simp at hr
        · simp at hr
      · rw [List.mem_singleton.mp hr]
        decide
    · rw [List.mem_singleton.mp hr]
      decide
  · rw [List.mem_singleton.mp hr]
    decide

theorem recordOfMatch_doi (t label : List Char) (mc : Nat) (m : MatchInfo) (r : DoiRecord)
    (heq : recordOfMatch t label mc m = some r) :
    is_valid_doi_format r.doi = true ∧ r.doi = clean_doi (rawOfMatch t m) := by
  unfold recordOfMatch at heq
  by_cases hc : ((clean_doi (rawOfMatch t m)).isEmpty ||
      !is_valid_doi_format (clean_doi (rawOfMatch t m))) = true
  · rw [if_pos hc] at heq
    exact absurd heq (by simp)
  · rw [if_neg hc] at heq
    have hc2 := Bool.or_eq_false_iff.mp (Bool.eq_false_iff.mpr hc)
    have hv : is_valid_doi_format (clean_doi (rawOfMatch t m)) = true := by
      simpa using hc2.2
    obtain ⟨rd, rr, rp, rpos, rctx⟩ := r
    have h2 := Option.some.inj heq
    rw [DoiRecord.mk.injEq] at h2
    obtain ⟨e1, -, -, -, -⟩ := h2
    show is_valid_doi_format rd = true ∧ rd = clean_doi (rawOfMatch t m)
    subst e1
    exact ⟨hv, rfl⟩

theorem robustRecordOfMatch_doi (t : List Char) (mc : Nat) (m : MatchInfo) (r : DoiRecord)
    (heq : robustRecordOfMatch t mc m = some r) :
    is_valid_doi_format r.doi = true ∧
      r.doi = rstripSet _TRAILING_PUNCT (clean_doi (robustRaw t m)) := by
  unfold robustRecordOfMatch at heq
  by_cases hc : ((rstripSet _TRAILING_PUNCT (clean_doi (robustRaw t m))).isEmpty ||
      !is_valid_doi_format (rstripSet _TRAILING_PUNCT (clean_doi (robustRaw t m)))) = true
  · rw [if_pos hc] at heq
    exact absurd heq (by simp)
  · rw [if_neg hc] at heq
    have hc2 := Bool.or_eq_false_iff.mp (Bool.eq_false_iff.mpr hc)
    have hv : is_valid_doi_format (rstripSet _TRAILING_PUNCT (clean_doi (robustRaw t m))) =
        true := by
      simpa using hc2.2
    obtain ⟨rd, rr, rp, rpos, rctx⟩ := r
    have h2 := Option.some.inj heq
    rw [DoiRecord.mk.injEq] at h2
    obtain ⟨e1, -, -, -, -⟩ := h2
    show is_valid_doi_format rd = true ∧
      rd = rstripSet _TRAILING_PUNCT (clean_doi (robustRaw t m))
    subst e1
    exact ⟨hv, rfl⟩

theorem mem_insertByPos (d : DoiRecord) (l : List DoiRecord) (r : DoiRecord)
    (h : r ∈ insertByPos d l) : r = d ∨ r ∈ l := by
  induction l with
  | nil =>
    simp [insertByPos] at h
    exact Or.inl h
  | cons e rest ih =>
    rw [insertByPos] at h
    by_cases hc : e.position < d.position
    · rw [if_pos hc] at h
      rcases List.mem_cons.mp h with h1 | h1
      · exact Or.inr (h1 ▸ List.mem_cons_self e rest)
      · rcases ih h1 with h2 | h2
        · exact Or.inl h2
        · exact Or.inr (List.mem_cons_of_mem e h2)
    · rw [if_neg hc] at h
      rcases List.mem_cons.mp h with h1 | h1
      · exact Or.inl h1
      · exact Or.inr h1

theorem mem_sortByPos (l : List DoiRecord) (r : DoiRecord) (h : r ∈ sortByPos l) : r ∈ l := by
  induction l with
  | nil => simp [sortByPos] at h
  | cons d rest ih =>
    rw [sortByPos] at h
    rcases mem_insertByPos d (sortByPos rest) r h with h1 | h1
    · exact h1 ▸ List.mem_cons_self d rest
    · exact List.mem_cons_of_mem d (ih h1)

theorem mem_dedupByLowerDoi (l : List DoiRecord) :
    ∀ seen r, r ∈ dedupByLowerDoi l seen → r ∈ l := by
  induction l with
  | nil => intro seen r h; simp [dedupByLowerDoi] at h
  | cons d rest ih =>
    intro seen r h
    rw [dedupByLowerDoi] at h
    by_cases hc : seen.contains (lowerStr d.doi) = true
    · rw [if_pos hc] at h
      exact List.mem_cons_of_mem d (ih seen r h)
    · rw [if_neg hc] at h
      rcases List.mem_cons.mp h with h1 | h1
      · exact h1 ▸ List.mem_cons_self d rest
      · exact List.mem_cons_of_mem d (ih _ r h1)

theorem recordsOfPattern_ok (t label : List Char) (mc : Nat)
    (mAt : Nat → List Char → Option (Nat × Nat × Nat)) (r : DoiRecord)
    (h : r ∈ recordsOfPattern t label mc mAt) :
    is_valid_doi_format r.doi = true ∧ ∀ c ∈ r.doi, isPySpace c = false := by
  unfold recordsOfPattern at h
  rcases List.mem_filterMap.mp h with ⟨m, _, heq⟩
  rcases recordOfMatch_doi t label mc m r heq with ⟨hv, hd⟩
  exact ⟨hv, fun c hc => clean_doi_no_ws _ c (hd ▸ hc)⟩

theorem robust_records_ok (text : List Char) (mc : Nat) (r : DoiRecord)
    (h : r ∈ extract_dois_robust_records text mc) :
    is_valid_doi_format r.doi = true ∧ ∀ c ∈ r.doi, isPySpace c = false := by
  simp only [extract_dois_robust_records] at h
  have h2 := mem_sortByPos _ r h
  rcases List.mem_filterMap.mp h2 with ⟨m, _, heq⟩
  rcases robustRecordOfMatch_doi _ mc m r heq with ⟨hv, hd⟩
  refine ⟨hv, fun c hc => ?_⟩
  rw [hd] at hc
  exact clean_doi_no_ws _ c (mem_rstripSet _ _ c hc)

/-- Claim C1: every record returned by `extract_dois_from_text` or
`extract_dois_robust` has a `doi` field accepted by `is_valid_doi_format` and
containing no whitespace character (both extractors guard each emitted record
with the validity check, and `clean_doi` removes every whitespace character
first, with only non-whitespace characters reintroduced afterwards). -/
theorem c1_extractor_valid_no_ws (text : List Char) (mc : Nat) (r : DoiRecord)
    (h : r ∈ extract_dois_from_text text mc ∨ r ∈ extract_dois_robust text mc) :
    is_valid_doi_format r.doi = true ∧ ∀ c ∈ r.doi, isPySpace c = false := by
  rcases h with h | h
  · simp only [extract_dois_from_text] at h
    have h2 := mem_sortByPos _ r h
    rcases List.mem_append.mp h2 with h3 | h3
    · rcases List.mem_append.mp h3 with h4 | h4
      · rcases List.mem_append.mp h4 with h5 | h5
        · rcases List.mem_append.mp h5 with h6 | h6
          · exact recordsOfPattern_ok _ _ _ _ r h6
          · exact recordsOfPattern_ok _ _ _ _ r h6
        · exact recordsOfPattern_ok _ _ _ _ r h5
      · exact recordsOfPattern_ok _ _ _ _ r h4
    · exact recordsOfPattern_ok _ _ _ _ r h3
  · unfold extract_dois_robust at h
    exact robust_records_ok text mc r (mem_dedupByLowerDoi _ _ r h)

/-- Witness for C1: the record extracted from `"doi:10.1234/abcd"` by pattern 1
is a member of the extractor's output, its DOI is valid and whitespace-free. -/
theorem c1_witness :
    ((⟨"10.1234/abcd".data, "10.1234/abcd".data, "Patrón 1".data, 0,
        "doi:10.1234/abcd".data⟩ : DoiRecord) ∈
          extract_dois_from_text ("doi:10.1234/abcd".data) 60 ∨
      (⟨"10.1234/abcd".data, "10.1234/abcd".data, "Patrón 1".data, 0,
        "doi:10.1234/abcd".data⟩ : DoiRecord) ∈
          extract_dois_robust ("doi:10.1234/abcd".data) 60) ∧
      (is_valid_doi_format ("10.1234/abcd".data) = true ∧
        ∀ c ∈ ("10.1234/abcd".data), isPySpace c = false) :=
  ⟨Or.inl (by decide),
    c1_extractor_valid_no_ws ("doi:10.1234/abcd".data) 60
      ⟨"10.1234/abcd".data, "10.1234/abcd".data, "Patrón 1".data, 0,
        "doi:10.1234/abcd".data⟩ (Or.inl (by decide))⟩

theorem insertByPos_sorted (d : DoiRecord) (l : List DoiRecord)
    (h : List.Pairwise (fun a b => a.position ≤ b.position) l) :
    List.Pairwise (fun a b => a.position ≤ b.position) (insertByPos d l) := by
  induction l with
  | nil => simp [insertByPos]
  | cons e rest ih =>
    rw [List.pairwise_cons] at h
    rw [insertByPos]
    by_cases hc : e.position < d.position
    · rw [if_pos hc, List.pairwise_cons]
      refine ⟨fun x hx => ?_, ih h.2⟩
      rcases mem_insertByPos d rest x hx with h1 | h1
      · rw [h1]
        omega
      · exact h.1 x h1
    · rw [if_neg hc, List.pairwise_cons]
      refine ⟨fun x hx => ?_, List.pairwise_cons.mpr h⟩
      rcases List.mem_cons.mp hx with h1 | h1
      · rw [h1]
        omega
      · have h2 := h.1 x h1
        omega

theorem sortByPos_sorted (l : List DoiRecord) :
    List.Pairwise (fun a b => a.position ≤ b.position) (sortByPos l) := by
  induction l with
  | nil => simp [sortByPos]
  | cons d rest ih =>
    rw [sortByPos]
    exact insertByPos_sorted d _ ih

theorem dedup_key_not_seen (l : List DoiRecord) :
    ∀ seen r, r ∈ dedupByLowerDoi l seen → seen.contains (lowerStr r.doi) = false := by
  induction l with
  | nil => intro seen r h; simp [dedupByLowerDoi] at h
  | cons d rest ih =>
    intro seen r h
    rw [dedupByLowerDoi] at h
    by_cases hc : seen.contains (lowerStr d.doi) = true
    · rw [if_pos hc] at h
      exact ih seen r h
    · rw [if_neg hc] at h
      rcases List.mem_cons.mp h with h1 | h1
      · rw [h1]
        exact Bool.eq_false_iff.mpr hc
      · have h2 := ih _ r h1
        rw [List.contains_cons] at h2
        exact (Bool.or_eq_false_iff.mp h2).2

theorem dedup_keys_distinct (l : List DoiRecord) :
    ∀ seen, List.Pairwise (fun a b => lowerStr a.doi ≠ lowerStr b.doi)
      (dedupByLowerDoi l seen) := by
  induction l with
  | nil => intro seen; simp [dedupByLowerDoi]
  | cons d rest ih =>
    intro seen
    rw [dedupByLowerDoi]
    by_cases hc : seen.contains (lowerStr d.doi) = true
    · rw [if_pos hc]
      exact ih seen
    · rw [if_neg hc, List.pairwise_cons]
      refine ⟨fun x hx => ?_, ih _⟩
      have h2 := dedup_key_not_seen rest _ x hx
      rw [List.contains_cons] at h2
      have h3 := (Bool.or_eq_false_iff.mp h2).1
      intro he
      rw [he] at h3
      simp at h3

theorem dedup_first_min (l : List DoiRecord)
    (hsort : List.Pairwise (fun a b => a.position ≤ b.position) l) :
    ∀ seen r, r ∈ dedupByLowerDoi l seen →
      ∀ s ∈ l, lowerStr s.doi = lowerStr r.doi → r.position ≤ s.position := by
  induction l with
  | nil => intro seen r h; simp [dedupByLowerDoi] at h
  | cons d rest ih =>
    intro seen r h s hs2 hk
    rw [List.pairwise_cons] at hsort
    rw [dedupByLowerDoi] at h
    by_cases hc : seen.contains (lowerStr d.doi) = true
    · rw [if_pos hc] at h
      rcases List.mem_cons.mp hs2 with h1 | h1
      · exfalso
        have h2 := dedup_key_not_seen rest seen r h
        rw [← hk, h1] at h2
        rw [h2] at hc
        exact Bool.false_ne_true hc
      · exact ih hsort.2 seen r h s h1 hk
    · rw [if_neg hc] at h
      rcases List.mem_cons.mp h with h1 | h1
      · subst h1
        rcases List.mem_cons.mp hs2 with h2 | h2
        · rw [h2]
        · exact hsort.1 s h2
      · rcases List.mem_cons.mp hs2 with h2 | h2
        · exfalso
          have h3 := dedup_key_not_seen rest _ r h1
          rw [List.contains_cons] at h3
          have h4 := (Bool.or_eq_false_iff.mp h3).1
          rw [← hk, h2] at h4
          simp at h4
        · exact ih hsort.2 _ r h1 s h2 hk

/-- Claim C2 (counterexample): `extract_dois_from_text` performs NO
deduplication. On `"doi:10.1234/abcd"` patterns 1, 5 and 3 each produce a
record for the same DOI (case-insensitively equal), at positions 0, 0 and 3,
so the returned sequence contains three records for one DOI rather than a
single record at the smallest position. -/
theorem c2_counterexample :
    (extract_dois_from_text ("doi:10.1234/abcd".data) 60).map
        (fun r => (lowerStr r.doi, r.position)) =
      [("10.1234/abcd".data, 0), ("10.1234/abcd".data, 0), ("10.1234/abcd".data, 3)] := by
  decide

/-- Claim C2 (amended): the deduplication property holds for
`extract_dois_robust` only. Its output contains at most one record per DOI
compared case-insensitively; every returned record appears in the
position-sorted pre-deduplication list and has the smallest position among all
pre-deduplication records carrying the same case-insensitive DOI. In
particular the same DOI case-varied at positions 10 and 26 of
`"aaaaaaaaaa10.1234/abcd xx 10.1234/ABCD"` yields exactly one record, with
position 10. `extract_dois_from_text` performs no deduplication at all. -/
theorem c2_robust_dedup (text : List Char) (mc : Nat) :
    List.Pairwise (fun r1 r2 => lowerStr r1.doi ≠ lowerStr r2.doi)
        (extract_dois_robust text mc) ∧
      (∀ r ∈ extract_dois_robust text mc, r ∈ extract_dois_robust_records text mc ∧
        ∀ s ∈ extract_dois_robust_records text mc,
          lowerStr s.doi = lowerStr r.doi → r.position ≤ s.position) ∧
      (extract_dois_robust ("aaaaaaaaaa10.1234/abcd xx 10.1234/ABCD".data) 60).map
          (fun r => (r.doi, r.position)) = [("10.1234/abcd".data, 10)] := by
  refine ⟨?_, ?_, by decide⟩
  · unfold extract_dois_robust
    exact dedup_keys_distinct _ []
  · intro r hr
    unfold extract_dois_robust at hr
    have hsorted : List.Pairwise (fun a b => a.position ≤ b.position)
        (extract_dois_robust_records text mc) := by
      simp only [extract_dois_robust_records]
      exact sortByPos_sorted _
    exact ⟨mem_dedupByLowerDoi _ [] r hr,
      fun s hs hk => dedup_first_min _ hsorted [] r hr s hs hk⟩

/-- Witness for C2: the amended theorem applied at a concrete input. -/
theorem c2_witness :
    List.Pairwise (fun r1 r2 => lowerStr r1.doi ≠ lowerStr r2.doi)
      (extract_dois_robust ("x 10.1234/ab cd 10.1234/AB".data) 60) :=
  (c2_robust_dedup ("x 10.1234/ab cd 10.1234/AB".data) 60).1

theorem goodChar_spec (c : Char) (h : goodChar c = true) :
    isPySpace c = false ∧ c ≠ '-' ∧ c ≠ cSHY := by
  unfold goodChar at h
  rcases Bool.and_eq_true_iff.mp h with ⟨h1, h3⟩
  rcases Bool.and_eq_true_iff.mp h1 with ⟨h0, h2⟩
  exact ⟨by simpa using h0, by simpa using h2, by simpa using h3⟩

theorem goodChar_of_parts (c : Char) (h1 : isPySpace c = false) (h2 : c ≠ '-')
    (h3 : c ≠ cSHY) : goodChar c = true := by
  unfold goodChar
  simp [h1, h2, h3]

theorem composeChar_some_mark (x y z : Char) (h : composeChar x y = some z) :
    y = cAcute ∨ y = cTilde := by
  unfold composeChar at h
  by_cases h1 : (y == cAcute) = true
  · exact Or.inl (by simpa using h1)
  · rw [if_neg h1] at h
    by_cases h2 : (y == cTilde) = true
    · exact Or.inr (by simpa using h2)
    · rw [if_neg h2] at h
      exact absurd h (by simp)

theorem comp_out_good (n : Nat) (hn : n ∈ composedOutNats) :
    goodChar (Char.ofNat n) = true := by
  revert n hn
  decide

theorem allBad_noCompAdj (X : List Char) (hX : ∀ c ∈ X, goodChar c = false) :
    noCompAdj X = true := by
  induction X with
  | nil => rfl
  | cons x X2 ih =>
    cases X2 with
    | nil => rfl
    | cons y rest =>
      rw [noCompAdj]
      refine Bool.and_eq_true_iff.mpr ⟨?_, ?_⟩
      · cases hm : composeChar x y with
        | none => rfl
        | some z =>
          exfalso
          have hy := hX y (List.mem_cons_of_mem x (List.mem_cons_self y rest))
          rcases composeChar_some_mark x y z hm with h1 | h1
          · rw [h1] at hy
            exact absurd hy (by decide)
          · rw [h1] at hy
            exact absurd hy (by decide)
      · exact ih (fun c hc => hX c (List.mem_cons_of_mem x hc))

theorem nfkcAux_rev_good (X : List Char) (e : Char) (he : e ∈ nfkcAux X)
    (hg : goodChar e = true) : ∃ d ∈ X, goodChar d = true := by
  by_cases hX : ∀ c ∈ X, goodChar c = false
  · rw [nfkcAux_fix X (allBad_noCompAdj X hX)] at he
    have := hX e he
    rw [hg] at this
    exact absurd this (by decide)
  · push_neg at hX
    rcases hX with ⟨d, hd, hdg⟩
    exact ⟨d, hd, by simpa using hdg⟩

theorem nfkcScan_surv : ∀ fuel (s : List Char) (c : Char), goodChar c = true → c ∈ s →
    ∃ d, d ∈ nfkcScan fuel s ∧ goodChar d = true := by
  intro fuel
  induction fuel with
  | zero => intro s c hg h; exact ⟨c, by simpa [nfkcScan] using h, hg⟩
  | succ fuel ih =>
    intro s c hg h
    cases s with
    | nil => simp at h
    | cons x s2 =>
      cases s2 with
      | nil =>
        rcases List.mem_singleton.mp h with h1
        exact ⟨c, by simpa [nfkcScan] using h, hg⟩
      | cons y rest =>
        cases hm : composeChar x y with
        | some z =>
          have hz : goodChar z = true := by
            rcases composeChar_out x y z hm with ⟨n, hn, hzn⟩
            rw [hzn]
            exact comp_out_good n hn
          rcases List.mem_cons.mp h with h1 | h1
          · rcases ih (z :: rest) z hz (List.mem_cons_self z rest) with ⟨d, hd, hdg⟩
            refine ⟨d, ?_, hdg⟩
            simpa [nfkcScan, hm] using hd
          · rcases List.mem_cons.mp h1 with h2 | h2
            · rcases ih (z :: rest) z hz (List.mem_cons_self z rest) with ⟨d, hd, hdg⟩
              refine ⟨d, ?_, hdg⟩
              simpa [nfkcScan, hm] using hd
            · rcases ih (z :: rest) c hg (List.mem_cons_of_mem z h2) with ⟨d, hd, hdg⟩
              refine ⟨d, ?_, hdg⟩
              simpa [nfkcScan, hm] using hd
        | none =>
          rcases List.mem_cons.mp h with h1 | h1
          · refine ⟨c, ?_, hg⟩
            simp only [nfkcScan, hm]
            exact h1 ▸ List.mem_cons_self x _
          · rcases ih (y :: rest) c hg h1 with ⟨d, hd, hdg⟩
            refine ⟨d, ?_, hdg⟩
            simp only [nfkcScan, hm]
            exact List.mem_cons_of_mem x hd

theorem collapseWsAux_keep (c : Char) (hg : isPySpace c = false) :
    ∀ (s : List Char) pw, c ∈ s → c ∈ collapseWsAux pw s := by
  intro s
  induction s with
  | nil => intro pw h; simp at h
  | cons d rest ih =>
    intro pw h
    rw [collapseWsAux]
    by_cases hd : isPySpace d = true
    · rw [if_pos hd]
      have hcr : c ∈ rest := by
        rcases List.mem_cons.mp h with h1 | h1
        · exfalso
          rw [h1, hd] at hg
          exact absurd hg (by decide)
        · exact h1
      by_cases hpw : pw
      · rw [if_pos hpw]
        exact ih true hcr
      · rw [if_neg hpw]
        exact List.mem_cons_of_mem ' ' (ih true hcr)
    · rw [if_neg hd]
      rcases List.mem_cons.mp h with h1 | h1
      · exact h1 ▸ List.mem_cons_self d _
      · exact List.mem_cons_of_mem d (ih false h1)

theorem mem_dropWhile_keep (p : Char → Bool) (c : Char) (hp : p c = false) :
    ∀ s : List Char, c ∈ s → c ∈ s.dropWhile p := by
  intro s
  induction s with
  | nil => intro h; simp at h
  | cons d rest ih =>
    intro h
    rw [List.dropWhile_cons]
    by_cases hd : p d = true
    · rw [if_pos hd]
      rcases List.mem_cons.mp h with h1 | h1
      · exfalso
        rw [h1, hd] at hp
        exact absurd hp (by decide)
      · exact ih h1
    · rw [if_neg hd]
      exact h

theorem stripWs_keep (c : Char) (hg : isPySpace c = false) (s : List Char) (h : c ∈ s) :
    c ∈ stripWs s := by
  unfold stripWs
  rw [List.mem_reverse]
  apply mem_dropWhile_keep isPySpace c hg
  rw [List.mem_reverse]
  exact mem_dropWhile_keep isPySpace c hg s h

theorem dashBreak_chunk (u : List Char) (c : Char) (hc : c ∈ u.take (dashBreakLen u)) :
    c = '-' ∨ isPySpace c = true := by
  cases u with
  | nil => simp at hc
  | cons d rest =>
    by_cases hd : (d == '-') = true
    · by_cases hw : ((rest.take (wsRunLen rest)).contains '\n') = true
      · have hlen : dashBreakLen (d :: rest) = wsRunLen rest + 1 := by
          simp only [dashBreakLen]
          rw [if_pos hd, if_pos hw]
          omega
        rw [hlen, List.take_succ_cons] at hc
        rcases List.mem_cons.mp hc with h1 | h1
        · exact Or.inl (h1.trans (beq_iff_eq.mp hd))
        · exact Or.inr (wsRunLen_take_all_ws rest c h1)
      · have hlen : dashBreakLen (d :: rest) = 0 := by
          simp only [dashBreakLen]
          rw [if_pos hd, if_neg hw]
        rw [hlen] at hc
        simp at hc
    · have hlen : dashBreakLen (d :: rest) = 0 := by
        simp only [dashBreakLen]
        rw [if_neg hd]
      rw [hlen] at hc
      simp at hc

theorem slashAfter_chunk (u : List Char) (c : Char) (hc : c ∈ u.take (slashAfterLen u)) :
    c = '/' ∨ isPySpace c = true := by
  cases u with
  | nil => simp at hc
  | cons d rest =>
    by_cases hd : (d == '/') = true
    · by_cases hw : ((rest.take (wsRunLen rest)).contains '\n') = true
      · have hlen : slashAfterLen (d :: rest) = wsRunLen rest + 1 := by
          simp only [slashAfterLen]
          rw [if_pos hd, if_pos hw]
          omega
        rw [hlen, List.take_succ_cons] at hc
        rcases List.mem_cons.mp hc with h1 | h1
        · exact Or.inl (h1.trans (beq_iff_eq.mp hd))
        · exact Or.inr (wsRunLen_take_all_ws rest c h1)
      · have hlen : slashAfterLen (d :: rest) = 0 := by
          simp only [slashAfterLen]
          rw [if_pos hd, if_neg hw]
        rw [hlen] at hc
        simp at hc
    · have hlen : slashAfterLen (d :: rest) = 0 := by
        simp only [slashAfterLen]
        rw [if_neg hd]
      rw [hlen] at hc
      simp at hc

theorem slashBefore_chunk (u : List Char) (c : Char) (hc : c ∈ u.take (slashBeforeLen u)) :
    c = '/' ∨ isPySpace c = true := by
  by_cases hcond : ((u.take (wsRunLen u)).contains '\n' &&
      ((u.drop (wsRunLen u)).head? == some '/')) = true
  · have hlen : slashBeforeLen u = wsRunLen u + 1 := by
      simp only [slashBeforeLen]
      rw [if_pos hcond]
    rw [hlen, List.take_add] at hc
    rcases List.mem_append.mp hc with h1 | h1
    · exact Or.inr (wsRunLen_take_all_ws u c h1)
    · have h2 := (Bool.and_eq_true_iff.mp hcond).2
      cases hdrop : u.drop (wsRunLen u) with
      | nil =>
        rw [hdrop] at h2
        simp at h2
      | cons x tail =>
        rw [hdrop] at h1 h2
        simp only [List.head?] at h2
        have hx : x = '/' := by simpa using h2
        simp only [List.take] at h1
        rcases List.mem_singleton.mp (by simpa using h1) with h3
        exact Or.inl (h3.trans hx)
  · have hlen : slashBeforeLen u = 0 := by
      simp only [slashBeforeLen]
      rw [if_neg hcond]
    rw [hlen] at hc
    simp at hc

theorem slashAfterLen_slash (u : List Char) (h : slashAfterLen u ≠ 0) : '/' ∈ u := by
  cases u with
  | nil => exact absurd rfl h
  | cons d rest =>
    by_cases hd : (d == '/') = true
    · exact List.mem_cons.mpr (Or.inl (beq_iff_eq.mp hd).symm)
    · exfalso
      apply h
      simp only [slashAfterLen]
      rw [if_neg hd]

theorem slashBeforeLen_slash (u : List Char) (h : slashBeforeLen u ≠ 0) : '/' ∈ u := by
  by_cases hcond : ((u.take (wsRunLen u)).contains '\n' &&
      ((u.drop (wsRunLen u)).head? == some '/')) = true
  · have h2 := (Bool.and_eq_true_iff.mp hcond).2
    cases hdrop : u.drop (wsRunLen u) with
    | nil =>
      rw [hdrop] at h2
      simp at h2
    | cons x tail =>
      rw [hdrop] at h2
      simp only [List.head?] at h2
      have hx : x = '/' := by simpa using h2
      have hm : '/' ∈ u.drop (wsRunLen u) := by
        rw [hdrop]
        exact List.mem_cons.mpr (Or.inl hx.symm)
      exact (List.drop_suffix _ _).sublist.mem hm
  · exfalso
    apply h
    simp only [slashBeforeLen]
    rw [if_neg hcond]

theorem repair_keep_good (s : List Char) (c : Char) (hg : goodChar c = true) (h : c ∈ s) :
    c ∈ normalize_text_for_doi_extraction s := by
  have hspec := goodChar_spec c hg
  show c ∈ subScanF slashBeforeLen (fun _ => ['/'])
      (subScanF slashAfterLen (fun _ => ['/'])
        (subScanF dashBreakLen (fun _ => [])
          (s.map (fun x => if x == cFF then '\n' else x))))
  refine subScanF_keep _ _ c (fun u hu hcu => ?_)
      _ (subScanF_keep _ _ c (fun u hu hcu => ?_)
        _ (subScanF_keep _ _ c (fun u hu hcu => ?_) _ ?_))
  · rcases slashBefore_chunk u c hcu with h1 | h1
    · rw [h1]
      exact List.mem_singleton.mpr rfl
    · rw [hspec.1] at h1
      exact absurd h1 Bool.false_ne_true
  · rcases slashAfter_chunk u c hcu with h1 | h1
    · rw [h1]
      exact List.mem_singleton.mpr rfl
    · rw [hspec.1] at h1
      exact absurd h1 Bool.false_ne_true
  · exfalso
    rcases dashBreak_chunk u c hcu with h1 | h1
    · exact hspec.2.1 h1
    · rw [hspec.1] at h1
      exact absurd h1 Bool.false_ne_true
  · refine List.mem_map.mpr ⟨c, h, ?_⟩
    rw [if_neg ?_]
    intro hf
    have hce : c = cFF := by simpa using hf
    rw [hce] at hspec
    exact absurd hspec.1 (by decide)

theorem normalize_text_keep_good (s : List Char) (c : Char) (hg : goodChar c = true)
    (h : c ∈ s) : ∃ d, d ∈ normalize_text s ∧ goodChar d = true := by
  rcases nfkcScan_surv s.length s c hg h with ⟨d, hd, hdg⟩
  have hspec := goodChar_spec d hdg
  have hd2 : d ∈ (nfkcAux s).filter (fun x => x != cSHY) :=
    List.mem_filter.mpr ⟨hd, by simp [hspec.2.2]⟩
  have hdnr : d ∉ (['\r', '\n'] : List Char) := by
    intro hm
    rcases List.mem_cons.mp hm with h1 | h1
    · rw [h1] at hspec
      exact absurd hspec.1 (by decide)
    · rw [List.mem_singleton.mp h1] at hspec
      exact absurd hspec.1 (by decide)
  have hd3 := replaceAllLit_keep ['\r', '\n'] ['\n'] _ d hdnr hd2
  refine ⟨d, ?_, hdg⟩
  unfold normalize_text
  refine List.mem_map.mpr ⟨d, hd3, ?_⟩
  rw [if_neg ?_]
  intro hr
  have hde : d = '\r' := by simpa using hr
  rw [hde] at hspec
  exact absurd hspec.1 (by decide)

theorem normalize_text_rev_good (s : List Char) (e : Char) (he : e ∈ normalize_text s)
    (hg : goodChar e = true) : ∃ d ∈ s, goodChar d = true := by
  have hspec := goodChar_spec e hg
  unfold normalize_text at he
  rcases List.mem_map.mp he with ⟨e1, he1, hge⟩
  have he1e : e1 = e := by
    by_cases hr : (e1 == '\r') = true
    · rw [if_pos hr] at hge
      exfalso
      rw [← hge] at hspec
      exact absurd hspec.1 (by decide)
    · rw [if_neg hr] at hge
      exact hge
  rw [he1e] at he1
  rcases mem_replaceAllLit _ _ _ _ he1 with h2 | h2
  · exact nfkcAux_rev_good s e (List.mem_filter.mp h2).1 hg
  · exfalso
    rw [List.mem_singleton.mp h2] at hspec
    exact absurd hspec.1 (by decide)

theorem subScan_slash_rev (f : List Char → Nat) (hf : ∀ u, f u ≠ 0 → '/' ∈ u)
    (inner : List Char) (e : Char) (he : e ∈ subScanF f (fun _ => ['/']) inner)
    (hg : goodChar e = true) : ∃ d ∈ inner, goodChar d = true := by
  by_cases hin : ∀ c ∈ inner, goodChar c = false
  · have heq : subScanF f (fun _ => ['/']) inner = inner := by
      apply subScanF_eq_self
      intro u hu
      left
      by_cases hfu : f u = 0
      · exact hfu
      · exfalso
        have hmem := hin '/' (hu.sublist.mem (hf u hfu))
        exact absurd hmem (by decide)
    rw [heq] at he
    have := hin e he
    rw [hg] at this
    exact absurd this (by decide)
  · push_neg at hin
    rcases hin with ⟨d, hd, hdg⟩
    exact ⟨d, hd, by simpa using hdg⟩

theorem repair_rev_good (s : List Char) (e : Char)
    (he : e ∈ normalize_text_for_doi_extraction s) (hg : goodChar e = true) :
    ∃ d ∈ s, goodChar d = true := by
  replace he : e ∈ subScanF slashBeforeLen (fun _ => ['/'])
      (subScanF slashAfterLen (fun _ => ['/'])
        (subScanF dashBreakLen (fun _ => [])
          (s.map (fun x => if x == cFF then '\n' else x)))) := he
  rcases subScan_slash_rev slashBeforeLen slashBeforeLen_slash _ e he hg with ⟨d1, hd1, hg1⟩
  rcases subScan_slash_rev slashAfterLen slashAfterLen_slash _ d1 hd1 hg1 with ⟨d2, hd2, hg2⟩
  rcases mem_subScanF _ _ _ d2 hd2 with h3 | h3
  · rcases List.mem_map.mp h3 with ⟨d3, hd3, hgd⟩
    by_cases hff : (d3 == cFF) = true
    · rw [if_pos hff] at hgd
      exfalso
      have hsp := (goodChar_spec d2 hg2).1
      rw [← hgd] at hsp
      exact absurd hsp (by decide)
    · rw [if_neg hff] at hgd
      exact ⟨d3, hd3, hgd ▸ hg2⟩
  · rcases h3 with ⟨ch, hch⟩
    simp at hch

theorem lineRepaired_rev_good (ln : List Char) (e : Char) (he : e ∈ lineRepaired ln)
    (hg : goodChar e = true) : ∃ d ∈ ln, goodChar d = true := by
  unfold lineRepaired at he
  rcases normalize_text_rev_good _ e he hg with ⟨d1, hd1, hg1⟩
  exact repair_rev_good ln d1 hd1 hg1

theorem mem_intersperse (sep x : List Char) :
    ∀ ls : List (List Char), x ∈ ls → x ∈ ls.intersperse sep := by
  intro ls
  induction ls with
  | nil => intro h; simp at h
  | cons y rest ih =>
    intro h
    cases rest with
    | nil => simpa using h
    | cons z rest2 =>
      rw [List.intersperse_cons_cons]
      rcases List.mem_cons.mp h with h1 | h1
      · exact h1 ▸ List.mem_cons_self y _
      · exact List.mem_cons_of_mem y (List.mem_cons_of_mem sep (ih h1))

theorem mem_intercalate (sep : List Char) (ls : List (List Char)) (x : List Char)
    (hx : x ∈ ls) (c : Char) (hc : c ∈ x) : c ∈ List.intercalate sep ls := by
  show c ∈ (ls.intersperse sep).flatten
  exact List.mem_flatten.mpr ⟨x, mem_intersperse sep x ls hx, hc⟩

theorem enumFrom_getD {α : Type} (dflt : α) (l : List α) :
    ∀ n (p : Nat × α), p ∈ List.enumFrom n l →
      n ≤ p.1 ∧ p.1 - n < l.length ∧ l.getD (p.1 - n) dflt = p.2 := by
  induction l with
  | nil => intro n p h; simp at h
  | cons a l2 ih =>
    intro n p h
    rw [List.enumFrom] at h
    rcases List.mem_cons.mp h with h1 | h1
    · subst h1
      exact ⟨le_refl n, by simp, by simp⟩
    · rcases ih (n + 1) p h1 with ⟨ha, hb, hc⟩
      refine ⟨by omega, by simp; omega, ?_⟩
      have he : p.1 - n = (p.1 - (n + 1)) + 1 := by omega
      rw [he]
      simpa using hc

theorem window_mem (rl : List (List Char)) (i b a : Nat) (hi : i < rl.length) :
    rl.getD i [] ∈ (rl.drop (i - b)).take (min rl.length (i + a + 1) - (i - b)) := by
  have h1 : i - b ≤ i := Nat.sub_le i b
  have h2 : i < min rl.length (i + a + 1) := by omega
  have h3 : ((rl.drop (i - b)).take (min rl.length (i + a + 1) - (i - b)))[i - (i - b)]? =
      some (rl.getD i []) := by
    rw [List.getElem?_take, if_pos (by omega), List.getElem?_drop]
    have h4 : i - b + (i - (i - b)) = i := by omega
    rw [h4, List.getElem?_eq_getElem hi, List.getD_eq_getElem rl [] hi]
  rcases List.getElem?_eq_some.mp h3 with ⟨hb, heq⟩
  rw [← heq]
  exact List.getElem_mem hb

theorem block_nonempty (rl : List (List Char)) (i b a : Nat) (hi : i < rl.length)
    (hgood : ∃ d ∈ rl.getD i [], goodChar d = true) :
    build_reference_block_around_index rl i b a ≠ [] := by
  rcases hgood with ⟨d, hd, hdg⟩
  intro hempty
  replace hempty : stripWs (collapseWs (normalize_text (normalize_text_for_doi_extraction
      (List.intercalate [' ']
        ((rl.drop (i - b)).take (min rl.length (i + a + 1) - (i - b))))))) = [] := hempty
  have hblock := mem_intercalate [' '] _ _ (window_mem rl i b a hi) d hd
  have h1 := repair_keep_good _ d hdg hblock
  rcases normalize_text_keep_good _ d hdg h1 with ⟨e, he, heg⟩
  have hews := (goodChar_spec e heg).1
  have h2 := collapseWsAux_keep e hews _ false he
  have h3 := stripWs_keep e hews _ h2
  unfold collapseWs at hempty
  rw [hempty] at h3
  simp at h3

theorem toLowerC_ws (e : Char) (h : isPySpace e = true) : toLowerC e = e := by
  have hn := h
  simp only [isPySpace, Bool.or_eq_true, Bool.and_eq_true, beq_iff_eq, Nat.ble_eq] at hn
  unfold toLowerC
  have h1 : ¬(isAsciiUpper e = true) := by
    intro hA
    have hb := isAsciiUpper_bounds e hA
    omega
  have h2 : ¬(([0xC1, 0xC9, 0xCD, 0xD3, 0xDA, 0xD1] : List Nat).contains e.toNat = true) := by
    intro hB
    have hb : e.toNat = 0xC1 ∨ e.toNat = 0xC9 ∨ e.toNat = 0xCD ∨ e.toNat = 0xD3 ∨
        e.toNat = 0xDA ∨ e.toNat = 0xD1 := by simpa using hB
    omega
  rw [if_neg h1, if_neg h2]

theorem candidate_line_good (doi ln : List Char)
    (hcont : containsSub (doiNormKey doi) (lineNormKey ln) = true)
    (hgood : ∃ c ∈ doiNormKey doi, goodChar c = true) :
    ∃ d ∈ ln, goodChar d = true := by
  rcases hgood with ⟨c, hcdn, hcg⟩
  have hspec := goodChar_spec c hcg
  have h1 : c ∈ lineNormKey ln := containsSub_mem _ _ hcont c hcdn
  unfold lineNormKey at h1
  have h2 := (List.mem_filter.mp h1).1
  rcases List.mem_map.mp h2 with ⟨e, he, hle⟩
  have heg : goodChar e = true := by
    have hws : isPySpace e = false := by
      by_cases hw : isPySpace e = true
      · exfalso
        rw [toLowerC_ws e hw] at hle
        rw [← hle, hw] at hspec
        exact absurd hspec.1 (by decide)
      · exact Bool.eq_false_iff.mpr hw
    refine goodChar_of_parts e hws ?_ ?_
    · intro hde
      rw [hde] at hle
      exact hspec.2.1 hle.symm
    · intro hde
      rw [hde] at hle
      have hshy : toLowerC cSHY = cSHY := by decide
      rw [hshy] at hle
      exact hspec.2.2 hle.symm
  exact lineRepaired_rev_good ln e he heg

theorem foldl_pickStep_const (rl : List (List Char)) (cr : List Char) (b a : Nat) :
    ∀ (cands : List (Nat × List Char)) (best : List Char × Option (List Char) × ℚ),
      (∀ p ∈ cands, _is_plausible_title_for_selection (extract_bibliographic_title
          (build_reference_block_around_index rl p.1 b a)) = false) →
      cands.foldl (pickStep rl cr b a) best = best := by
  intro cands
  induction cands with
  | nil => intro best _; rfl
  | cons p rest ih =>
    intro best H
    rw [List.foldl_cons]
    have hp := H p (List.mem_cons_self p rest)
    have hstep : pickStep rl cr b a best p = best := by
      simp only [pickStep]
      rw [hp]
      simp
    rw [hstep]
    exact ih best (fun q hq => H q (List.mem_cons_of_mem p hq))

/-- Claim C5 (counterexample): the non-emptiness guarantee fails. For the DOI
`"-"` and the reference lines `["-", "\n"]`, the first line contains the DOI as
a whitespace-compacted case-insensitive substring (so a textual occurrence
exists and a candidate is found), yet the returned block is empty: the block
built around the occurrence is `"- \n"`, and the hyphen line-break repair
`-\s*\n\s*` deletes it entirely before the block is stripped. -/
theorem c5_counterexample :
    containsSub (doiNormKey ("-".data)) (lineNormKey ("-".data)) = true ∧
      doiNormKey ("-".data) ≠ [] ∧
      (pick_best_reference_block_for_doi ("-".data) [("-".data), ("\n".data)] [] 5 1).1 = [] := by
  decide

/-- Claim C5 (amended): whenever the candidate search succeeds (the candidate
list is non-empty) and the compacted DOI key contains at least one character
that is neither whitespace nor a hyphen nor a soft hyphen, the selected block
is non-empty; and whenever additionally every candidate's extracted title fails
the plausibility filter, the function returns exactly the block built around
the first textual occurrence, that block's extracted bibliographic title, and
selection score 0. Without the extra character condition the block can be
empty (the repair pass can erase a DOI key made only of hyphens). -/
theorem c5_pick_best (doi : List Char) (rl : List (List Char)) (cr : List Char) (b a : Nat)
    (c0 : Nat × List Char) (rest : List (Nat × List Char))
    (hc : find_reference_candidates_for_doi doi rl = c0 :: rest)
    (hgood : ∃ c ∈ doiNormKey doi, goodChar c = true) :
    (pick_best_reference_block_for_doi doi rl cr b a).1 ≠ [] ∧
      ((∀ p ∈ c0 :: rest,
          _is_plausible_title_for_selection (extract_bibliographic_title
            (build_reference_block_around_index rl p.1 b a)) = false) →
        pick_best_reference_block_for_doi doi rl cr b a =
          (build_reference_block_around_index rl c0.1 b a,
            extract_bibliographic_title (build_reference_block_around_index rl c0.1 b a), 0)) := by
  have hmem : c0 ∈ find_reference_candidates_for_doi doi rl := by
    rw [hc]
    exact List.mem_cons_self _ _
  replace hmem : c0 ∈ (if (doiNormKey doi).isEmpty then ([] : List (Nat × List Char))
      else rl.enum.filterMap (fun p =>
        if containsSub (doiNormKey doi) (lineNormKey p.2) then some (p.1, lineRepaired p.2)
        else none)) := hmem
  have hcand : ∃ p ∈ rl.enum, containsSub (doiNormKey doi) (lineNormKey p.2) = true ∧
      c0.1 = p.1 := by
    by_cases he : (doiNormKey doi).isEmpty = true
    · rw [if_pos he] at hmem
      simp at hmem
    · rw [if_neg he] at hmem
      rcases List.mem_filterMap.mp hmem with ⟨p, hp, hfp⟩
      by_cases hcp : containsSub (doiNormKey doi) (lineNormKey p.2) = true
      · rw [if_pos hcp] at hfp
        have h2 := congrArg Prod.fst (Option.some.inj hfp)
        simp only [Prod.fst] at h2
        exact ⟨p, hp, hcp, h2.symm⟩
      · rw [if_neg hcp] at hfp
        exact absurd hfp (by simp)
  rcases hcand with ⟨p, hp, hcp, hip⟩
  rcases enumFrom_getD [] rl 0 p hp with ⟨_, hplen, hpget⟩
  have hi0len : c0.1 < rl.length := by
    rw [hip]
    simpa using hplen
  have hgetline : rl.getD c0.1 [] = p.2 := by
    rw [hip]
    simpa using hpget
  have hlngood : ∃ d ∈ rl.getD c0.1 [], goodChar d = true := by
    rw [hgetline]
    exact candidate_line_good doi p.2 hcp hgood
  have hblock := block_nonempty rl c0.1 b a hi0len hlngood
  obtain ⟨B, hB⟩ : ∃ x, x = build_reference_block_around_index rl c0.1 b a := ⟨_, rfl⟩
  obtain ⟨F, hF⟩ : ∃ x, x = (c0 :: rest).foldl (pickStep rl (normalize_text cr) b a)
      ([], none, 0) := ⟨_, rfl⟩
  rw [← hB] at hblock
  have hpick : pick_best_reference_block_for_doi doi rl cr b a =
      (if F.1.isEmpty then (B, extract_bibliographic_title B, 0) else F) := by
    rw [hB, hF]
    unfold pick_best_reference_block_for_doi
    rw [hc]
  constructor
  · rw [hpick]
    by_cases hfold : F.1.isEmpty = true
    · rw [if_pos hfold]
      exact hblock
    · rw [if_neg hfold]
      intro heq
      apply hfold
      rw [heq]
      rfl
  · intro himpl
    have hF0 : F = ([], none, 0) := by
      rw [hF]
      exact foldl_pickStep_const rl (normalize_text cr) b a _ _ himpl
    rw [hpick, hF0, hB]
    rw [if_pos (by rfl)]

/-- Witness for C5: for the DOI `10.1/ab` and the single line
`"ref 10.1/ab"` the candidate list is `[(0, "ref 10.1/ab")]`, the DOI key has
a surviving character, and the selected block is non-empty. -/
theorem c5_witness :
    (find_reference_candidates_for_doi ("10.1/ab".data) [("ref 10.1/ab".data)] =
        [(0, ("ref 10.1/ab".data))] ∧
      ∃ c ∈ doiNormKey ("10.1/ab".data), goodChar c = true) ∧
      (pick_best_reference_block_for_doi ("10.1/ab".data) [("ref 10.1/ab".data)] [] 5 1).1 ≠
        [] :=
  ⟨⟨by decide, by decide⟩,
    (c5_pick_best ("10.1/ab".data) [("ref 10.1/ab".data)] [] 5 1 (0, ("ref 10.1/ab".data)) []
      (by decide) (by decide)).1⟩

theorem runLen_le (a b : List Char) (alo blo : Nat) :
    ∀ i j, runLen a b alo blo i j ≤ i + 1 - alo ∧ runLen a b alo blo i j ≤ j + 1 - blo := by
  intro i
  induction i with
  | zero =>
    intro j
    simp only [runLen]
    by_cases h1 : 0 < alo ∨ j < blo
    · rw [if_pos h1]
      omega
    · rw [if_neg h1]
      by_cases h2 : chMatch a b 0 j = true
      · rw [if_pos h2]
        omega
      · rw [if_neg h2]
        omega
  | succ i2 ih =>
    intro j
    cases j with
    | zero =>
      simp only [runLen]
      by_cases h1 : i2 + 1 < alo ∨ 0 < blo
      · rw [if_pos h1]
        omega
      · rw [if_neg h1]
        by_cases h2 : chMatch a b (i2 + 1) 0 = true
        · rw [if_pos h2]
          omega
        · rw [if_neg h2]
          omega
    | succ j2 =>
      simp only [runLen]
      by_cases h1 : i2 + 1 < alo ∨ j2 + 1 < blo
      · rw [if_pos h1]
        omega
      · rw [if_neg h1]
        by_cases h2 : chMatch a b (i2 + 1) (j2 + 1) = true
        · rw [if_pos h2]
          by_cases h3 : (i2 + 1 == alo || j2 + 1 == blo) = true
          · rw [if_pos h3]
            omega
          · rw [if_neg h3]
            have hih := ih j2
            omega
        · rw [if_neg h2]
          omega

theorem foldl_preserve {α β : Type} (P : α → Prop) (f : α → β → α) :
    ∀ (l : List β) (init : α), P init → (∀ acc x, x ∈ l → P acc → P (f acc x)) →
      P (l.foldl f init) := by
  intro l
  induction l with
  | nil => intro init h _; exact h
  | cons x rest ih =>
    intro init h hstep
    rw [List.foldl_cons]
    exact ih _ (hstep init x (List.mem_cons_self x rest) h)
      (fun acc y hy => hstep acc y (List.mem_cons_of_mem x hy))

theorem flm_inv (a b : List Char) (alo ahi blo bhi : Nat) (h1 : alo ≤ ahi) (h2 : blo ≤ bhi) :
    alo ≤ (findLongestMatch a b alo ahi blo bhi).1 ∧
      (findLongestMatch a b alo ahi blo bhi).1 + (findLongestMatch a b alo ahi blo bhi).2.2 ≤
        ahi ∧
      blo ≤ (findLongestMatch a b alo ahi blo bhi).2.1 ∧
      (findLongestMatch a b alo ahi blo bhi).2.1 + (findLongestMatch a b alo ahi blo bhi).2.2 ≤
        bhi := by
  unfold findLongestMatch
  apply foldl_preserve
      (fun best : Nat × Nat × Nat =>
        alo ≤ best.1 ∧ best.1 + best.2.2 ≤ ahi ∧ blo ≤ best.2.1 ∧ best.2.1 + best.2.2 ≤ bhi)
  · exact ⟨le_refl _, by simpa using h1, le_refl _, by simpa using h2⟩
  · intro acc di hdi hacc
    apply foldl_preserve
      (fun best : Nat × Nat × Nat =>
        alo ≤ best.1 ∧ best.1 + best.2.2 ≤ ahi ∧ blo ≤ best.2.1 ∧ best.2.1 + best.2.2 ≤ bhi)
    · exact hacc
    · intro best dj hdj hbest
      have hdi2 := List.mem_range.mp hdi
      have hdj2 := List.mem_range.mp hdj
      rcases runLen_le a b alo blo (alo + di) (blo + dj) with ⟨hr1, hr2⟩
      show (fun best : Nat × Nat × Nat =>
          alo ≤ best.1 ∧ best.1 + best.2.2 ≤ ahi ∧ blo ≤ best.2.1 ∧ best.2.1 + best.2.2 ≤ bhi)
        (if runLen a b alo blo (alo + di) (blo + dj) > best.2.2 then
          (alo + di + 1 - runLen a b alo blo (alo + di) (blo + dj),
           blo + dj + 1 - runLen a b alo blo (alo + di) (blo + dj),
           runLen a b alo blo (alo + di) (blo + dj))
         else best)
      by_cases hk : runLen a b alo blo (alo + di) (blo + dj) > best.2.2
      · rw [if_pos hk]
        refine ⟨?_, ?_, ?_, ?_⟩
        · show alo ≤ alo + di + 1 - runLen a b alo blo (alo + di) (blo + dj)
          omega
        · show alo + di + 1 - runLen a b alo blo (alo + di) (blo + dj) +
              runLen a b alo blo (alo + di) (blo + dj) ≤ ahi
          omega
        · show blo ≤ blo + dj + 1 - runLen a b alo blo (alo + di) (blo + dj)
          omega
        · show blo + dj + 1 - runLen a b alo blo (alo + di) (blo + dj) +
              runLen a b alo blo (alo + di) (blo + dj) ≤ bhi
          omega
      · rw [if_neg hk]
        exact hbest

theorem matchingTotal_le (a b : List Char) :
    ∀ fuel alo ahi blo bhi, alo ≤ ahi → blo ≤ bhi →
      matchingTotal a b fuel alo ahi blo bhi ≤ min (ahi - alo) (bhi - blo) := by
  intro fuel
  induction fuel with
  | zero =>
    intro alo ahi blo bhi _ _
    rw [matchingTotal]
    omega
  | succ fuel ih =>
    intro alo ahi blo bhi h1 h2
    have hinv := flm_inv a b alo ahi blo bhi h1 h2
    rw [matchingTotal]
    rcases hfr : findLongestMatch a b alo ahi blo bhi with ⟨i1, j1, k1⟩
    rw [hfr] at hinv
    dsimp only at hinv
    dsimp only
    by_cases hk0 : (k1 == 0) = true
    · rw [if_pos hk0]
      omega
    · rw [if_neg hk0]
      have t1 := ih alo i1 blo j1 hinv.1 hinv.2.2.1
      have t2 := ih (i1 + k1) ahi (j1 + k1) bhi hinv.2.1 hinv.2.2.2
      omega

theorem seqRatio_bounds (a b : List Char) : 0 ≤ seqRatio a b ∧ seqRatio a b ≤ 1 := by
  unfold seqRatio
  by_cases h0 : (a.length + b.length == 0) = true
  · rw [if_pos h0]
    norm_num
  · rw [if_neg h0]
    have hlen : 0 < a.length + b.length := by
      have hne : a.length + b.length ≠ 0 := by simpa using h0
      omega
    have hM := matchingTotal_le a b (a.length + b.length + 1) 0 a.length 0 b.length
      (Nat.zero_le _) (Nat.zero_le _)
    have hN : 2 * matchingTotal a b (a.length + b.length + 1) 0 a.length 0 b.length ≤
        a.length + b.length := by omega
    have hdpos : (0 : ℚ) < (a.length : ℚ) + (b.length : ℚ) := by
      have : (0 : ℚ) < ((a.length + b.length : Nat) : ℚ) := by exact_mod_cast hlen
      push_cast at this
      linarith
    constructor
    · apply div_nonneg _ (le_of_lt hdpos)
      positivity
    · rw [div_le_one hdpos]
      have hc : (2 : ℚ) * (matchingTotal a b (a.length + b.length + 1) 0 a.length 0 b.length : ℚ)
          ≤ ((a.length + b.length : Nat) : ℚ) := by exact_mod_cast hN
      push_cast at hc
      linarith

theorem jaccardTokens_bounds (a b : List Char) :
    0 ≤ jaccardTokens a b ∧ jaccardTokens a b ≤ 1 := by
  unfold jaccardTokens
  by_cases h0 : (splitPyWs a).toFinset ∪ (splitPyWs b).toFinset = ∅
  · rw [if_pos h0]
    norm_num
  · rw [if_neg h0]
    have hsub : ((splitPyWs a).toFinset ∩ (splitPyWs b).toFinset).card ≤
        ((splitPyWs a).toFinset ∪ (splitPyWs b).toFinset).card :=
      Finset.card_le_card Finset.inter_subset_union
    have hmax : ((splitPyWs a).toFinset ∩ (splitPyWs b).toFinset).card ≤
        max 1 ((splitPyWs a).toFinset ∪ (splitPyWs b).toFinset).card :=
      le_trans hsub (le_max_right _ _)
    have hdpos : (0 : ℚ) <
        ((max 1 ((splitPyWs a).toFinset ∪ (splitPyWs b).toFinset).card : Nat) : ℚ) := by
      have h1 : (1 : Nat) ≤ max 1 ((splitPyWs a).toFinset ∪ (splitPyWs b).toFinset).card :=
        le_max_left _ _
      exact_mod_cast Nat.lt_of_lt_of_le Nat.zero_lt_one h1
    constructor
    · apply div_nonneg _ (le_of_lt hdpos)
      positivity
    · rw [div_le_one hdpos]
      exact_mod_cast hmax

theorem roundHalfEven_bounds (q : ℚ) (h0 : 0 ≤ q) (h1 : q ≤ 10000) :
    0 ≤ roundHalfEven q ∧ roundHalfEven q ≤ 10000 := by
  unfold roundHalfEven
  have hf0 : 0 ≤ ⌊q⌋ := Int.floor_nonneg.mpr h0
  have hf1 : ⌊q⌋ ≤ 10000 := by
    have hm := Int.floor_mono h1
    have he : ⌊(10000 : ℚ)⌋ = 10000 := by norm_num
    omega
  have hfl := Int.floor_le q
  have hfu := Int.lt_floor_add_one q
  by_cases hr1 : q - (⌊q⌋ : ℚ) < 1 / 2
  · rw [if_pos hr1]
    omega
  · rw [if_neg hr1]
    have hsmall : ⌊q⌋ ≤ 9999 := by
      have hq2 : (⌊q⌋ : ℚ) + 1 / 2 ≤ q := by linarith
      have : (⌊q⌋ : ℚ) ≤ 9999.5 := by linarith
      have h9 : (⌊q⌋ : ℚ) < 10000 := by linarith
      exact_mod_cast Int.lt_add_one_iff.mp (by exact_mod_cast h9)
    by_cases hr2 : q - (⌊q⌋ : ℚ) > 1 / 2
    · rw [if_pos hr2]
      omega
    · rw [if_neg hr2]
      by_cases hpar : (⌊q⌋ % 2 == 0) = true
      · rw [if_pos hpar]
        omega
      · rw [if_neg hpar]
        omega

theorem round4_bounds (q : ℚ) (h0 : 0 ≤ q) (h1 : q ≤ 1) :
    0 ≤ round4 q ∧ round4 q ≤ 1 := by
  unfold round4
  have h := roundHalfEven_bounds (q * 10000) (by positivity) (by linarith)
  constructor
  · apply div_nonneg _ (by norm_num)
    exact_mod_cast h.1
  · rw [div_le_one (by norm_num)]
    exact_mod_cast h.2

theorem scoreBlend_bounds (s j : ℚ) (hs0 : 0 ≤ s) (hs1 : s ≤ 1) (_hj0 : 0 ≤ j) (hj1 : j ≤ 1) :
    0 ≤ scoreBlend s j ∧ scoreBlend s j ≤ 1 := by
  unfold scoreBlend
  constructor
  · exact le_trans hs0 (le_max_left _ _)
  · exact max_le hs1 (max_le hj1 (by linarith))

/-- Claim C3: `title_match_score` returns no value exactly when either title is
missing, empty, or normalizes to the empty string; otherwise it returns the
round-half-even 4-decimal rounding of `max(seq, jacc, (seq + jacc) / 2)` over
the normalized titles, where `seq` is the `difflib` sequence ratio and `jacc`
the Jaccard index of the whitespace-token sets; and every returned value lies
in `[0, 1]`. -/
theorem c3_title_match_score (bt ct : Option (List Char)) :
    (title_match_score bt ct = none ↔ (titleAbsent bt = true ∨ titleAbsent ct = true)) ∧
      (∀ b c, bt = some b → ct = some c → titleAbsent bt = false → titleAbsent ct = false →
        title_match_score bt ct =
          some (round4 (scoreBlend (seqRatio (normalize_title b) (normalize_title c))
            (jaccardTokens (normalize_title b) (normalize_title c))))) ∧
      (∀ q, title_match_score bt ct = some q → 0 ≤ q ∧ q ≤ 1) := by
  refine ⟨?_, ?_, ?_⟩
  · cases bt with
    | none => simp [title_match_score, titleAbsent]
    | some b =>
      cases ct with
      | none => simp [title_match_score, titleAbsent]
      | some c =>
        by_cases he1 : b.isEmpty = true <;> by_cases he2 : c.isEmpty = true <;>
          by_cases he3 : (normalize_title b).isEmpty = true <;>
          by_cases he4 : (normalize_title c).isEmpty = true <;>
          simp [title_match_score, titleAbsent, he1, he2, he3, he4]
  · intro b c hb hc hab hac
    subst hb
    subst hc
    have h1 : b.isEmpty = false ∧ (normalize_title b).isEmpty = false := by
      unfold titleAbsent at hab
      rcases Bool.or_eq_false_iff.mp hab with ⟨x, y⟩
      exact ⟨x, y⟩
    have h2 : c.isEmpty = false ∧ (normalize_title c).isEmpty = false := by
      unfold titleAbsent at hac
      rcases Bool.or_eq_false_iff.mp hac with ⟨x, y⟩
      exact ⟨x, y⟩
    simp [title_match_score, h1.1, h1.2, h2.1, h2.2]
  · intro q hq
    cases bt with
    | none => simp [title_match_score] at hq
    | some b =>
      cases ct with
      | none => simp [title_match_score] at hq
      | some c =>
        by_cases he1 : b.isEmpty = true <;> by_cases he2 : c.isEmpty = true <;>
          by_cases he3 : (normalize_title b).isEmpty = true <;>
          by_cases he4 : (normalize_title c).isEmpty = true <;>
          simp [title_match_score, he1, he2, he3, he4] at hq
        rcases seqRatio_bounds (normalize_title b) (normalize_title c) with ⟨hs0, hs1⟩
        rcases jaccardTokens_bounds (normalize_title b) (normalize_title c) with ⟨hj0, hj1⟩
        rcases scoreBlend_bounds _ _ hs0 hs1 hj0 hj1 with ⟨hb0, hb1⟩
        rcases round4_bounds _ hb0 hb1 with ⟨hr0, hr1⟩
        rw [← hq]
        exact ⟨hr0, hr1⟩

/-- Witness for C3: on an empty first title the score is absent. -/
theorem c3_witness :
    titleAbsent (some ([] : List Char)) = true ∧
      title_match_score (some []) (some ("x".data)) = none :=
  ⟨by decide,
    (c3_title_match_score (some []) (some ("x".data))).1.mpr (Or.inl (by decide))⟩

/-!  ### C8: the title extractors and URL / doi: substrings  -/

theorem hasUrlOcc_eq_hasOcc : ∀ u, hasUrlOcc u = hasOcc urlLenCS u
  | [] => rfl
  | c :: rest => by
    simp only [hasUrlOcc, hasOcc, hasUrlOcc_eq_hasOcc rest]

theorem hasDoiOcc_eq_hasOcc : ∀ u, hasDoiOcc u = hasOcc doiColonLen u
  | [] => rfl
  | c :: rest => by
    simp only [hasDoiOcc, hasOcc, hasDoiOcc_eq_hasOcc rest]

theorem subScanFAux_nil (f : List Char → Nat) (rep : List Char → List Char) :
    ∀ fuel, subScanFAux f rep fuel [] = [] := by
  intro fuel
  cases fuel <;> simp only [subScanFAux]

theorem suffix_cons_cases (v rest : List Char) (c : Char) (h : v <:+ c :: rest) :
    v = c :: rest ∨ v <:+ rest := by
  rcases h with ⟨w, hw⟩
  cases w with
  | nil => left; simpa using hw
  | cons a w2 =>
    right
    refine ⟨w2, ?_⟩
    have h2 : a :: (w2 ++ v) = c :: rest := by simpa using hw
    injection h2 with _ h3

theorem hasOcc_false_cons (g : List Char → Nat) (c : Char) (rest : List Char)
    (h : hasOcc g (c :: rest) = false) : g (c :: rest) = 0 ∧ hasOcc g rest = false := by
  rw [hasOcc] at h
  rcases Bool.or_eq_false_iff.mp h with ⟨h1, h2⟩
  refine ⟨?_, h2⟩
  simpa using h1

theorem hasOcc_suffix_zero (g : List Char → Nat) :
    ∀ u v, hasOcc g u = false → v <:+ u → v ≠ [] → g v = 0
  | [], v => by
    intro _ hv hne
    exact absurd (List.suffix_nil.mp hv) hne
  | c :: rest, v => by
    intro h hv hne
    rcases hasOcc_false_cons g c rest h with ⟨h1, h2⟩
    rcases suffix_cons_cases v rest c hv with h3 | h3
    · rw [h3]; exact h1
    · exact hasOcc_suffix_zero g rest v h2 h3 hne

theorem hasOcc_true_exists (g : List Char → Nat) :
    ∀ u, hasOcc g u = true → ∃ d t, (d :: t) <:+ u ∧ g (d :: t) ≠ 0
  | [], h => absurd h (by simp [hasOcc])
  | c :: rest, h => by
    rw [hasOcc] at h
    rcases Bool.or_eq_true_iff.mp h with h1 | h1
    · exact ⟨c, rest, List.suffix_refl _, by simpa using h1⟩
    · rcases hasOcc_true_exists g rest h1 with ⟨d, t, hs, hg⟩
      exact ⟨d, t, suffix_of_cons_suffix c _ rest hs, hg⟩

theorem hasOcc_suffix_true (g : List Char → Nat) :
    ∀ u v, v <:+ u → v ≠ [] → g v ≠ 0 → hasOcc g u = true
  | [], v => fun hv hne _ => absurd (List.suffix_nil.mp hv) hne
  | c :: rest, v => fun hv hne hg => by
    rw [hasOcc]
    rcases suffix_cons_cases v rest c hv with h3 | h3
    · subst h3
      exact Bool.or_eq_true_iff.mpr (Or.inl (by simpa using hg))
    · exact Bool.or_eq_true_iff.mpr (Or.inr (hasOcc_suffix_true g rest v h3 hne hg))

theorem dropWhile_head_not (p : Char → Bool) :
    ∀ (l : List Char) (c : Char), (l.dropWhile p).head? = some c → p c = false
  | [], c => by intro h; simp at h
  | a :: rest, c => by
    intro h
    rw [List.dropWhile_cons] at h
    by_cases hp : p a = true
    · rw [if_pos hp] at h
      exact dropWhile_head_not p rest c h
    · rw [if_neg hp] at h
      have h2 : a = c := by simpa using h
      rw [← h2]
      exact Bool.eq_false_iff.mpr hp

theorem drop_takeWhile_length (p : Char → Bool) (l : List Char) :
    l.drop (l.takeWhile p).length = l.dropWhile p := by
  calc l.drop (l.takeWhile p).length
      = (l.takeWhile p ++ l.dropWhile p).drop (l.takeWhile p).length := by
        rw [List.takeWhile_append_dropWhile]
    _ = l.dropWhile p := List.drop_left _ _

theorem takeWhile_pos_head (p : Char → Bool) (l : List Char)
    (h : 1 ≤ (l.takeWhile p).length) : ∃ a t, l = a :: t ∧ p a = true := by
  cases l with
  | nil => simp at h
  | cons a t =>
    by_cases hp : p a = true
    · exact ⟨a, t, rfl, hp⟩
    · rw [List.takeWhile_cons, if_neg hp] at h
      simp at h

theorem takeWhile_head_pos (p : Char → Bool) (a : Char) (t : List Char) (h : p a = true) :
    1 ≤ ((a :: t).takeWhile p).length := by
  rw [List.takeWhile_cons, if_pos h]
  simp

theorem leadsWith_of_take : ∀ (p s : List Char), s.take p.length = p → leadsWith p s = true
  | [], _ => fun _ => rfl
  | a :: ps, s => fun h => by
    cases s with
    | nil => simp at h
    | cons c cs =>
      rw [List.length_cons, List.take_succ_cons] at h
      injection h with h1 h2
      show (a == c && leadsWith ps cs) = true
      simp [h1, leadsWith_of_take ps cs h2]

theorem leadsWith_congr_take (p s1 s2 : List Char) (h : s1.take p.length = s2.take p.length) :
    leadsWith p s1 = leadsWith p s2 := by
  cases h1 : leadsWith p s1
  · cases h2 : leadsWith p s2
    · rfl
    · exact absurd (leadsWith_of_take p s1 (h.trans (leadsWith_take p s2 h2))) (by simp [h1])
  · exact (leadsWith_of_take p s2 (h.symm.trans (leadsWith_take p s1 h1))).symm

theorem wsRunLen_le_length : ∀ l : List Char, wsRunLen l ≤ l.length
  | [] => Nat.le_refl 0
  | c :: rest => by
    by_cases h : isPySpace c = true
    · rw [wsRunLen_cons_pos c rest h, List.length_cons]
      exact Nat.succ_le_succ (wsRunLen_le_length rest)
    · rw [wsRunLen_cons_zero c rest (by simpa using h)]
      exact Nat.zero_le _

theorem wsRunLen_append_of_lt : ∀ (x y : List Char), wsRunLen x < x.length →
    wsRunLen (x ++ y) = wsRunLen x
  | [], _ => by intro h; simp at h
  | c :: t, y => by
    intro h
    by_cases hc : isPySpace c = true
    · rw [wsRunLen_cons_pos c t hc, List.length_cons] at h
      rw [List.cons_append, wsRunLen_cons_pos c (t ++ y) hc, wsRunLen_cons_pos c t hc,
        wsRunLen_append_of_lt t y (Nat.lt_of_succ_lt_succ h)]
    · rw [List.cons_append, wsRunLen_cons_zero c (t ++ y) (by simpa using hc),
        wsRunLen_cons_zero c t (by simpa using hc)]

theorem wsRunLen_append_full : ∀ (x y : List Char), wsRunLen x = x.length →
    wsRunLen (x ++ y) = x.length + wsRunLen y
  | [], y => by intro _; simp
  | c :: t, y => by
    intro h
    by_cases hc : isPySpace c = true
    · rw [wsRunLen_cons_pos c t hc, List.length_cons] at h
      rw [List.cons_append, wsRunLen_cons_pos c (t ++ y) hc,
        wsRunLen_append_full t y (Nat.succ_injective h), List.length_cons]
      omega
    · rw [wsRunLen_cons_zero c t (by simpa using hc), List.length_cons] at h
      omega

theorem urlLenCS_cases (v : List Char) (h : urlLenCS v ≠ 0) :
    (leadsWith ("https://".data) v = true ∧
      1 ≤ ((v.drop 8).takeWhile (fun c => !isPySpace c)).length ∧
      urlLenCS v = 8 + ((v.drop 8).takeWhile (fun c => !isPySpace c)).length) ∨
    (leadsWith ("https://".data) v = false ∧ leadsWith ("http://".data) v = true ∧
      1 ≤ ((v.drop 7).takeWhile (fun c => !isPySpace c)).length ∧
      urlLenCS v = 7 + ((v.drop 7).takeWhile (fun c => !isPySpace c)).length) := by
  by_cases h8 : leadsWith ("https://".data) v = true
  · left
    by_cases hk : 1 ≤ ((v.drop 8).takeWhile (fun c => !isPySpace c)).length
    · exact ⟨h8, hk, by unfold urlLenCS; rw [if_pos h8]; exact if_pos hk⟩
    · exfalso
      apply h
      unfold urlLenCS
      rw [if_pos h8]
      exact if_neg hk
  · by_cases h7 : leadsWith ("http://".data) v = true
    · right
      by_cases hk : 1 ≤ ((v.drop 7).takeWhile (fun c => !isPySpace c)).length
      · refine ⟨by simpa using h8, h7, hk, ?_⟩
        unfold urlLenCS
        rw [if_neg h8, if_pos h7]
        exact if_pos hk
      · exfalso
        apply h
        unfold urlLenCS
        rw [if_neg h8, if_pos h7]
        exact if_neg hk
    · exfalso
      apply h
      unfold urlLenCS
      rw [if_neg h8, if_neg h7]

theorem urlLenCS_pos8 (v : List Char) (h : leadsWith ("https://".data) v = true)
    (hk : 1 ≤ ((v.drop 8).takeWhile (fun c => !isPySpace c)).length) : urlLenCS v ≠ 0 := by
  have he : urlLenCS v = 8 + ((v.drop 8).takeWhile (fun c => !isPySpace c)).length := by
    unfold urlLenCS
    rw [if_pos h]
    exact if_pos hk
  rw [he]
  omega

theorem urlLenCS_pos7 (v : List Char) (h8 : leadsWith ("https://".data) v = false)
    (h : leadsWith ("http://".data) v = true)
    (hk : 1 ≤ ((v.drop 7).takeWhile (fun c => !isPySpace c)).length) : urlLenCS v ≠ 0 := by
  have he : urlLenCS v = 7 + ((v.drop 7).takeWhile (fun c => !isPySpace c)).length := by
    unfold urlLenCS
    rw [if_neg (by simp [h8]), if_pos h]
    exact if_pos hk
  rw [he]
  omega

theorem doiColonLen_cases (v : List Char) (h : doiColonLen v ≠ 0) :
    lowerStr (v.take 4) = "doi:".data ∧
      1 ≤ ((v.drop (4 + wsRunLen (v.drop 4))).takeWhile (fun c => !isPySpace c)).length ∧
      doiColonLen v = 4 + wsRunLen (v.drop 4) +
        ((v.drop (4 + wsRunLen (v.drop 4))).takeWhile (fun c => !isPySpace c)).length := by
  by_cases h4 : (lowerStr (v.take 4) == ("doi:".data)) = true
  · by_cases hk : 1 ≤ ((v.drop (4 + wsRunLen (v.drop 4))).takeWhile (fun c => !isPySpace c)).length
    · refine ⟨by simpa using h4, hk, ?_⟩
      unfold doiColonLen
      rw [if_pos h4]
      exact if_pos hk
    · exfalso
      apply h
      unfold doiColonLen
      rw [if_pos h4]
      exact if_neg hk
  · exfalso
    apply h
    unfold doiColonLen
    exact if_neg h4

theorem doiColonLen_pos (v : List Char) (h4 : lowerStr (v.take 4) = "doi:".data)
    (hk : 1 ≤ ((v.drop (4 + wsRunLen (v.drop 4))).takeWhile (fun c => !isPySpace c)).length) :
    doiColonLen v ≠ 0 := by
  have he : doiColonLen v = 4 + wsRunLen (v.drop 4) +
      ((v.drop (4 + wsRunLen (v.drop 4))).takeWhile (fun c => !isPySpace c)).length := by
    unfold doiColonLen
    rw [if_pos (by simp [h4])]
    exact if_pos hk
  rw [he]
  omega

theorem head_nonws_of_scheme (v sch : List Char) (hlw : leadsWith sch v = true)
    (hne : sch ≠ []) (hns : ∀ c ∈ sch, isPySpace c = false) :
    ∃ e w, v = e :: w ∧ isPySpace e = false := by
  cases v with
  | nil =>
    cases sch with
    | nil => exact absurd rfl hne
    | cons a t => simp [leadsWith] at hlw
  | cons e w =>
    refine ⟨e, w, rfl, ?_⟩
    cases sch with
    | nil => exact absurd rfl hne
    | cons a t =>
      have hsplit : (a == e && leadsWith t w) = true := hlw
      rcases Bool.and_eq_true_iff.mp hsplit with ⟨h1, _⟩
      have he : a = e := beq_iff_eq.mp h1
      exact he ▸ hns a (List.mem_cons_self a t)

theorem urlLenCS_head (v : List Char) (h : urlLenCS v ≠ 0) :
    ∃ e w, v = e :: w ∧ isPySpace e = false := by
  rcases urlLenCS_cases v h with ⟨h8, _, _⟩ | ⟨_, h7, _, _⟩
  · exact head_nonws_of_scheme v _ h8 (by decide) (by decide)
  · exact head_nonws_of_scheme v _ h7 (by decide) (by decide)

theorem doiColonLen_head (v : List Char) (h : doiColonLen v ≠ 0) :
    ∃ e w, v = e :: w ∧ isPySpace e = false := by
  rcases doiColonLen_cases v h with ⟨h4, _, _⟩
  cases v with
  | nil => simp [lowerStr] at h4
  | cons e w =>
    refine ⟨e, w, rfl, ?_⟩
    have h0 : toLowerC e = 'd' := by
      have hg := congrArg (fun l => l[0]?) h4
      simpa [lowerStr, List.getElem?_take] using hg
    by_cases hws : isPySpace e = true
    · exfalso
      rw [toLowerC_ws e hws] at h0
      rw [h0] at hws
      exact absurd hws (by decide)
    · simpa using hws

theorem urlLenCS_end_ws (v : List Char) (c : Char) (h : urlLenCS v ≠ 0)
    (hc : (v.drop (urlLenCS v)).head? = some c) : isPySpace c = true := by
  rcases urlLenCS_cases v h with ⟨_, _, he⟩ | ⟨_, _, _, he⟩ <;>
  · rw [he, ← List.drop_drop, drop_takeWhile_length] at hc
    have := dropWhile_head_not _ _ c hc
    simpa using this

theorem doiColonLen_end_ws (v : List Char) (c : Char) (h : doiColonLen v ≠ 0)
    (hc : (v.drop (doiColonLen v)).head? = some c) : isPySpace c = true := by
  rcases doiColonLen_cases v h with ⟨_, _, he⟩
  rw [he, ← List.drop_drop, drop_takeWhile_length] at hc
  have := dropWhile_head_not _ _ c hc
  simpa using this

theorem urlLenCS_mono (v x : List Char) (h : urlLenCS v ≠ 0) : urlLenCS (v ++ x) ≠ 0 := by
  rcases urlLenCS_cases v h with ⟨h8, hk, _⟩ | ⟨h8, h7, hk, _⟩
  · rcases takeWhile_pos_head _ _ hk with ⟨a, t, hat, ha⟩
    have hlen8 : 8 ≤ v.length := by
      by_contra hl
      push_neg at hl
      rw [List.drop_eq_nil_of_le (Nat.le_of_lt hl), List.takeWhile_nil] at hk
      simp at hk
    have h8' : leadsWith ("https://".data) (v ++ x) = true := by
      apply leadsWith_of_take
      have hvt : v.take 8 = "https://".data := leadsWith_take _ v h8
      have hgoal : (v ++ x).take 8 = "https://".data := by
        rw [List.take_append_of_le_length hlen8]
        exact hvt
      exact hgoal
    have hd : (v ++ x).drop 8 = a :: (t ++ x) := by
      rw [List.drop_append_of_le_length hlen8, hat]
      rfl
    exact urlLenCS_pos8 (v ++ x) h8' (by rw [hd]; exact takeWhile_head_pos _ a (t ++ x) ha)
  · rcases takeWhile_pos_head _ _ hk with ⟨a, t, hat, ha⟩
    have hlen7 : 7 ≤ v.length := by
      by_contra hl
      push_neg at hl
      rw [List.drop_eq_nil_of_le (Nat.le_of_lt hl), List.takeWhile_nil] at hk
      simp at hk
    have hlen8 : 8 ≤ v.length := by
      have hne : v.drop 7 ≠ [] := by rw [hat]; simp
      by_contra hl
      push_neg at hl
      have h77 : v.length ≤ 7 := by omega
      rw [List.drop_eq_nil_of_le h77] at hne
      exact hne rfl
    have h8' : leadsWith ("https://".data) (v ++ x) = false := by
      have hcongr : leadsWith ("https://".data) (v ++ x) = leadsWith ("https://".data) v :=
        leadsWith_congr_take _ _ _ (List.take_append_of_le_length hlen8)
      rw [hcongr]
      exact h8
    have h7' : leadsWith ("http://".data) (v ++ x) = true := by
      have hcongr : leadsWith ("http://".data) (v ++ x) = leadsWith ("http://".data) v :=
        leadsWith_congr_take _ _ _ (List.take_append_of_le_length hlen7)
      rw [hcongr]
      exact h7
    have hd : (v ++ x).drop 7 = a :: (t ++ x) := by
      rw [List.drop_append_of_le_length hlen7, hat]
      rfl
    exact urlLenCS_pos7 (v ++ x) h8' h7'
      (by rw [hd]; exact takeWhile_head_pos _ a (t ++ x) ha)

theorem doiColonLen_mono (v x : List Char) (h : doiColonLen v ≠ 0) :
    doiColonLen (v ++ x) ≠ 0 := by
  rcases doiColonLen_cases v h with ⟨h4, hk, _⟩
  rcases takeWhile_pos_head _ _ hk with ⟨a, t, hat, ha⟩
  have hlt : 4 + wsRunLen (v.drop 4) < v.length := by
    by_contra hl
    push_neg at hl
    rw [List.drop_eq_nil_of_le hl] at hat
    simp at hat
  have h44 : 4 ≤ v.length := by omega
  have hq : (v ++ x).drop 4 = v.drop 4 ++ x := List.drop_append_of_le_length h44
  have hwlt : wsRunLen (v.drop 4) < (v.drop 4).length := by
    rw [List.length_drop]
    omega
  have hw' : wsRunLen ((v ++ x).drop 4) = wsRunLen (v.drop 4) := by
    rw [hq]
    exact wsRunLen_append_of_lt _ x hwlt
  apply doiColonLen_pos
  · rw [List.take_append_of_le_length h44]
    exact h4
  · rw [← List.drop_drop] at hat
    rw [hw', ← List.drop_drop, hq,
      List.drop_append_of_le_length (Nat.le_of_lt hwlt), hat]
    exact takeWhile_head_pos _ a (t ++ x) ha

theorem scheme_witness_len (p T : List Char) (n : Nat) (sch : List Char)
    (hn : sch.length = n)
    (hns : ∀ c ∈ sch, isPySpace c = false)
    (hlw : leadsWith sch (p ++ T) = true)
    (hk : 1 ≤ (((p ++ T).drop n).takeWhile (fun c => !isPySpace c)).length)
    (hT : headWsNil T) :
    n + 1 ≤ p.length := by
  by_contra hl
  push_neg at hl
  have hpn : p.length ≤ n := by omega
  rcases hT with hTn | ⟨d, t, hTd, hdws⟩
  · subst hTn
    rw [List.append_nil] at hk
    rw [List.drop_eq_nil_of_le hpn, List.takeWhile_nil] at hk
    simp at hk
  · subst hTd
    by_cases hpe : p.length = n
    · have hdp : (p ++ d :: t).drop n = d :: t := by
        rw [← hpe]
        exact List.drop_left p _
      rw [hdp] at hk
      rcases takeWhile_pos_head _ _ hk with ⟨a, t2, hat, ha⟩
      injection hat with h1 _
      rw [← h1] at ha
      simp [hdws] at ha
    · have hplt : p.length < n := by omega
      have htake := leadsWith_take sch (p ++ d :: t) hlw
      have hgp := congrArg (fun l => l[p.length]?) htake
      simp only at hgp
      rw [hn, List.getElem?_take, if_pos hplt,
        List.getElem?_append_right (Nat.le_refl p.length), Nat.sub_self] at hgp
      simp only [List.getElem?_cons_zero] at hgp
      have hmem : d ∈ sch := List.getElem?_mem hgp.symm
      have hall := hns d hmem
      rw [hall] at hdws
      exact Bool.false_ne_true hdws

theorem urlLenCS_ext (p T : List Char) (e : Char) (w2 : List Char)
    (hg : urlLenCS (p ++ T) ≠ 0) (hT : headWsNil T) (_he : isPySpace e = false) :
    urlLenCS (p ++ e :: w2) ≠ 0 := by
  rcases urlLenCS_cases (p ++ T) hg with ⟨h8, hk, _⟩ | ⟨h8, h7, hk, _⟩
  · have hp9 : 8 + 1 ≤ p.length :=
      scheme_witness_len p T 8 ("https://".data) rfl (by decide) h8 hk hT
    have hp8 : 8 ≤ p.length := by omega
    have htk : (p ++ e :: w2).take 8 = (p ++ T).take 8 := by
      rw [List.take_append_of_le_length hp8, List.take_append_of_le_length hp8]
    have h8' : leadsWith ("https://".data) (p ++ e :: w2) = true := by
      have hcongr : leadsWith ("https://".data) (p ++ e :: w2) =
          leadsWith ("https://".data) (p ++ T) :=
        leadsWith_congr_take _ _ _ htk
      rw [hcongr]
      exact h8
    have hdpne : p.drop 8 ≠ [] := by
      intro h0
      have hlen := congrArg List.length h0
      rw [List.length_drop] at hlen
      simp at hlen
      omega
    rcases List.exists_cons_of_ne_nil hdpne with ⟨a, t2, hat⟩
    have hdT : (p ++ T).drop 8 = a :: (t2 ++ T) := by
      rw [List.drop_append_of_le_length hp8, hat]
      rfl
    have hdE : (p ++ e :: w2).drop 8 = a :: (t2 ++ e :: w2) := by
      rw [List.drop_append_of_le_length hp8, hat]
      rfl
    have ha : (!isPySpace a) = true := by
      rw [hdT] at hk
      rcases takeWhile_pos_head _ _ hk with ⟨a2, t3, ha2, ha3⟩
      injection ha2 with h1 _
      rw [h1]
      exact ha3
    exact urlLenCS_pos8 _ h8' (by rw [hdE]; exact takeWhile_head_pos _ a _ ha)
  · have hp8 : 7 + 1 ≤ p.length :=
      scheme_witness_len p T 7 ("http://".data) rfl (by decide) h7 hk hT
    have hp8' : 8 ≤ p.length := by omega
    have hp7 : 7 ≤ p.length := by omega
    have htk8 : (p ++ e :: w2).take 8 = (p ++ T).take 8 := by
      rw [List.take_append_of_le_length hp8', List.take_append_of_le_length hp8']
    have htk7 : (p ++ e :: w2).take 7 = (p ++ T).take 7 := by
      rw [List.take_append_of_le_length hp7, List.take_append_of_le_length hp7]
    have h8' : leadsWith ("https://".data) (p ++ e :: w2) = false := by
      have hcongr : leadsWith ("https://".data) (p ++ e :: w2) =
          leadsWith ("https://".data) (p ++ T) :=
        leadsWith_congr_take _ _ _ htk8
      rw [hcongr]
      exact h8
    have h7' : leadsWith ("http://".data) (p ++ e :: w2) = true := by
      have hcongr : leadsWith ("http://".data) (p ++ e :: w2) =
          leadsWith ("http://".data) (p ++ T) :=
        leadsWith_congr_take _ _ _ htk7
      rw [hcongr]
      exact h7
    have hdpne : p.drop 7 ≠ [] := by
      intro h0
      have hlen := congrArg List.length h0
      rw [List.length_drop] at hlen
      simp at hlen
      omega
    rcases List.exists_cons_of_ne_nil hdpne with ⟨a, t2, hat⟩
    have hdT : (p ++ T).drop 7 = a :: (t2 ++ T) := by
      rw [List.drop_append_of_le_length hp7, hat]
      rfl
    have hdE : (p ++ e :: w2).drop 7 = a :: (t2 ++ e :: w2) := by
      rw [List.drop_append_of_le_length hp7, hat]
      rfl
    have ha : (!isPySpace a) = true := by
      rw [hdT] at hk
      rcases takeWhile_pos_head _ _ hk with ⟨a2, t3, ha2, ha3⟩
      injection ha2 with h1 _
      rw [h1]
      exact ha3
    exact urlLenCS_pos7 _ h8' h7' (by rw [hdE]; exact takeWhile_head_pos _ a _ ha)

theorem doiColonLen_ext (p T : List Char) (e : Char) (w2 : List Char)
    (hg : doiColonLen (p ++ T) ≠ 0) (hT : headWsNil T) (he : isPySpace e = false) :
    doiColonLen (p ++ e :: w2) ≠ 0 := by
  rcases doiColonLen_cases (p ++ T) hg with ⟨h4, hk, _⟩
  have hp4 : 4 ≤ p.length := by
    by_contra hl
    push_neg at hl
    rcases hT with hTn | ⟨d, t, hTd, hdws⟩
    · subst hTn
      rw [List.append_nil] at h4
      have hlen := congrArg List.length h4
      rw [lowerStr, List.length_map, List.length_take] at hlen
      have : ("doi:".data).length = 4 := rfl
      rw [this] at hlen
      omega
    · subst hTd
      have hgp := congrArg (fun l => l[p.length]?) h4
      simp only at hgp
      rw [lowerStr, List.getElem?_map, List.getElem?_take, if_pos hl,
        List.getElem?_append_right (Nat.le_refl p.length), Nat.sub_self] at hgp
      simp only [List.getElem?_cons_zero, Option.map_some'] at hgp
      have hgp2 : ("doi:".data)[p.length]? = some d := by
        rw [← toLowerC_ws d hdws]
        exact hgp.symm
      have hmem : d ∈ ("doi:".data) := List.getElem?_mem hgp2
      have hall : ∀ c ∈ ("doi:".data), isPySpace c = false := by decide
      rw [hall d hmem] at hdws
      exact Bool.false_ne_true hdws
  have hq4 : (p ++ T).drop 4 = p.drop 4 ++ T := List.drop_append_of_le_length hp4
  have hq4e : (p ++ e :: w2).drop 4 = p.drop 4 ++ e :: w2 := List.drop_append_of_le_length hp4
  have h4' : lowerStr ((p ++ e :: w2).take 4) = "doi:".data := by
    rw [List.take_append_of_le_length hp4]
    rw [List.take_append_of_le_length hp4] at h4
    exact h4
  by_cases hfull : wsRunLen (p.drop 4) = (p.drop 4).length
  · have hwnew : wsRunLen ((p ++ e :: w2).drop 4) = p.length - 4 := by
      rw [hq4e, wsRunLen_append_full _ _ hfull, List.length_drop,
        wsRunLen_cons_zero e w2 he]
      omega
    apply doiColonLen_pos _ h4'
    rw [hwnew]
    have h44 : 4 + (p.length - 4) = p.length := by omega
    rw [h44, List.drop_left]
    exact takeWhile_head_pos _ e w2 (by simp [he])
  · have hlt2 : wsRunLen (p.drop 4) < (p.drop 4).length :=
      Nat.lt_of_le_of_ne (wsRunLen_le_length _) hfull
    have hwT : wsRunLen ((p ++ T).drop 4) = wsRunLen (p.drop 4) := by
      rw [hq4]
      exact wsRunLen_append_of_lt _ T hlt2
    have hwE : wsRunLen ((p ++ e :: w2).drop 4) = wsRunLen (p.drop 4) := by
      rw [hq4e]
      exact wsRunLen_append_of_lt _ _ hlt2
    have hdw : (p.drop 4).drop (wsRunLen (p.drop 4)) ≠ [] := by
      intro h0
      have hlen := congrArg List.length h0
      simp only [List.length_drop, List.length_nil] at hlen
      have hlt3 := hlt2
      simp only [List.length_drop] at hlt3
      omega
    rcases List.exists_cons_of_ne_nil hdw with ⟨a, t2, hat⟩
    have hdrT : (p ++ T).drop (4 + wsRunLen ((p ++ T).drop 4)) = a :: (t2 ++ T) := by
      rw [hwT, ← List.drop_drop, hq4,
        List.drop_append_of_le_length (Nat.le_of_lt hlt2), hat]
      rfl
    have hdrE : (p ++ e :: w2).drop (4 + wsRunLen ((p ++ e :: w2).drop 4))
        = a :: (t2 ++ e :: w2) := by
      rw [hwE, ← List.drop_drop, hq4e,
        List.drop_append_of_le_length (Nat.le_of_lt hlt2), hat]
      rfl
    have ha : (!isPySpace a) = true := by
      rw [hdrT] at hk
      rcases takeWhile_pos_head _ _ hk with ⟨a2, t3, ha2, ha3⟩
      injection ha2 with h1 _
      rw [h1]
      exact ha3
    apply doiColonLen_pos _ h4'
    rw [hdrE]
    exact takeWhile_head_pos _ a _ ha

theorem subScanFAux_decomp (f : List Char → Nat)
    (hfh : ∀ v, f v ≠ 0 → ∃ e w, v = e :: w ∧ isPySpace e = false)
    (hfe : ∀ v c, f v ≠ 0 → (v.drop (f v)).head? = some c → isPySpace c = true) :
    ∀ fuel u, u.length ≤ fuel →
      subScanFAux f (fun _ => []) fuel u = u ∨
      ∃ k T, subScanFAux f (fun _ => []) fuel u = u.take k ++ T ∧
        f (u.drop k) ≠ 0 ∧ headWsNil T := by
  intro fuel
  induction fuel with
  | zero =>
    intro u _
    left
    simp only [subScanFAux]
  | succ fuel ih =>
    intro u hu
    cases u with
    | nil =>
      left
      simp only [subScanFAux]
    | cons c rest =>
      have hrest : rest.length ≤ fuel := by
        rw [List.length_cons] at hu
        omega
      by_cases hm : (f (c :: rest) == 0) = true
      · have hstep : subScanFAux f (fun _ => []) (fuel + 1) (c :: rest)
            = c :: subScanFAux f (fun _ => []) fuel rest := by
          simp only [subScanFAux]
          rw [if_pos hm]
        rcases ih rest hrest with heq | ⟨k, T, hT, hfk, hws⟩
        · left
          rw [hstep, heq]
        · right
          refine ⟨k + 1, T, ?_, ?_, hws⟩
          · rw [hstep, hT, List.take_succ_cons]
            rfl
          · simpa using hfk
      · have hn : f (c :: rest) ≠ 0 := by
          intro h0
          apply hm
          rw [h0]
          rfl
        have hstep : subScanFAux f (fun _ => []) (fuel + 1) (c :: rest)
            = subScanFAux f (fun _ => []) fuel (rest.drop (f (c :: rest) - 1)) := by
          simp only [subScanFAux]
          rw [if_neg hm]
          rfl
        right
        refine ⟨0, subScanFAux f (fun _ => []) fuel (rest.drop (f (c :: rest) - 1)),
          by rw [hstep]; rfl, by simpa using hn, ?_⟩
        have hdropeq : rest.drop (f (c :: rest) - 1) = (c :: rest).drop (f (c :: rest)) := by
          cases hf : f (c :: rest) with
          | zero => exact absurd hf hn
          | succ m => simp
        rcases hrem : rest.drop (f (c :: rest) - 1) with _ | ⟨d, t⟩
        · rw [subScanFAux_nil]
          exact Or.inl rfl
        · have hd : isPySpace d = true := by
            apply hfe (c :: rest) d hn
            rw [← hdropeq, hrem]
            rfl
          have hfd : f (d :: t) = 0 := by
            by_contra hfd
            rcases hfh (d :: t) hfd with ⟨e2, w2, he2, hw2⟩
            injection he2 with h1 _
            rw [h1] at hd
            rw [hw2] at hd
            exact Bool.false_ne_true hd
          have hlen : t.length + 1 ≤ fuel := by
            have h1 : (rest.drop (f (c :: rest) - 1)).length ≤ rest.length := by
              rw [List.length_drop]
              omega
            rw [hrem, List.length_cons] at h1
            omega
          cases fuel with
          | zero => omega
          | succ fuel2 =>
            have hstep2 : subScanFAux f (fun _ => []) (fuel2 + 1) (d :: t)
                = d :: subScanFAux f (fun _ => []) fuel2 t := by
              simp only [subScanFAux]
              rw [if_pos (by rw [hfd]; rfl)]
            rw [hstep2]
            exact Or.inr ⟨d, _, rfl, hd⟩

theorem subScanF_no_occ_aux (f g : List Char → Nat)
    (hfh : ∀ v, f v ≠ 0 → ∃ e w, v = e :: w ∧ isPySpace e = false)
    (hfe : ∀ v c, f v ≠ 0 → (v.drop (f v)).head? = some c → isPySpace c = true)
    (hgext : ∀ p T e w2, g (p ++ T) ≠ 0 → headWsNil T → isPySpace e = false →
      g (p ++ e :: w2) ≠ 0) :
    ∀ fuel u, u.length ≤ fuel →
      (∀ v, v <:+ u → g v ≠ 0 → f v ≠ 0) →
      hasOcc g (subScanFAux f (fun _ => []) fuel u) = false := by
  intro fuel
  induction fuel with
  | zero =>
    intro u hu _
    have hnil : u = [] := List.eq_nil_of_length_eq_zero (Nat.le_zero.mp hu)
    subst hnil
    simp only [subScanFAux]
    rfl
  | succ fuel ih =>
    intro u hu hsuf
    cases u with
    | nil =>
      simp only [subScanFAux]
      rfl
    | cons c rest =>
      have hrest : rest.length ≤ fuel := by
        rw [List.length_cons] at hu
        omega
      by_cases hm : (f (c :: rest) == 0) = true
      · have hm0 : f (c :: rest) = 0 := by simpa using hm
        have hstep : subScanFAux f (fun _ => []) (fuel + 1) (c :: rest)
            = c :: subScanFAux f (fun _ => []) fuel rest := by
          simp only [subScanFAux]
          rw [if_pos hm]
        rw [hstep, hasOcc]
        have htail : hasOcc g (subScanFAux f (fun _ => []) fuel rest) = false :=
          ih rest hrest (fun v hv hgv => hsuf v (suffix_of_cons_suffix c v rest hv) hgv)
        have hhead : g (c :: subScanFAux f (fun _ => []) fuel rest) = 0 := by
          by_contra hg
          rcases subScanFAux_decomp f hfh hfe fuel rest hrest with heq | ⟨k, T, hT, hfk, hws⟩
          · rw [heq] at hg
            exact (hsuf (c :: rest) (List.suffix_refl _) hg) hm0
          · rcases hfh (rest.drop k) hfk with ⟨e2, w2, he2, hw2⟩
            have hg2 : g ((c :: rest.take k) ++ T) ≠ 0 := by
              rw [hT] at hg
              exact hg
            have hg3 := hgext (c :: rest.take k) T e2 w2 hg2 hws hw2
            have hcat : (c :: rest.take k) ++ e2 :: w2 = c :: rest := by
              rw [← he2]
              show c :: (rest.take k ++ rest.drop k) = c :: rest
              rw [List.take_append_drop]
            rw [hcat] at hg3
            exact (hsuf (c :: rest) (List.suffix_refl _) hg3) hm0
        rw [htail, hhead]
        rfl
      · have hstep : subScanFAux f (fun _ => []) (fuel + 1) (c :: rest)
            = subScanFAux f (fun _ => []) fuel (rest.drop (f (c :: rest) - 1)) := by
          simp only [subScanFAux]
          rw [if_neg hm]
          rfl
        rw [hstep]
        apply ih
        · rw [List.length_drop]
          omega
        · intro v hv hgv
          exact hsuf v
            (suffix_of_cons_suffix c v rest (hv.trans (List.drop_suffix _ rest))) hgv

theorem subScan_no_occ (f g : List Char → Nat)
    (hfh : ∀ v, f v ≠ 0 → ∃ e w, v = e :: w ∧ isPySpace e = false)
    (hfe : ∀ v c, f v ≠ 0 → (v.drop (f v)).head? = some c → isPySpace c = true)
    (hgext : ∀ p T e w2, g (p ++ T) ≠ 0 → headWsNil T → isPySpace e = false →
      g (p ++ e :: w2) ≠ 0)
    (u : List Char) (hsuf : ∀ v, v <:+ u → g v ≠ 0 → f v ≠ 0) :
    hasOcc g (subScan f [] u) = false :=
  subScanF_no_occ_aux f g hfh hfe hgext u.length u (Nat.le_refl _) hsuf

theorem subScan_url_free (u : List Char) :
    hasOcc urlLenCS (subScan urlLenCS [] u) = false :=
  subScan_no_occ urlLenCS urlLenCS urlLenCS_head urlLenCS_end_ws urlLenCS_ext u
    (fun _ _ hg => hg)

theorem subScan_doi_free (u : List Char) :
    hasOcc doiColonLen (subScan doiColonLen [] u) = false :=
  subScan_no_occ doiColonLen doiColonLen doiColonLen_head doiColonLen_end_ws doiColonLen_ext u
    (fun _ _ hg => hg)

theorem subScan_doi_preserves_url (u : List Char) (h : hasOcc urlLenCS u = false) :
    hasOcc urlLenCS (subScan doiColonLen [] u) = false :=
  subScan_no_occ doiColonLen urlLenCS doiColonLen_head doiColonLen_end_ws urlLenCS_ext u
    (fun v hv hgv => by
      exfalso
      rcases v with _ | ⟨d, t⟩
      · exact hgv (by decide)
      · exact hgv (hasOcc_suffix_zero urlLenCS u (d :: t) h hv (by simp)))

theorem stripWs_decomp (s : List Char) : ∃ pre post, s = pre ++ stripWs s ++ post := by
  rcases (List.dropWhile_suffix isPySpace : s.dropWhile isPySpace <:+ s) with ⟨pre, hpre⟩
  rcases (List.dropWhile_suffix isPySpace :
      (s.dropWhile isPySpace).reverse.dropWhile isPySpace <:+
        (s.dropWhile isPySpace).reverse) with ⟨pre2, hpre2⟩
  refine ⟨pre, pre2.reverse, ?_⟩
  rw [stripWs]
  have h3 : ((s.dropWhile isPySpace).reverse.dropWhile isPySpace).reverse ++ pre2.reverse
      = s.dropWhile isPySpace := by
    have hrev := congrArg List.reverse hpre2
    rw [List.reverse_append, List.reverse_reverse] at hrev
    exact hrev
  rw [List.append_assoc, h3]
  exact hpre.symm

theorem hasOcc_stripWs (g : List Char → Nat)
    (hmono : ∀ v x, g v ≠ 0 → g (v ++ x) ≠ 0)
    (s : List Char) (h : hasOcc g s = false) : hasOcc g (stripWs s) = false := by
  cases hcc : hasOcc g (stripWs s)
  · rfl
  · exfalso
    rcases hasOcc_true_exists g (stripWs s) hcc with ⟨d, t, hsuf, hg⟩
    rcases stripWs_decomp s with ⟨pre, post, hs⟩
    rcases hsuf with ⟨w, hw⟩
    have hsuf2 : (d :: t) ++ post <:+ s := by
      refine ⟨pre ++ w, ?_⟩
      rw [hs, ← hw]
      simp [List.append_assoc]
    have hg2 : g ((d :: t) ++ post) ≠ 0 := hmono _ post hg
    have htrue := hasOcc_suffix_true g s ((d :: t) ++ post) hsuf2 (by simp) hg2
    rw [h] at htrue
    exact Bool.false_ne_true htrue

theorem appCleanTitle_url_free (t : List Char) :
    hasOcc urlLenCS (appCleanTitle t) = false := by
  rw [appCleanTitle]
  apply hasOcc_stripWs urlLenCS urlLenCS_mono
  apply subScan_doi_preserves_url
  exact subScan_url_free (stripWs t)

theorem appCleanTitle_doi_free (t : List Char) :
    hasOcc doiColonLen (appCleanTitle t) = false := by
  rw [appCleanTitle]
  apply hasOcc_stripWs doiColonLen doiColonLen_mono
  exact subScan_doi_free _

theorem extractTitleStyled_clean (r : List Char) (style : String)
    (hs : style = "APA 7" ∨ style = "Chicago" ∨ style = "Vancouver")
    (g : List Char → Nat)
    (hclean : ∀ t, hasOcc g (appCleanTitle t) = false) :
    hasOcc g (extractTitleStyled r style) = false := by
  rcases hs with h | h | h <;> subst h
  · rw [extractTitleStyled, if_pos (by decide)]
    cases h1 : apa1Search r with
    | some g2 => exact hclean g2
    | none =>
      cases h2 : apa2Search r with
      | some g2 => exact hclean g2
      | none => rfl
  · rw [extractTitleStyled, if_neg (by decide), if_neg (by decide), if_neg (by decide),
      if_pos (by decide)]
    cases h1 : chicagoSearch r with
    | some g2 => exact hclean g2
    | none => rfl
  · rw [extractTitleStyled, if_neg (by decide), if_neg (by decide), if_neg (by decide),
      if_neg (by decide), if_pos (by decide)]
    dsimp only
    by_cases hl : (splitOnChar '.' r).length ≥ 3
    · rw [if_pos hl]
      by_cases ht : (!(stripWs ((splitOnChar '.' r).getD 1 [])).isEmpty &&
          decide (digitRunLen (stripWs ((splitOnChar '.' r).getD 1 [])) < 4)) = true
      · rw [if_pos ht]
        exact hclean _
      · rw [if_neg ht]
        rfl
    · rw [if_neg hl]
      rfl

/-- Claim C8 (corrected): the claim holds for the styles whose branches of
`extract_title_by_style` apply the cleanup `re.sub(r"https?://\S+", "", ·)`
followed by `re.sub(r"doi:\s*\S+", "", ·, re.IGNORECASE)` — "APA 7",
"Chicago" and "Vancouver": for every reference the returned title contains no
occurrence of `https?://\S+` (case-sensitively, as in `app.py`) and no
occurrence of `doi:\s*\S+`.  It is false for the quoted-group branches
("IEEE", "MLA", and the Auto cascade when they fire) and for
`extract_bibliographic_title`, whose removals are `\b`-anchored — see the
counterexample. -/
theorem c8_styled_title_clean (ref : List Char) (style : String)
    (hs : style = "APA 7" ∨ style = "Chicago" ∨ style = "Vancouver") :
    hasUrlOcc (extract_title_by_style ref style) = false ∧
      hasDoiOcc (extract_title_by_style ref style) = false := by
  rw [hasUrlOcc_eq_hasOcc, hasDoiOcc_eq_hasOcc, extract_title_by_style]
  by_cases h0 : (ref.isEmpty || (stripWs ref).isEmpty) = true
  · rw [if_pos h0]
    exact ⟨rfl, rfl⟩
  · rw [if_neg h0]
    dsimp only
    have hcond : (style == "APA 7" || style == "IEEE" || style == "MLA" ||
        style == "Chicago" || style == "Vancouver") = true := by
      rcases hs with h | h | h <;> subst h <;> decide
    rw [if_pos hcond]
    exact ⟨extractTitleStyled_clean _ style hs urlLenCS appCleanTitle_url_free,
      extractTitleStyled_clean _ style hs doiColonLen appCleanTitle_doi_free⟩

set_option maxRecDepth 8192 in
/-- Counterexample to C8 as stated: the "IEEE" branch returns the quoted
group verbatim (no URL or doi cleanup), so a URL inside the quotes survives
into a non-empty title; and `extract_bibliographic_title` removes only
`\b`-anchored `doi:` occurrences, so the mid-word occurrence in
"Xdoi:10 ..." survives into the returned title. -/
theorem c8_counterexample :
    hasUrlOcc (extract_title_by_style
        (("A. B, \"see https://x.com/p here,\" IEEE Trans., vol. 2, 2020.").data) "IEEE") =
      true ∧
    extract_title_by_style
        (("A. B, \"see https://x.com/p here,\" IEEE Trans., vol. 2, 2020.").data) "IEEE" ≠
      [] ∧
    hasDoiOcc ((extract_bibliographic_title
        (("(2020). Xdoi:10 is a sample title here.").data)).getD []) = true ∧
    (extract_bibliographic_title
        (("(2020). Xdoi:10 is a sample title here.").data)).isSome = true := by
  refine ⟨by decide, by decide, by decide, by decide⟩

set_option maxRecDepth 8192 in
/-- Witness for C8: a concrete APA 7 reference whose raw title region carries
both a URL and a doi: tag; the theorem gives occurrence-freedom, and by
computation the returned title is exactly "A tidy title".  The last conjunct
shows `extract_bibliographic_title` stripping a `\b`-anchored URL and doi: in
a concrete case. -/
theorem c8_witness :
    hasUrlOcc (extract_title_by_style
        (("Author, A. (2020). A tidy title https://x.com/p doi:10.1/x. Journal, 3(2).").data)
        "APA 7") = false ∧
      hasDoiOcc (extract_title_by_style
        (("Author, A. (2020). A tidy title https://x.com/p doi:10.1/x. Journal, 3(2).").data)
        "APA 7") = false ∧
      extract_title_by_style
        (("Author, A. (2020). A tidy title https://x.com/p doi:10.1/x. Journal, 3(2).").data)
        "APA 7" = ("A tidy title").data ∧
      (extract_bibliographic_title
        (("Author, A. (2020). A tidy title without noise. Journal of Things, 3(2). https://doi.org/10.1/x doi:10.1/x").data)).getD
        [] = ("A tidy title without noise").data :=
  ⟨(c8_styled_title_clean
      (("Author, A. (2020). A tidy title https://x.com/p doi:10.1/x. Journal, 3(2).").data)
      "APA 7" (Or.inl rfl)).1,
   (c8_styled_title_clean
      (("Author, A. (2020). A tidy title https://x.com/p doi:10.1/x. Journal, 3(2).").data)
      "APA 7" (Or.inl rfl)).2,
   by decide, by decide⟩

end DOIV
